import Mathlib

/-
Verification of the sparse-matrix kernels in scipy/sparse/sparsetools/sparsetools.h
(CSR/CSC/COO conversion and arithmetic, 2007 revision by Nathan Bell).

The C++ templates are shallowly embedded with I = Nat for indices (the claims
concern valid, in-range inputs), T = Int for values, and C arrays as Lean lists.
The accumulator work arrays next[]/sums[] hold the sentinels -1 (unvisited) and
-2 (list terminator), so they are lists over Int; a stored column index appears
as the coercion of a Nat.  All loops of the source are structural folds over the
same iteration ranges; the single while-loop (in sum_csr_duplicates) is given a
fuel argument n_col + 1, an upper bound on the touched-column count that the
linked-list invariant justifies.
-/

namespace Sparsetools

/-! ## Generic list helpers -/

theorem getD_set_ne {α : Type} (l : List α) (i j : Nat) (v d : α) (h : i ≠ j) :
    (l.set i v).getD j d = l.getD j d := by
  simp [List.getD_eq_getElem?_getD, List.getElem?_set_ne h]

theorem getD_set_self {α : Type} (l : List α) (i : Nat) (v d : α) (h : i < l.length) :
    (l.set i v).getD i d = v := by
  simp [List.getD_eq_getElem?_getD, List.getElem?_set_self, h]

theorem getD_replicate {α : Type} (n i : Nat) (a d : α) (h : i < n) :
    (List.replicate n a).getD i d = a := by
  simp [List.getD_eq_getElem?_getD, List.getElem?_replicate, h]

theorem getD_of_ge {α : Type} (l : List α) (i : Nat) (d : α) (h : l.length ≤ i) :
    l.getD i d = d := by
  simp [List.getD_eq_getElem?_getD, List.getElem?_eq_none h]

theorem eq_replicate_of_getD {α : Type} (l : List α) (n : Nat) (a d : α)
    (hl : l.length = n) (h : ∀ i < n, l.getD i d = a) : l = List.replicate n a := by
  apply List.ext_getElem (by simp [hl])
  intro i h1 h2
  have hi : i < n := by simpa [hl] using h1
  have := h i hi
  simpa [List.getD_eq_getElem?_getD, List.getElem?_eq_getElem, h1] using this

/-- Write the elements of xs into l at consecutive positions starting at k. -/
def setSeq {α : Type} (l : List α) (k : Nat) : List α → List α
  | [] => l
  | x :: xs => setSeq (l.set k x) (k + 1) xs

theorem setSeq_length {α : Type} (xs : List α) (l : List α) (k : Nat) :
    (setSeq l k xs).length = l.length := by
  induction xs generalizing l k with
  | nil => rfl
  | cons x xs ih => simp [setSeq, ih]

theorem setSeq_append {α : Type} (xs ys : List α) (l : List α) (k : Nat) :
    setSeq l k (xs ++ ys) = setSeq (setSeq l k xs) (k + xs.length) ys := by
  induction xs generalizing l k with
  | nil => simp [setSeq]
  | cons x xs ih =>
    have h2 : k + (x :: xs).length = k + 1 + xs.length := by simp; omega
    rw [List.cons_append, setSeq, setSeq, ih, h2]

theorem getD_setSeq_of_lt {α : Type} (xs : List α) (l : List α) (k p : Nat) (d : α)
    (h : p < k) : (setSeq l k xs).getD p d = l.getD p d := by
  induction xs generalizing l k with
  | nil => rfl
  | cons x xs ih =>
    rw [setSeq, ih _ _ (by omega), getD_set_ne _ _ _ _ _ (by omega)]

theorem getD_setSeq_of_ge {α : Type} (xs : List α) (l : List α) (k p : Nat) (d : α)
    (h : k + xs.length ≤ p) : (setSeq l k xs).getD p d = l.getD p d := by
  induction xs generalizing l k with
  | nil => rfl
  | cons x xs ih =>
    simp only [List.length_cons] at h
    rw [setSeq, ih _ _ (by omega), getD_set_ne _ _ _ _ _ (by omega)]

theorem getD_setSeq_at {α : Type} (xs : List α) (l : List α) (k t : Nat) (d : α)
    (ht : t < xs.length) (hb : k + t < l.length) :
    (setSeq l k xs).getD (k + t) d = xs.getD t d := by
  induction xs generalizing l k t with
  | nil => simp at ht
  | cons x xs ih =>
    match t with
    | 0 =>
      rw [Nat.add_zero, setSeq, getD_setSeq_of_lt xs (l.set k x) (k + 1) k d (by omega)]
      rw [getD_set_self l k x d (by omega)]
      simp
    | t + 1 =>
      rw [setSeq]
      have hb2 : k + 1 + t < (l.set k x).length := by simp; omega
      have := ih (l.set k x) (k + 1) t (by simpa using ht) hb2
      rw [show k + (t + 1) = k + 1 + t by omega]
      simpa using this

/-- Cumulative sums: cumFrom a [s0, s1, ...] = [a, a + s0, a + s0 + s1, ...]. -/
def cumFrom (a : Nat) : List Nat → List Nat
  | [] => [a]
  | s :: ss => a :: cumFrom (a + s) ss

theorem cumFrom_length (ss : List Nat) (a : Nat) : (cumFrom a ss).length = ss.length + 1 := by
  induction ss generalizing a with
  | nil => rfl
  | cons s ss ih => simp [cumFrom, ih]

theorem cumFrom_getD (ss : List Nat) (a : Nat) (i : Nat) (hi : i ≤ ss.length) :
    (cumFrom a ss).getD i 0 = a + ((ss.take i).sum) := by
  induction ss generalizing a i with
  | nil =>
    have hi0 : i = 0 := by simpa using hi
    subst hi0
    simp [cumFrom]
  | cons s ss ih =>
    match i with
    | 0 => simp [cumFrom]
    | i + 1 =>
      simp only [cumFrom, List.getD_cons_succ, List.take_succ_cons, List.sum_cons]
      rw [ih _ _ (by simpa using hi)]
      omega

theorem cumFrom_concat (ss : List Nat) (a s : Nat) :
    cumFrom a (ss ++ [s]) = (cumFrom a ss).concat (a + ss.sum + s) := by
  induction ss generalizing a with
  | nil => simp [cumFrom]
  | cons t ts ih =>
    have h3 := ih (a + t)
    simp only [List.cons_append, cumFrom, List.concat_eq_append, List.sum_cons,
      List.append_eq] at h3 ⊢
    rw [h3]
    simp [Nat.add_assoc]

/-! ## Row extraction.  A CSR matrix is (pointer list p, index list j, value list x);
row i occupies positions [p[i], p[i+1]) of j and x, exactly as the source loops
`for(jj = Ap[i]; jj < Ap[i+1]; jj++)` read it. -/

def rowCols (p jl : List Nat) (i : Nat) : List Nat :=
  (List.range (p.getD (i + 1) 0 - p.getD i 0)).map fun t => jl.getD (p.getD i 0 + t) 0

def rowEntries (p jl : List Nat) (xl : List Int) (i : Nat) : List (Nat × Int) :=
  (List.range (p.getD (i + 1) 0 - p.getD i 0)).map fun t =>
    (jl.getD (p.getD i 0 + t) 0, xl.getD (p.getD i 0 + t) 0)

theorem rowEntries_map_fst (p jl : List Nat) (xl : List Int) (i : Nat) :
    (rowEntries p jl xl i).map (fun e => e.1) = rowCols p jl i := by
  simp [rowEntries, rowCols, List.map_map, Function.comp]

/-- All entries of a CSR matrix in row-major order, tagged with their row: the
iteration order of the nested loops `for i / for jj` of the source. -/
def csrEntriesWithRow (n_row : Nat) (p jl : List Nat) (xl : List Int) : List (Nat × Nat × Int) :=
  (List.range n_row).flatMap fun i => (rowEntries p jl xl i).map fun e => (i, e.1, e.2)

/-- Validity of a CSR structure: well-formed pointer array, in-range column
indices, value array of matching length. -/
structure CsrValid (n_row n_col : Nat) (p jl : List Nat) (xl : List Int) : Prop where
  apLen : p.length = n_row + 1
  ap0 : p.getD 0 0 = 0
  mono : ∀ i < n_row, p.getD i 0 ≤ p.getD (i + 1) 0
  nnzLe : p.getD n_row 0 ≤ jl.length
  axLen : xl.length = jl.length
  colsLt : ∀ q < p.getD n_row 0, jl.getD q 0 < n_col

/-! ## The sparse accumulator (implicit linked list over the dense arrays
next[] and sums[]).  The scatter phases of the algorithms below all perform,
per input entry (j, v):  sums[j] += v;  if (next[j] == -1) { next[j] = head;
head = j; }  (csr_matmat_pass1 omits the sums update, csr_binop_csr uses two
value arrays A_row/B_row sharing one linked list). -/

/-- Scatter state used by csrmucsr, csr_matmat_pass2 and (twice per row)
csr_binop_csr: work arrays, list head, and the touched-column counter. -/
structure LState where
  next : List Int
  sums : List Int
  head : Int
  length : Nat

def lscatter (st : LState) (es : List (Nat × Int)) : LState :=
  es.foldl (fun st e =>
    let sums := st.sums.set e.1 (st.sums.getD e.1 0 + e.2)
    if st.next.getD e.1 0 = -1 then
      ⟨st.next.set e.1 st.head, sums, (e.1 : Int), st.length + 1⟩
    else
      ⟨st.next, sums, st.head, st.length⟩) st

/-- Scatter of sum_csr_duplicates (no length counter; the drain there is a
while-loop over the list instead of a counted for-loop). -/
def dupScatter (next sums : List Int) (head : Int) (es : List (Nat × Int)) :
    List Int × List Int × Int :=
  es.foldl (fun st e =>
    let sums := st.2.1.set e.1 (st.2.1.getD e.1 0 + e.2)
    if st.1.getD e.1 0 = -1 then
      (st.1.set e.1 st.2.2, sums, (e.1 : Int))
    else
      (st.1, sums, st.2.2)) (next, sums, head)

/-- Scatter state of csr_matmat_pass1 (presence tracking only). -/
structure PState where
  next : List Int
  head : Int
  length : Nat

def pscatter (st : PState) (ks : List Nat) : PState :=
  ks.foldl (fun st k =>
    if st.next.getD k 0 = -1 then
      ⟨st.next.set k st.head, (k : Int), st.length + 1⟩
    else
      st) st

/-! ## The drain loops. -/

/-- Drain of csrmucsr: counted loop; nonzero sums are pushed onto the growable
outputs Cj/Cx, every visited slot of next/sums is reset. -/
def mulDrain : Nat → List Int → List Int → Int → List Nat → List Int →
    List Int × List Int × List Nat × List Int
  | 0, next, sums, _, cj, cx => (next, sums, cj, cx)
  | n + 1, next, sums, head, cj, cx =>
    mulDrain n (next.set head.toNat (-1)) (sums.set head.toNat 0) (next.getD head.toNat 0)
      (if sums.getD head.toNat 0 = 0 then cj else cj.concat head.toNat)
      (if sums.getD head.toNat 0 = 0 then cx else cx.concat (sums.getD head.toNat 0))

/-- Drain of csr_matmat_pass2: counted loop writing through the cursor nnz into
the preallocated outputs. -/
def pass2Drain : Nat → List Int → List Int → Int → List Nat → List Int → Nat →
    List Int × List Int × List Nat × List Int × Nat
  | 0, next, sums, _, cj, cx, nnz => (next, sums, cj, cx, nnz)
  | n + 1, next, sums, head, cj, cx, nnz =>
    pass2Drain n (next.set head.toNat (-1)) (sums.set head.toNat 0) (next.getD head.toNat 0)
      (if sums.getD head.toNat 0 = 0 then cj else cj.set nnz head.toNat)
      (if sums.getD head.toNat 0 = 0 then cx else cx.set nnz (sums.getD head.toNat 0))
      (if sums.getD head.toNat 0 = 0 then nnz else nnz + 1)

/-- Drain of csr_binop_csr: per seen column compute op(A_row, B_row), push it if
nonzero, and reset next, A_row and B_row. -/
def binDrain (op : Int → Int → Int) : Nat → List Int → List Int → List Int → Int →
    List Nat → List Int → List Int × List Int × List Int × List Nat × List Int
  | 0, next, ar, br, _, cj, cx => (next, ar, br, cj, cx)
  | n + 1, next, ar, br, head, cj, cx =>
    binDrain op n (next.set head.toNat (-1)) (ar.set head.toNat 0) (br.set head.toNat 0)
      (next.getD head.toNat 0)
      (if op (ar.getD head.toNat 0) (br.getD head.toNat 0) = 0 then cj
        else cj.concat head.toNat)
      (if op (ar.getD head.toNat 0) (br.getD head.toNat 0) = 0 then cx
        else cx.concat (op (ar.getD head.toNat 0) (br.getD head.toNat 0)))

/-- Drain of csr_matmat_pass1: clear the visited slots only. -/
def p1Drain : Nat → List Int → Int → List Int
  | 0, next, _ => next
  | n + 1, next, head => p1Drain n (next.set head.toNat (-1)) (next.getD head.toNat 0)

/-- Drain of sum_csr_duplicates: while (head != -2) pop the list, write nonzero
sums back in place at the cursor nnz.  The while-loop is modelled with fuel;
the callers pass n_col + 1, which the linked-list invariant shows sufficient. -/
def dupDrain : Nat → List Int → List Int → Int → List Nat → List Int → Nat →
    List Int × List Int × List Nat × List Int × Nat
  | 0, next, sums, _, aj, ax, nnz => (next, sums, aj, ax, nnz)
  | fuel + 1, next, sums, head, aj, ax, nnz =>
    if head = -2 then (next, sums, aj, ax, nnz)
    else
      dupDrain fuel (next.set head.toNat (-1)) (sums.set head.toNat 0) (next.getD head.toNat 0)
        (if sums.getD head.toNat 0 = 0 then aj else aj.set nnz head.toNat)
        (if sums.getD head.toNat 0 = 0 then ax else ax.set nnz (sums.getD head.toNat 0))
        (if sums.getD head.toNat 0 = 0 then nnz else nnz + 1)

/-! ## sum_csr_duplicates (in-place duplicate coalescing). -/

structure DupState where
  next : List Int
  sums : List Int
  nnz : Nat
  rowEnd : Nat
  ap : List Nat
  aj : List Nat
  ax : List Int

/-- One outer iteration of sum_csr_duplicates: row_start = old row_end (Ap[i]
may have been overwritten already), row_end = Ap[i+1] (still intact), scatter
the row, then drain it back in place and update Ap[i+1] = nnz. -/
def dupStep (n_col : Nat) (st : DupState) (i : Nat) : DupState :=
  let rowStart := st.rowEnd
  let rowEnd := st.ap.getD (i + 1) 0
  let es := (List.range (rowEnd - rowStart)).map fun t =>
    (st.aj.getD (rowStart + t) 0, st.ax.getD (rowStart + t) 0)
  let sc := dupScatter st.next st.sums (-2) es
  let dr := dupDrain (n_col + 1) sc.1 sc.2.1 sc.2.2 st.aj st.ax st.nnz
  ⟨dr.1, dr.2.1, dr.2.2.2.2, rowEnd, st.ap.set (i + 1) dr.2.2.2.2, dr.2.2.1, dr.2.2.2.1⟩

def dupIter (n_col : Nat) (Ap Aj : List Nat) (Ax : List Int) (k : Nat) : DupState :=
  (List.range k).foldl (dupStep n_col)
    ⟨List.replicate n_col (-1), List.replicate n_col 0, 0, 0, Ap, Aj, Ax⟩

def sum_csr_duplicates (n_row n_col : Nat) (Ap Aj : List Nat) (Ax : List Int) :
    List Nat × List Nat × List Int :=
  let st := dupIter n_col Ap Aj Ax n_row
  (st.ap, st.aj, st.ax)

/-! ## coo_tocsr (counting-sort conversion; ends by coalescing in place). -/

def coo_tocsr (n_row n_col nnz : Nat) (Ai Aj : List Nat) (Ax : List Int) :
    List Nat × List Nat × List Int :=
  let temp := (List.range nnz).foldl
    (fun t i => t.set (Ai.getD i 0) (t.getD (Ai.getD i 0) 0 + 1)) (List.replicate n_row 0)
  let bp0 := ((List.range n_row).foldl
    (fun p i => (p.1.concat p.2, p.2 + temp.getD i 0)) (([] : List Nat), 0)).1
  let Bp := bp0.concat nnz
  let temp2 := Bp.take n_row
  let sc := (List.range nnz).foldl
    (fun st i =>
      let row := Ai.getD i 0
      let n := st.2.2.getD row 0
      (st.1.set n (Aj.getD i 0), st.2.1.set n (Ax.getD i 0), st.2.2.set row (n + 1)))
    (List.replicate nnz 0, List.replicate nnz 0, temp2)
  sum_csr_duplicates n_row n_col Bp sc.1 sc.2.1

/-! ## csr_tocsc / csc_tocsr (counting-sort transpose). -/

def csr_tocsc (n_row n_col : Nat) (Ap Aj : List Nat) (Ax : List Int) :
    List Nat × List Nat × List Int :=
  let nnz := Ap.getD n_row 0
  let temp := (List.range nnz).foldl
    (fun t i => t.set (Aj.getD i 0) (t.getD (Aj.getD i 0) 0 + 1)) (List.replicate n_col 0)
  let bp0 := ((List.range n_col).foldl
    (fun p i => (p.1.concat p.2, p.2 + temp.getD i 0)) (([] : List Nat), 0)).1
  let Bp := bp0.concat nnz
  let temp2 := Bp.take n_col
  let sc := (csrEntriesWithRow n_row Ap Aj Ax).foldl
    (fun st e =>
      let k := st.2.2.getD e.2.1 0
      (st.1.set k e.1, st.2.1.set k e.2.2, st.2.2.set e.2.1 (k + 1)))
    (List.replicate nnz 0, List.replicate nnz 0, temp2)
  (Bp, sc.1, sc.2.1)

def csc_tocsr (n_row n_col : Nat) (Ap Ai : List Nat) (Ax : List Int) :
    List Nat × List Nat × List Int :=
  csr_tocsc n_col n_row Ap Ai Ax

/-! ## csrmucsr (sparse matrix product, SMMP style, single combined pass). -/

structure MucsrState where
  next : List Int
  sums : List Int
  cp : List Nat
  cj : List Nat
  cx : List Int

/-- The per-row entry stream of the product loops: for each nonzero (j, v) of
row i of A, for each nonzero (k, w) of row j of B, the contribution (k, v*w),
in exactly the nested iteration order of the source. -/
def mulRowEntries (Ap Aj : List Nat) (Ax : List Int) (Bp Bj : List Nat) (Bx : List Int)
    (i : Nat) : List (Nat × Int) :=
  (rowEntries Ap Aj Ax i).flatMap fun jv =>
    (rowEntries Bp Bj Bx jv.1).map fun kw => (kw.1, jv.2 * kw.2)

def mucsrStep (Ap Aj : List Nat) (Ax : List Int) (Bp Bj : List Nat) (Bx : List Int)
    (st : MucsrState) (i : Nat) : MucsrState :=
  let es := mulRowEntries Ap Aj Ax Bp Bj Bx i
  let s := lscatter ⟨st.next, st.sums, -2, 0⟩ es
  let dr := mulDrain s.length s.next s.sums s.head st.cj st.cx
  ⟨dr.1, dr.2.1, st.cp.concat dr.2.2.2.length, dr.2.2.1, dr.2.2.2⟩

def mucsrIter (n_col : Nat) (Ap Aj : List Nat) (Ax : List Int) (Bp Bj : List Nat)
    (Bx : List Int) (k : Nat) : MucsrState :=
  (List.range k).foldl (mucsrStep Ap Aj Ax Bp Bj Bx)
    ⟨List.replicate n_col (-1), List.replicate n_col 0, [0], [], []⟩

def csrmucsr (n_row n_col : Nat) (Ap Aj : List Nat) (Ax : List Int) (Bp Bj : List Nat)
    (Bx : List Int) : List Nat × List Nat × List Int :=
  let st := mucsrIter n_col Ap Aj Ax Bp Bj Bx n_row
  (st.cp, st.cj, st.cx)

/-! ## csr_matmat_pass1 / csr_matmat_pass2 (two-pass product). -/

/-- The column stream of the symbolic pass: for each column j of row i of A,
all columns of row j of B, in the nested iteration order of the source. -/
def pass1Cols (Ap Aj Bp Bj : List Nat) (i : Nat) : List Nat :=
  (rowCols Ap Aj i).flatMap fun j => rowCols Bp Bj j

def pass1Step (Ap Aj Bp Bj : List Nat) (st : List Int × List Nat) (i : Nat) :
    List Int × List Nat :=
  let ks := pass1Cols Ap Aj Bp Bj i
  let s := pscatter ⟨st.1, -2, 0⟩ ks
  let next := p1Drain s.length s.next s.head
  (next, st.2.concat (st.2.getD i 0 + s.length))

def csr_matmat_pass1 (n_row n_col : Nat) (Ap Aj Bp Bj : List Nat) : List Nat :=
  ((List.range n_row).foldl (pass1Step Ap Aj Bp Bj) (List.replicate n_col (-1), [0])).2

structure P2State where
  next : List Int
  sums : List Int
  nnz : Nat
  cp : List Nat
  cj : List Nat
  cx : List Int

def pass2Step (Ap Aj : List Nat) (Ax : List Int) (Bp Bj : List Nat) (Bx : List Int)
    (st : P2State) (i : Nat) : P2State :=
  let es := mulRowEntries Ap Aj Ax Bp Bj Bx i
  let s := lscatter ⟨st.next, st.sums, -2, 0⟩ es
  let dr := pass2Drain s.length s.next s.sums s.head st.cj st.cx st.nnz
  ⟨dr.1, dr.2.1, dr.2.2.2.2, st.cp.concat dr.2.2.2.2, dr.2.2.1, dr.2.2.2.1⟩

def csr_matmat_pass2 (n_row n_col : Nat) (Ap Aj : List Nat) (Ax : List Int)
    (Bp Bj : List Nat) (Bx : List Int) (Cj : List Nat) (Cx : List Int) :
    List Nat × List Nat × List Int :=
  let st := (List.range n_row).foldl (pass2Step Ap Aj Ax Bp Bj Bx)
    ⟨List.replicate n_col (-1), List.replicate n_col 0, 0, [0], Cj, Cx⟩
  (st.cp, st.cj, st.cx)

/-! ## csr_binop_csr and the four elementwise operations. -/

structure BinopState where
  next : List Int
  arow : List Int
  brow : List Int
  cp : List Nat
  cj : List Nat
  cx : List Int

def binopStep (op : Int → Int → Int) (Ap Aj : List Nat) (Ax : List Int) (Bp Bj : List Nat)
    (Bx : List Int) (st : BinopState) (i : Nat) : BinopState :=
  let sA := lscatter ⟨st.next, st.arow, -2, 0⟩ (rowEntries Ap Aj Ax i)
  let sB := lscatter ⟨sA.next, st.brow, sA.head, sA.length⟩ (rowEntries Bp Bj Bx i)
  let dr := binDrain op sB.length sB.next sA.sums sB.sums sB.head st.cj st.cx
  ⟨dr.1, dr.2.1, dr.2.2.1, st.cp.concat dr.2.2.2.2.length, dr.2.2.2.1, dr.2.2.2.2⟩

def binopIter (op : Int → Int → Int) (n_col : Nat) (Ap Aj : List Nat) (Ax : List Int)
    (Bp Bj : List Nat) (Bx : List Int) (k : Nat) : BinopState :=
  (List.range k).foldl (binopStep op Ap Aj Ax Bp Bj Bx)
    ⟨List.replicate n_col (-1), List.replicate n_col 0, List.replicate n_col 0, [0], [], []⟩

def csr_binop_csr (n_row n_col : Nat) (Ap Aj : List Nat) (Ax : List Int) (Bp Bj : List Nat)
    (Bx : List Int) (op : Int → Int → Int) : List Nat × List Nat × List Int :=
  let st := binopIter op n_col Ap Aj Ax Bp Bj Bx n_row
  (st.cp, st.cj, st.cx)

def csr_plus_csr (n_row n_col : Nat) (Ap Aj : List Nat) (Ax : List Int) (Bp Bj : List Nat)
    (Bx : List Int) : List Nat × List Nat × List Int :=
  csr_binop_csr n_row n_col Ap Aj Ax Bp Bj Bx (fun a b => a + b)

/-! ## Specification-side descriptions of the accumulator contents. -/

/-- Total value contributed to column c by the entry list es (duplicates summed). -/
def sumAt (es : List (Nat × Int)) (c : Nat) : Int :=
  ((es.filter fun e => decide (e.1 = c)).map fun e => e.2).sum

theorem sumAt_nil (c : Nat) : sumAt [] c = 0 := rfl

theorem sumAt_cons (k : Nat) (v : Int) (es : List (Nat × Int)) (c : Nat) :
    sumAt ((k, v) :: es) c = (if k = c then v else 0) + sumAt es c := by
  by_cases h : k = c <;> simp [sumAt, h]

theorem sumAt_eq_zero_of_not_mem (es : List (Nat × Int)) (c : Nat)
    (h : c ∉ es.map fun e => e.1) : sumAt es c = 0 := by
  induction es with
  | nil => rfl
  | cons e es ih =>
    simp only [List.map_cons, List.mem_cons] at h
    push_neg at h
    rw [show e = (e.1, e.2) from rfl, sumAt_cons, if_neg (fun hh => h.1 hh.symm), ih h.2]
    simp

/-- The touched-column list in reverse first-touch order; the fold mirrors the
source test `if (next[j] == -1)` which, under the chain invariant, is
equivalent to membership in the current list. -/
def touchedFold (tl : List Nat) (cols : List Nat) : List Nat :=
  cols.foldl (fun acc c => if c ∈ acc then acc else c :: acc) tl

theorem touchedFold_nil (tl : List Nat) : touchedFold tl [] = tl := rfl

theorem touchedFold_cons (tl : List Nat) (c : Nat) (cols : List Nat) :
    touchedFold tl (c :: cols) = touchedFold (if c ∈ tl then tl else c :: tl) cols := by
  by_cases h : c ∈ tl <;> simp [touchedFold, h]

theorem mem_touchedFold (cols : List Nat) (tl : List Nat) (c : Nat) :
    c ∈ touchedFold tl cols ↔ c ∈ tl ∨ c ∈ cols := by
  induction cols generalizing tl with
  | nil => simp [touchedFold]
  | cons k cols ih =>
    rw [touchedFold_cons]
    by_cases h : k ∈ tl
    · rw [if_pos h, ih]
      constructor
      · rintro (h1 | h1)
        · exact Or.inl h1
        · exact Or.inr (List.mem_cons_of_mem _ h1)
      · rintro (h1 | h1)
        · exact Or.inl h1
        · rcases List.mem_cons.1 h1 with h2 | h2
          · exact Or.inl (h2 ▸ h)
          · exact Or.inr h2
    · rw [if_neg h, ih]
      simp only [List.mem_cons]
      tauto

theorem nodup_touchedFold (cols : List Nat) (tl : List Nat) (h : tl.Nodup) :
    (touchedFold tl cols).Nodup := by
  induction cols generalizing tl with
  | nil => exact h
  | cons k cols ih =>
    rw [touchedFold_cons]
    by_cases hk : k ∈ tl
    · rw [if_pos hk]; exact ih tl h
    · rw [if_neg hk]; exact ih (k :: tl) (List.nodup_cons.2 ⟨hk, h⟩)

theorem length_touchedFold_le (cols : List Nat) (tl : List Nat) :
    (touchedFold tl cols).length ≤ tl.length + cols.length := by
  induction cols generalizing tl with
  | nil => simp [touchedFold]
  | cons k cols ih =>
    rw [touchedFold_cons]
    by_cases hk : k ∈ tl
    · rw [if_pos hk]
      calc (touchedFold tl cols).length ≤ tl.length + cols.length := ih tl
        _ ≤ tl.length + (k :: cols).length := by simp
    · rw [if_neg hk]
      calc (touchedFold (k :: tl) cols).length ≤ (k :: tl).length + cols.length := ih (k :: tl)
        _ = tl.length + (k :: cols).length := by simp; omega

theorem touchedFold_of_nodup (cols : List Nat) (tl : List Nat) (h : cols.Nodup)
    (hd : ∀ c ∈ cols, c ∉ tl) : touchedFold tl cols = cols.reverse ++ tl := by
  induction cols generalizing tl with
  | nil => simp [touchedFold]
  | cons k cols ih =>
    rw [touchedFold_cons, if_neg (hd k (List.mem_cons_self k cols))]
    rw [ih (k :: tl) (List.nodup_cons.1 h).2]
    · simp
    · intro c hc
      simp only [List.mem_cons]
      push_neg
      constructor
      · intro hck
        exact (List.nodup_cons.1 h).1 (hck ▸ hc)
      · exact hd c (List.mem_cons_of_mem _ hc)

theorem touchedFold_append (tl : List Nat) (cols1 cols2 : List Nat) :
    touchedFold tl (cols1 ++ cols2) = touchedFold (touchedFold tl cols1) cols2 := by
  simp [touchedFold, List.foldl_append]

/-! ## The implicit linked list: representation invariant. -/

/-- The chain predicate: starting from head, following next[] visits exactly
the columns of tl in order and ends at the sentinel -2. -/
def isChain (next : List Int) : Int → List Nat → Prop
  | h, [] => h = -2
  | h, c :: cs => h = (c : Int) ∧ isChain next (next.getD c 0) cs

/-- Invariant tying the work arrays to the abstract touched list tl. -/
structure ChainInv (n : Nat) (next : List Int) (head : Int) (tl : List Nat) : Prop where
  len : next.length = n
  chain : isChain next head tl
  nodup : tl.Nodup
  bound : ∀ c ∈ tl, c < n
  unvis : ∀ j, j < n → j ∉ tl → next.getD j 0 = -1

theorem isChain_set_of_not_mem (tl : List Nat) (next : List Int) (h : Int) (j : Nat) (v : Int)
    (hc : isChain next h tl) (hj : j ∉ tl) : isChain (next.set j v) h tl := by
  induction tl generalizing h with
  | nil => exact hc
  | cons c cs ih =>
    obtain ⟨h1, h2⟩ := hc
    refine ⟨h1, ?_⟩
    rw [getD_set_ne _ _ _ _ _ (fun hjc => hj (List.mem_cons.2 (Or.inl hjc)))]
    exact ih _ h2 (fun hm => hj (List.mem_cons_of_mem _ hm))

theorem chain_mem_ne_neg_one (tl : List Nat) (next : List Int) (h : Int) (c : Nat)
    (hc : isChain next h tl) (hm : c ∈ tl) : next.getD c 0 ≠ -1 := by
  induction tl generalizing h with
  | nil => simp at hm
  | cons c' cs ih =>
    obtain ⟨h1, h2⟩ := hc
    rcases List.mem_cons.1 hm with h3 | h3
    · subst h3
      match cs, h2 with
      | [], h2 => rw [h2]; decide
      | c'' :: cs', h2 =>
        rw [h2.1]
        intro hcon
        omega
    · exact ih _ h2 h3

/-- The membership test of the source (`next[j] == -1`) decides membership in tl. -/
theorem chainInv_mem_iff (n : Nat) (next : List Int) (head : Int) (tl : List Nat)
    (inv : ChainInv n next head tl) (j : Nat) (hj : j < n) :
    next.getD j 0 = -1 ↔ j ∉ tl := by
  constructor
  · intro h hm
    exact chain_mem_ne_neg_one tl next head j inv.chain hm h
  · intro h
    exact inv.unvis j hj h

/-! ## Scatter-phase characterization. -/

theorem lscatter_cons (st : LState) (e : Nat × Int) (es : List (Nat × Int)) :
    lscatter st (e :: es) =
      if st.next.getD e.1 0 = -1 then
        lscatter ⟨st.next.set e.1 st.head, st.sums.set e.1 (st.sums.getD e.1 0 + e.2),
          (e.1 : Int), st.length + 1⟩ es
      else lscatter ⟨st.next, st.sums.set e.1 (st.sums.getD e.1 0 + e.2), st.head, st.length⟩ es := by
  simp only [lscatter, List.foldl_cons]
  split <;> rfl

theorem dupScatter_cons (next sums : List Int) (head : Int) (e : Nat × Int)
    (es : List (Nat × Int)) :
    dupScatter next sums head (e :: es) =
      if next.getD e.1 0 = -1 then
        dupScatter (next.set e.1 head) (sums.set e.1 (sums.getD e.1 0 + e.2)) (e.1 : Int) es
      else dupScatter next (sums.set e.1 (sums.getD e.1 0 + e.2)) head es := by
  simp only [dupScatter, List.foldl_cons]
  split <;> rfl

theorem pscatter_cons (st : PState) (k : Nat) (ks : List Nat) :
    pscatter st (k :: ks) =
      if st.next.getD k 0 = -1 then
        pscatter ⟨st.next.set k st.head, (k : Int), st.length + 1⟩ ks
      else pscatter st ks := by
  simp only [pscatter, List.foldl_cons]
  split <;> rfl

theorem lscatter_spec (es : List (Nat × Int)) (n : Nat) (st : LState) (tl : List Nat)
    (inv : ChainInv n st.next st.head tl) (hs : st.sums.length = n)
    (hes : ∀ e ∈ es, e.1 < n) (hlen : st.length = tl.length) :
    ChainInv n (lscatter st es).next (lscatter st es).head
        (touchedFold tl (es.map fun e => e.1)) ∧
      (lscatter st es).sums.length = n ∧
      (∀ c, c < n → (lscatter st es).sums.getD c 0 = st.sums.getD c 0 + sumAt es c) ∧
      (lscatter st es).length = (touchedFold tl (es.map fun e => e.1)).length := by
  induction es generalizing st tl with
  | nil =>
    refine ⟨inv, hs, ?_, hlen⟩
    intro c _
    simp [lscatter, touchedFold, sumAt]
  | cons e es ih =>
    have hk : e.1 < n := hes e (List.mem_cons_self e es)
    rw [lscatter_cons]
    by_cases hmem : st.next.getD e.1 0 = -1
    · have hnotm : e.1 ∉ tl := (chainInv_mem_iff n st.next st.head tl inv e.1 hk).1 hmem
      rw [if_pos hmem]
      have inv2 : ChainInv n (st.next.set e.1 st.head) (e.1 : Int) (e.1 :: tl) := by
        refine ⟨by simp [inv.len], ⟨rfl, ?_⟩, List.nodup_cons.2 ⟨hnotm, inv.nodup⟩, ?_, ?_⟩
        · rw [getD_set_self _ _ _ _ (by rw [inv.len]; exact hk)]
          exact isChain_set_of_not_mem tl st.next st.head e.1 st.head inv.chain hnotm
        · intro c hc
          rcases List.mem_cons.1 hc with h | h
          · exact h ▸ hk
          · exact inv.bound c h
        · intro j hjn hjm
          rw [getD_set_ne _ _ _ _ _ (fun hje => hjm (List.mem_cons.2 (Or.inl hje.symm)))]
          exact inv.unvis j hjn (fun hm => hjm (List.mem_cons_of_mem _ hm))
      have := ih ⟨st.next.set e.1 st.head, st.sums.set e.1 (st.sums.getD e.1 0 + e.2),
          (e.1 : Int), st.length + 1⟩ (e.1 :: tl) inv2 (by simp [hs])
        (fun e' he' => hes e' (List.mem_cons_of_mem _ he')) (by simp [hlen])
      obtain ⟨i1, i2, i3, i4⟩ := this
      have htf : touchedFold tl ((e :: es).map fun e => e.1) =
          touchedFold (e.1 :: tl) (es.map fun e => e.1) := by
        rw [List.map_cons, touchedFold_cons, if_neg hnotm]
      refine ⟨htf ▸ i1, i2, ?_, htf ▸ i4⟩
      intro c hc
      rw [i3 c hc]
      by_cases hec : e.1 = c
      · subst hec
        rw [getD_set_self _ _ _ _ (by rw [hs]; exact hk)]
        rw [show e = (e.1, e.2) from rfl, sumAt_cons, if_pos rfl]
        ring
      · rw [getD_set_ne _ _ _ _ _ hec]
        rw [show e = (e.1, e.2) from rfl, sumAt_cons, if_neg hec]
        ring
    · have hm : e.1 ∈ tl := by
        by_contra hcon
        exact hmem ((chainInv_mem_iff n st.next st.head tl inv e.1 hk).2 hcon)
      rw [if_neg hmem]
      have := ih ⟨st.next, st.sums.set e.1 (st.sums.getD e.1 0 + e.2), st.head, st.length⟩ tl
        inv (by simp [hs]) (fun e' he' => hes e' (List.mem_cons_of_mem _ he')) hlen
      obtain ⟨i1, i2, i3, i4⟩ := this
      have htf : touchedFold tl ((e :: es).map fun e => e.1) =
          touchedFold tl (es.map fun e => e.1) := by
        rw [List.map_cons, touchedFold_cons, if_pos hm]
      refine ⟨htf ▸ i1, i2, ?_, htf ▸ i4⟩
      intro c hc
      rw [i3 c hc]
      by_cases hec : e.1 = c
      · subst hec
        rw [getD_set_self _ _ _ _ (by rw [hs]; exact hk)]
        rw [show e = (e.1, e.2) from rfl, sumAt_cons, if_pos rfl]
        ring
      · rw [getD_set_ne _ _ _ _ _ hec]
        rw [show e = (e.1, e.2) from rfl, sumAt_cons, if_neg hec]
        ring

theorem dupScatter_eq_lscatter (es : List (Nat × Int)) (next sums : List Int) (head : Int)
    (len : Nat) :
    dupScatter next sums head es =
      ((lscatter ⟨next, sums, head, len⟩ es).next, (lscatter ⟨next, sums, head, len⟩ es).sums,
        (lscatter ⟨next, sums, head, len⟩ es).head) := by
  induction es generalizing next sums head len with
  | nil => rfl
  | cons e es ih =>
    rw [dupScatter_cons, lscatter_cons]
    by_cases h : next.getD e.1 0 = -1
    · rw [if_pos h, if_pos h, ih]
    · rw [if_neg h, if_neg h, ih]

theorem pscatter_spec (ks : List Nat) (n : Nat) (st : PState) (tl : List Nat)
    (inv : ChainInv n st.next st.head tl) (hks : ∀ k ∈ ks, k < n)
    (hlen : st.length = tl.length) :
    ChainInv n (pscatter st ks).next (pscatter st ks).head (touchedFold tl ks) ∧
      (pscatter st ks).length = (touchedFold tl ks).length := by
  induction ks generalizing st tl with
  | nil => exact ⟨inv, hlen⟩
  | cons k ks ih =>
    have hk : k < n := hks k (List.mem_cons_self k ks)
    rw [pscatter_cons]
    by_cases hmem : st.next.getD k 0 = -1
    · have hnotm : k ∉ tl := (chainInv_mem_iff n st.next st.head tl inv k hk).1 hmem
      rw [if_pos hmem]
      have inv2 : ChainInv n (st.next.set k st.head) (k : Int) (k :: tl) := by
        refine ⟨by simp [inv.len], ⟨rfl, ?_⟩, List.nodup_cons.2 ⟨hnotm, inv.nodup⟩, ?_, ?_⟩
        · rw [getD_set_self _ _ _ _ (by rw [inv.len]; exact hk)]
          exact isChain_set_of_not_mem tl st.next st.head k st.head inv.chain hnotm
        · intro c hc
          rcases List.mem_cons.1 hc with h | h
          · exact h ▸ hk
          · exact inv.bound c h
        · intro j hjn hjm
          rw [getD_set_ne _ _ _ _ _ (fun hje => hjm (List.mem_cons.2 (Or.inl hje.symm)))]
          exact inv.unvis j hjn (fun hm => hjm (List.mem_cons_of_mem _ hm))
      have := ih ⟨st.next.set k st.head, (k : Int), st.length + 1⟩ (k :: tl) inv2
        (fun k' hk' => hks k' (List.mem_cons_of_mem _ hk')) (by simp [hlen])
      have htf : touchedFold tl (k :: ks) = touchedFold (k :: tl) ks := by
        rw [touchedFold_cons, if_neg hnotm]
      exact ⟨htf ▸ this.1, htf ▸ this.2⟩
    · have hm : k ∈ tl := by
        by_contra hcon
        exact hmem ((chainInv_mem_iff n st.next st.head tl inv k hk).2 hcon)
      rw [if_neg hmem]
      have := ih st tl inv (fun k' hk' => hks k' (List.mem_cons_of_mem _ hk')) hlen
      have htf : touchedFold tl (k :: ks) = touchedFold tl ks := by
        rw [touchedFold_cons, if_pos hm]
      exact ⟨htf ▸ this.1, htf ▸ this.2⟩

/-! ## Drain-phase characterization. -/

/-- The list of (column, value) pairs a zero-suppressing drain emits when the
touched list is tl and the accumulated values are read off sums. -/
def emitList (sums : List Int) (tl : List Nat) : List (Nat × Int) :=
  tl.filterMap fun c => if sums.getD c 0 = 0 then none else some (c, sums.getD c 0)

theorem emitList_congr (sums sums2 : List Int) (tl : List Nat)
    (h : ∀ c ∈ tl, sums.getD c 0 = sums2.getD c 0) : emitList sums tl = emitList sums2 tl := by
  apply List.filterMap_congr
  intro c hc
  rw [h c hc]

theorem emitList_cons (sums : List Int) (c : Nat) (cs : List Nat) :
    emitList sums (c :: cs) =
      (if sums.getD c 0 = 0 then [] else [(c, sums.getD c 0)]) ++ emitList sums cs := by
  unfold emitList
  rw [List.filterMap_cons]
  by_cases h : sums.getD c 0 = 0
  · simp only [if_pos h, List.nil_append]
  · simp only [if_neg h, List.cons_append, List.nil_append]

theorem emitList_length_le (sums : List Int) (tl : List Nat) :
    (emitList sums tl).length ≤ tl.length :=
  List.length_filterMap_le _ _

theorem emitList_set_of_not_mem (sums : List Int) (c : Nat) (v : Int) (cs : List Nat)
    (h : c ∉ cs) : emitList (sums.set c v) cs = emitList sums cs := by
  apply emitList_congr
  intro c' hc'
  exact getD_set_ne _ _ _ _ _ (fun he => h (he ▸ hc'))

/-- The pairs emitted by the csr_binop_csr drain: per seen column c the
candidate value is op(A_row[c], B_row[c]), suppressed if zero. -/
def binEmitList (op : Int → Int → Int) (ar br : List Int) (tl : List Nat) : List (Nat × Int) :=
  tl.filterMap fun c =>
    if op (ar.getD c 0) (br.getD c 0) = 0 then none
    else some (c, op (ar.getD c 0) (br.getD c 0))

theorem binEmitList_cons (op : Int → Int → Int) (ar br : List Int) (c : Nat) (cs : List Nat) :
    binEmitList op ar br (c :: cs) =
      (if op (ar.getD c 0) (br.getD c 0) = 0 then []
        else [(c, op (ar.getD c 0) (br.getD c 0))]) ++ binEmitList op ar br cs := by
  unfold binEmitList
  rw [List.filterMap_cons]
  by_cases h : op (ar.getD c 0) (br.getD c 0) = 0
  · simp only [if_pos h, List.nil_append]
  · simp only [if_neg h, List.cons_append, List.nil_append]

/-- Popping the head of the chain and clearing its slot preserves the invariant
for the tail. -/
theorem chainInv_tail (n : Nat) (next : List Int) (head : Int) (c : Nat) (cs : List Nat)
    (inv : ChainInv n next head (c :: cs)) :
    ChainInv n (next.set c (-1)) (next.getD c 0) cs := by
  obtain ⟨h1, h2⟩ := inv.chain
  have hcn : c < n := inv.bound c (List.mem_cons_self c cs)
  have hccs : c ∉ cs := (List.nodup_cons.1 inv.nodup).1
  refine ⟨by simp [inv.len], ?_, (List.nodup_cons.1 inv.nodup).2, ?_, ?_⟩
  · exact isChain_set_of_not_mem cs next _ c (-1) h2 hccs
  · intro c' hc'
    exact inv.bound c' (List.mem_cons_of_mem _ hc')
  · intro j hjn hjm
    by_cases hjc : j = c
    · subst hjc
      exact getD_set_self _ _ _ _ (by rw [inv.len]; exact hcn)
    · rw [getD_set_ne _ _ _ _ _ (fun he => hjc he.symm)]
      exact inv.unvis j hjn (by
        intro hm
        rcases List.mem_cons.1 hm with h | h
        · exact hjc h
        · exact hjm h)

theorem chainInv_head_eq (n : Nat) (next : List Int) (head : Int) (c : Nat) (cs : List Nat)
    (inv : ChainInv n next head (c :: cs)) : head = (c : Int) := inv.chain.1

theorem next_eq_replicate (n : Nat) (next : List Int) (head : Int)
    (inv : ChainInv n next head []) : next = List.replicate n (-1) := by
  apply eq_replicate_of_getD next n (-1) 0 inv.len
  intro i hi
  exact inv.unvis i hi (by simp)

theorem sums_eq_replicate (n : Nat) (sums : List Int)
    (hs : sums.length = n) (hz : ∀ j, j < n → j ∉ ([] : List Nat) → sums.getD j 0 = 0) :
    sums = List.replicate n 0 := by
  apply eq_replicate_of_getD sums n 0 0 hs
  intro i hi
  exact hz i hi (by simp)

theorem zero_tail (n : Nat) (sums : List Int) (c : Nat) (cs : List Nat)
    (hz : ∀ j, j < n → j ∉ c :: cs → sums.getD j 0 = 0) (hcn : c < n)
    (hsl : sums.length = n) :
    ∀ j, j < n → j ∉ cs → (sums.set c 0).getD j 0 = 0 := by
  intro j hjn hjm
  by_cases hjc : j = c
  · subst hjc
    exact getD_set_self _ _ _ _ (by omega)
  · rw [getD_set_ne _ _ _ _ _ (fun he => hjc he.symm)]
    exact hz j hjn (by
      intro hm
      rcases List.mem_cons.1 hm with h | h
      · exact hjc h
      · exact hjm h)

theorem mulDrain_spec (tl : List Nat) (n : Nat) (next sums : List Int) (head : Int)
    (cj : List Nat) (cx : List Int) (inv : ChainInv n next head tl) (hs : sums.length = n)
    (hz : ∀ j, j < n → j ∉ tl → sums.getD j 0 = 0) :
    mulDrain tl.length next sums head cj cx =
      (List.replicate n (-1), List.replicate n 0,
        cj ++ (emitList sums tl).map (fun e => e.1),
        cx ++ (emitList sums tl).map (fun e => e.2)) := by
  induction tl generalizing next sums head cj cx with
  | nil =>
    rw [List.length_nil]
    show (next, sums, cj, cx) = _
    rw [next_eq_replicate n next head inv, sums_eq_replicate n sums hs hz]
    simp [emitList]
  | cons c cs ih =>
    have hcn : c < n := inv.bound c (List.mem_cons_self c cs)
    have hccs : c ∉ cs := (List.nodup_cons.1 inv.nodup).1
    have hhead : head = (c : Int) := chainInv_head_eq n next head c cs inv
    rw [List.length_cons]
    show mulDrain (cs.length + 1) next sums head cj cx = _
    rw [mulDrain, hhead]
    have htn : ((c : Int)).toNat = c := Int.toNat_natCast c
    rw [htn]
    have ihres := ih (next.set c (-1)) (sums.set c 0) (next.getD c 0)
      (if sums.getD c 0 = 0 then cj else cj.concat c)
      (if sums.getD c 0 = 0 then cx else cx.concat (sums.getD c 0))
      (chainInv_tail n next head c cs (hhead ▸ inv)) (by simp [hs])
      (zero_tail n sums c cs hz hcn hs)
    rw [ihres, emitList_set_of_not_mem sums c 0 cs hccs, emitList_cons]
    by_cases h0 : sums.getD c 0 = 0
    · simp only [if_pos h0, List.nil_append]
    · simp only [if_neg h0, List.concat_eq_append, List.map_cons, List.cons_append,
        List.nil_append, List.append_assoc, List.singleton_append]

theorem pass2Drain_spec (tl : List Nat) (n : Nat) (next sums : List Int) (head : Int)
    (cj : List Nat) (cx : List Int) (nnz : Nat) (inv : ChainInv n next head tl)
    (hs : sums.length = n) (hz : ∀ j, j < n → j ∉ tl → sums.getD j 0 = 0) :
    pass2Drain tl.length next sums head cj cx nnz =
      (List.replicate n (-1), List.replicate n 0,
        setSeq cj nnz ((emitList sums tl).map fun e => e.1),
        setSeq cx nnz ((emitList sums tl).map fun e => e.2),
        nnz + (emitList sums tl).length) := by
  induction tl generalizing next sums head cj cx nnz with
  | nil =>
    rw [List.length_nil]
    show (next, sums, cj, cx, nnz) = _
    rw [next_eq_replicate n next head inv, sums_eq_replicate n sums hs hz]
    simp [emitList, setSeq]
  | cons c cs ih =>
    have hcn : c < n := inv.bound c (List.mem_cons_self c cs)
    have hccs : c ∉ cs := (List.nodup_cons.1 inv.nodup).1
    have hhead : head = (c : Int) := chainInv_head_eq n next head c cs inv
    rw [List.length_cons]
    show pass2Drain (cs.length + 1) next sums head cj cx nnz = _
    rw [pass2Drain, hhead, Int.toNat_natCast]
    have ihres := ih (next.set c (-1)) (sums.set c 0) (next.getD c 0)
      (if sums.getD c 0 = 0 then cj else cj.set nnz c)
      (if sums.getD c 0 = 0 then cx else cx.set nnz (sums.getD c 0))
      (if sums.getD c 0 = 0 then nnz else nnz + 1)
      (chainInv_tail n next head c cs (hhead ▸ inv)) (by simp [hs])
      (zero_tail n sums c cs hz hcn hs)
    rw [ihres, emitList_set_of_not_mem sums c 0 cs hccs, emitList_cons]
    by_cases h0 : sums.getD c 0 = 0
    · simp only [if_pos h0, List.nil_append]
    · simp only [if_neg h0, List.cons_append, List.nil_append, List.map_cons, setSeq,
        List.length_cons, List.length_append, List.length_nil, Prod.mk.injEq, true_and,
        and_true]
      omega

theorem binDrain_spec (op : Int → Int → Int) (tl : List Nat) (n : Nat)
    (next ar br : List Int) (head : Int) (cj : List Nat) (cx : List Int)
    (inv : ChainInv n next head tl) (har : ar.length = n) (hbr : br.length = n)
    (hza : ∀ j, j < n → j ∉ tl → ar.getD j 0 = 0)
    (hzb : ∀ j, j < n → j ∉ tl → br.getD j 0 = 0) :
    binDrain op tl.length next ar br head cj cx =
      (List.replicate n (-1), List.replicate n 0, List.replicate n 0,
        cj ++ (binEmitList op ar br tl).map (fun e => e.1),
        cx ++ (binEmitList op ar br tl).map (fun e => e.2)) := by
  induction tl generalizing next ar br head cj cx with
  | nil =>
    rw [List.length_nil]
    show (next, ar, br, cj, cx) = _
    rw [next_eq_replicate n next head inv, sums_eq_replicate n ar har hza,
      sums_eq_replicate n br hbr hzb]
    simp [binEmitList]
  | cons c cs ih =>
    have hcn : c < n := inv.bound c (List.mem_cons_self c cs)
    have hccs : c ∉ cs := (List.nodup_cons.1 inv.nodup).1
    have hhead : head = (c : Int) := chainInv_head_eq n next head c cs inv
    rw [List.length_cons]
    show binDrain op (cs.length + 1) next ar br head cj cx = _
    rw [binDrain, hhead, Int.toNat_natCast]
    have ihres := ih (next.set c (-1)) (ar.set c 0) (br.set c 0) (next.getD c 0)
      (if op (ar.getD c 0) (br.getD c 0) = 0 then cj else cj.concat c)
      (if op (ar.getD c 0) (br.getD c 0) = 0 then cx else cx.concat (op (ar.getD c 0) (br.getD c 0)))
      (chainInv_tail n next head c cs (hhead ▸ inv)) (by simp [har]) (by simp [hbr])
      (zero_tail n ar c cs hza hcn har) (zero_tail n br c cs hzb hcn hbr)
    rw [ihres]
    have hemit : binEmitList op (ar.set c 0) (br.set c 0) cs = binEmitList op ar br cs := by
      apply List.filterMap_congr
      intro c' hc'
      rw [getD_set_ne _ _ _ _ _ (fun he => hccs (by rw [he]; exact hc')),
        getD_set_ne _ _ _ _ _ (fun he => hccs (by rw [he]; exact hc'))]
    rw [hemit, binEmitList_cons]
    by_cases h0 : op (ar.getD c 0) (br.getD c 0) = 0
    · simp only [if_pos h0, List.nil_append]
    · simp only [if_neg h0, List.concat_eq_append, List.map_cons, List.cons_append,
        List.nil_append, List.append_assoc, List.singleton_append]

theorem p1Drain_spec (tl : List Nat) (n : Nat) (next : List Int) (head : Int)
    (inv : ChainInv n next head tl) :
    p1Drain tl.length next head = List.replicate n (-1) := by
  induction tl generalizing next head with
  | nil =>
    rw [List.length_nil]
    show next = _
    exact next_eq_replicate n next head inv
  | cons c cs ih =>
    have hhead : head = (c : Int) := chainInv_head_eq n next head c cs inv
    rw [List.length_cons]
    show p1Drain (cs.length + 1) next head = _
    rw [p1Drain, hhead, Int.toNat_natCast]
    exact ih (next.set c (-1)) (next.getD c 0) (chainInv_tail n next head c cs (hhead ▸ inv))

theorem dupDrain_spec (tl : List Nat) (fuel : Nat) (n : Nat) (next sums : List Int)
    (head : Int) (aj : List Nat) (ax : List Int) (nnz : Nat) (inv : ChainInv n next head tl)
    (hs : sums.length = n) (hz : ∀ j, j < n → j ∉ tl → sums.getD j 0 = 0)
    (hfuel : tl.length ≤ fuel) :
    dupDrain fuel next sums head aj ax nnz =
      (List.replicate n (-1), List.replicate n 0,
        setSeq aj nnz ((emitList sums tl).map fun e => e.1),
        setSeq ax nnz ((emitList sums tl).map fun e => e.2),
        nnz + (emitList sums tl).length) := by
  induction tl generalizing fuel next sums head aj ax nnz with
  | nil =>
    have hhead : head = -2 := inv.chain
    rw [next_eq_replicate n next head inv, sums_eq_replicate n sums hs hz]
    match fuel with
    | 0 => simp [dupDrain, emitList, setSeq]
    | fuel + 1 => simp [dupDrain, hhead, emitList, setSeq]
  | cons c cs ih =>
    have hcn : c < n := inv.bound c (List.mem_cons_self c cs)
    have hccs : c ∉ cs := (List.nodup_cons.1 inv.nodup).1
    have hhead : head = (c : Int) := chainInv_head_eq n next head c cs inv
    match fuel with
    | 0 => simp at hfuel
    | fuel + 1 =>
      rw [dupDrain, hhead]
      rw [if_neg (by omega), Int.toNat_natCast]
      have ihres := ih fuel (next.set c (-1)) (sums.set c 0) (next.getD c 0)
        (if sums.getD c 0 = 0 then aj else aj.set nnz c)
        (if sums.getD c 0 = 0 then ax else ax.set nnz (sums.getD c 0))
        (if sums.getD c 0 = 0 then nnz else nnz + 1)
        (chainInv_tail n next head c cs (hhead ▸ inv)) (by simp [hs])
        (zero_tail n sums c cs hz hcn hs) (by simp at hfuel; omega)
      rw [ihres, emitList_set_of_not_mem sums c 0 cs hccs, emitList_cons]
      by_cases h0 : sums.getD c 0 = 0
      · simp only [if_pos h0, List.nil_append]
      · simp only [if_neg h0, List.cons_append, List.nil_append, List.map_cons, setSeq,
          List.length_cons, List.length_append, List.length_nil, Prod.mk.injEq, true_and,
          and_true]
        omega

/-! ## Validity helpers. -/

theorem ap_mono_le (n_row n_col : Nat) (p jl : List Nat) (xl : List Int)
    (h : CsrValid n_row n_col p jl xl) (i j : Nat) (hij : i ≤ j) (hj : j ≤ n_row) :
    p.getD i 0 ≤ p.getD j 0 := by
  induction j with
  | zero =>
    have hi0 : i = 0 := by omega
    subst hi0
    exact Nat.le_refl _
  | succ j ih =>
    rcases Nat.lt_or_ge i (j + 1) with h1 | h1
    · exact Nat.le_trans (ih (by omega) (by omega)) (h.mono j (by omega))
    · have hi : i = j + 1 := by omega
      subst hi
      exact Nat.le_refl _

theorem rowEntries_col_lt (n_row n_col : Nat) (p jl : List Nat) (xl : List Int)
    (h : CsrValid n_row n_col p jl xl) (i : Nat) (hi : i < n_row) :
    ∀ e ∈ rowEntries p jl xl i, e.1 < n_col := by
  intro e he
  rw [rowEntries, List.mem_map] at he
  obtain ⟨t, ht, rfl⟩ := he
  rw [List.mem_range] at ht
  apply h.colsLt
  have h1 : p.getD i 0 + t < p.getD (i + 1) 0 := by omega
  have h2 : p.getD (i + 1) 0 ≤ p.getD n_row 0 :=
    ap_mono_le n_row n_col p jl xl h (i + 1) n_row (by omega) (by omega)
  omega

theorem mulRowEntries_col_lt (n_row n_colA n_col : Nat) (Ap Aj : List Nat) (Ax : List Int)
    (Bp Bj : List Nat) (Bx : List Int) (hA : CsrValid n_row n_colA Ap Aj Ax)
    (hB : CsrValid n_colA n_col Bp Bj Bx) (i : Nat) (hi : i < n_row) :
    ∀ e ∈ mulRowEntries Ap Aj Ax Bp Bj Bx i, e.1 < n_col := by
  intro e he
  rw [mulRowEntries, List.mem_flatMap] at he
  obtain ⟨jv, hjv, he2⟩ := he
  rw [List.mem_map] at he2
  obtain ⟨kw, hkw, rfl⟩ := he2
  exact rowEntries_col_lt n_colA n_col Bp Bj Bx hB jv.1
    (rowEntries_col_lt n_row n_colA Ap Aj Ax hA i hi jv hjv) kw hkw

/-! ## One full accumulator cycle (scatter a row from the cleared state, then
drain it) produces the row description emitRow. -/

theorem chainInv_init (n : Nat) : ChainInv n (List.replicate n (-1)) (-2) [] := by
  refine ⟨by simp, rfl, by simp, by simp, ?_⟩
  intro j hj _
  exact getD_replicate n j (-1) 0 hj

/-- Abstract description of one coalesced row: the touched columns in reverse
first-touch order, each with its accumulated value, zero results suppressed. -/
def emitRow (es : List (Nat × Int)) : List (Nat × Int) :=
  (touchedFold [] (es.map fun e => e.1)).filterMap fun c =>
    if sumAt es c = 0 then none else some (c, sumAt es c)

theorem emitRow_length_le (es : List (Nat × Int)) : (emitRow es).length ≤ es.length := by
  calc (emitRow es).length ≤ (touchedFold [] (es.map fun e => e.1)).length :=
        List.length_filterMap_le _ _
    _ ≤ 0 + (es.map fun e => e.1).length := length_touchedFold_le _ _
    _ = es.length := by simp

theorem touched_lt (es : List (Nat × Int)) (n : Nat) (hes : ∀ e ∈ es, e.1 < n) :
    ∀ c ∈ touchedFold [] (es.map fun e => e.1), c < n := by
  intro c hc
  rcases (mem_touchedFold _ _ _).1 hc with h | h
  · simp at h
  · rw [List.mem_map] at h
    obtain ⟨e, he, rfl⟩ := h
    exact hes e he

theorem not_touched_sumAt (es : List (Nat × Int)) (j : Nat)
    (h : j ∉ touchedFold [] (es.map fun e => e.1)) : sumAt es j = 0 := by
  apply sumAt_eq_zero_of_not_mem
  intro hm
  exact h ((mem_touchedFold _ _ _).2 (Or.inr hm))

theorem lscatter_cleared (es : List (Nat × Int)) (n : Nat) (hes : ∀ e ∈ es, e.1 < n) :
    ChainInv n (lscatter ⟨List.replicate n (-1), List.replicate n 0, -2, 0⟩ es).next
        (lscatter ⟨List.replicate n (-1), List.replicate n 0, -2, 0⟩ es).head
        (touchedFold [] (es.map fun e => e.1)) ∧
      (lscatter ⟨List.replicate n (-1), List.replicate n 0, -2, 0⟩ es).sums.length = n ∧
      (∀ c, c < n →
        (lscatter ⟨List.replicate n (-1), List.replicate n 0, -2, 0⟩ es).sums.getD c 0 =
          sumAt es c) ∧
      (lscatter ⟨List.replicate n (-1), List.replicate n 0, -2, 0⟩ es).length =
        (touchedFold [] (es.map fun e => e.1)).length := by
  obtain ⟨i1, i2, i3, i4⟩ := lscatter_spec es n ⟨List.replicate n (-1), List.replicate n 0, -2, 0⟩
    [] (chainInv_init n) (by simp) hes rfl
  refine ⟨i1, i2, ?_, i4⟩
  intro c hc
  rw [i3 c hc]
  show (List.replicate n (0 : Int)).getD c 0 + sumAt es c = sumAt es c
  rw [getD_replicate n c 0 0 hc]
  ring

theorem emitList_scatter_eq_emitRow (es : List (Nat × Int)) (n : Nat) (sums : List Int)
    (hes : ∀ e ∈ es, e.1 < n) (hs : ∀ c, c < n → sums.getD c 0 = sumAt es c) :
    emitList sums (touchedFold [] (es.map fun e => e.1)) = emitRow es := by
  apply List.filterMap_congr
  intro c hc
  rw [hs c (touched_lt es n hes c hc)]

/-! ## csrmucsr characterization. -/

theorem mucsrStep_spec (n_col : Nat) (Ap Aj : List Nat) (Ax : List Int) (Bp Bj : List Nat)
    (Bx : List Int) (st : MucsrState) (i : Nat)
    (hn : st.next = List.replicate n_col (-1)) (hsums : st.sums = List.replicate n_col 0)
    (hes : ∀ e ∈ mulRowEntries Ap Aj Ax Bp Bj Bx i, e.1 < n_col) :
    mucsrStep Ap Aj Ax Bp Bj Bx st i =
      ⟨List.replicate n_col (-1), List.replicate n_col 0,
        st.cp.concat (st.cx.length + (emitRow (mulRowEntries Ap Aj Ax Bp Bj Bx i)).length),
        st.cj ++ (emitRow (mulRowEntries Ap Aj Ax Bp Bj Bx i)).map (fun e => e.1),
        st.cx ++ (emitRow (mulRowEntries Ap Aj Ax Bp Bj Bx i)).map (fun e => e.2)⟩ := by
  have hst : (⟨st.next, st.sums, -2, 0⟩ : LState) =
      ⟨List.replicate n_col (-1), List.replicate n_col 0, -2, 0⟩ := by rw [hn, hsums]
  obtain ⟨i1, i2, i3, i4⟩ := lscatter_cleared (mulRowEntries Ap Aj Ax Bp Bj Bx i) n_col hes
  have hz : ∀ j, j < n_col → j ∉ touchedFold []
      ((mulRowEntries Ap Aj Ax Bp Bj Bx i).map fun e => e.1) →
      (lscatter ⟨List.replicate n_col (-1), List.replicate n_col 0, -2, 0⟩
        (mulRowEntries Ap Aj Ax Bp Bj Bx i)).sums.getD j 0 = 0 := by
    intro j hj hjm
    rw [i3 j hj]
    exact not_touched_sumAt _ j hjm
  have hdr := mulDrain_spec (touchedFold [] ((mulRowEntries Ap Aj Ax Bp Bj Bx i).map fun e => e.1))
    n_col _ _ _ st.cj st.cx i1 i2 hz
  rw [emitList_scatter_eq_emitRow _ n_col _ hes i3] at hdr
  show MucsrState.mk _ _ _ _ _ = _
  simp only [mucsrStep, hst, i4, hdr]
  congr 1
  simp [List.length_append]

theorem mucsrIter_spec (n_row n_colA n_col : Nat) (Ap Aj : List Nat) (Ax : List Int)
    (Bp Bj : List Nat) (Bx : List Int) (hA : CsrValid n_row n_colA Ap Aj Ax)
    (hB : CsrValid n_colA n_col Bp Bj Bx) (k : Nat) (hk : k ≤ n_row) :
    mucsrIter n_col Ap Aj Ax Bp Bj Bx k =
      ⟨List.replicate n_col (-1), List.replicate n_col 0,
        cumFrom 0 ((List.range k).map fun i =>
          (emitRow (mulRowEntries Ap Aj Ax Bp Bj Bx i)).length),
        (List.range k).flatMap fun i =>
          (emitRow (mulRowEntries Ap Aj Ax Bp Bj Bx i)).map (fun e => e.1),
        (List.range k).flatMap fun i =>
          (emitRow (mulRowEntries Ap Aj Ax Bp Bj Bx i)).map (fun e => e.2)⟩ := by
  induction k with
  | zero =>
    rw [mucsrIter]
    simp [cumFrom]
  | succ k ih =>
    rw [mucsrIter, List.range_succ, List.foldl_append]
    rw [show (List.range k).foldl (mucsrStep Ap Aj Ax Bp Bj Bx)
        ⟨List.replicate n_col (-1), List.replicate n_col 0, [0], [], []⟩ =
        mucsrIter n_col Ap Aj Ax Bp Bj Bx k from rfl]
    rw [ih (by omega)]
    rw [List.foldl_cons, List.foldl_nil]
    rw [mucsrStep_spec n_col Ap Aj Ax Bp Bj Bx _ k rfl rfl
      (mulRowEntries_col_lt n_row n_colA n_col Ap Aj Ax Bp Bj Bx hA hB k (by omega))]
    congr 1
    · dsimp only
      rw [List.map_append]
      simp only [List.map_cons, List.map_nil]
      rw [cumFrom_concat]
      congr 1
      have hlen : ((List.range k).flatMap fun i =>
          (emitRow (mulRowEntries Ap Aj Ax Bp Bj Bx i)).map (fun e => (e.2 : Int))).length =
          ((List.range k).map fun i =>
            (emitRow (mulRowEntries Ap Aj Ax Bp Bj Bx i)).length).sum := by
        rw [List.length_flatMap]
        congr 1
        apply List.map_congr_left
        intro i _
        simp
      omega
    · dsimp only
      rw [List.flatMap_append]
      simp
    · dsimp only
      rw [List.flatMap_append]
      simp

theorem csrmucsr_spec (n_row n_colA n_col : Nat) (Ap Aj : List Nat) (Ax : List Int)
    (Bp Bj : List Nat) (Bx : List Int) (hA : CsrValid n_row n_colA Ap Aj Ax)
    (hB : CsrValid n_colA n_col Bp Bj Bx) :
    csrmucsr n_row n_col Ap Aj Ax Bp Bj Bx =
      (cumFrom 0 ((List.range n_row).map fun i =>
          (emitRow (mulRowEntries Ap Aj Ax Bp Bj Bx i)).length),
        (List.range n_row).flatMap fun i =>
          (emitRow (mulRowEntries Ap Aj Ax Bp Bj Bx i)).map (fun e => e.1),
        (List.range n_row).flatMap fun i =>
          (emitRow (mulRowEntries Ap Aj Ax Bp Bj Bx i)).map (fun e => e.2)) := by
  rw [csrmucsr, mucsrIter_spec n_row n_colA n_col Ap Aj Ax Bp Bj Bx hA hB n_row (by omega)]

/-! ## csr_binop_csr characterization. -/

/-- Abstract description of one elementwise-combined row: the union of the
columns touched by A's row then B's row, in reverse first-touch order, each
carrying op(summed A value, summed B value), zero results suppressed; a column
absent from one operand contributes the literal 0 to op. -/
def binEmitRow (op : Int → Int → Int) (esA esB : List (Nat × Int)) : List (Nat × Int) :=
  (touchedFold (touchedFold [] (esA.map fun e => e.1)) (esB.map fun e => e.1)).filterMap fun c =>
    if op (sumAt esA c) (sumAt esB c) = 0 then none
    else some (c, op (sumAt esA c) (sumAt esB c))

theorem mem_touchedAB (esA esB : List (Nat × Int)) (c : Nat) :
    c ∈ touchedFold (touchedFold [] (esA.map fun e => e.1)) (esB.map fun e => e.1) ↔
      (c ∈ esA.map fun e => e.1) ∨ (c ∈ esB.map fun e => e.1) := by
  rw [mem_touchedFold, mem_touchedFold]
  simp

theorem binopStep_spec (op : Int → Int → Int) (n_col : Nat) (Ap Aj : List Nat) (Ax : List Int)
    (Bp Bj : List Nat) (Bx : List Int) (st : BinopState) (i : Nat)
    (hn : st.next = List.replicate n_col (-1)) (har : st.arow = List.replicate n_col 0)
    (hbr : st.brow = List.replicate n_col 0)
    (hesA : ∀ e ∈ rowEntries Ap Aj Ax i, e.1 < n_col)
    (hesB : ∀ e ∈ rowEntries Bp Bj Bx i, e.1 < n_col) :
    binopStep op Ap Aj Ax Bp Bj Bx st i =
      ⟨List.replicate n_col (-1), List.replicate n_col 0, List.replicate n_col 0,
        st.cp.concat (st.cx.length +
          (binEmitRow op (rowEntries Ap Aj Ax i) (rowEntries Bp Bj Bx i)).length),
        st.cj ++ (binEmitRow op (rowEntries Ap Aj Ax i) (rowEntries Bp Bj Bx i)).map
          (fun e => e.1),
        st.cx ++ (binEmitRow op (rowEntries Ap Aj Ax i) (rowEntries Bp Bj Bx i)).map
          (fun e => e.2)⟩ := by
  have hst : (⟨st.next, st.arow, -2, 0⟩ : LState) =
      ⟨List.replicate n_col (-1), List.replicate n_col 0, -2, 0⟩ := by rw [hn, har]
  obtain ⟨a1, a2, a3, a4⟩ := lscatter_cleared (rowEntries Ap Aj Ax i) n_col hesA
  obtain ⟨b1, b2, b3, b4⟩ := lscatter_spec (rowEntries Bp Bj Bx i) n_col
    ⟨(lscatter ⟨List.replicate n_col (-1), List.replicate n_col 0, -2, 0⟩
        (rowEntries Ap Aj Ax i)).next,
      st.brow,
      (lscatter ⟨List.replicate n_col (-1), List.replicate n_col 0, -2, 0⟩
        (rowEntries Ap Aj Ax i)).head,
      (lscatter ⟨List.replicate n_col (-1), List.replicate n_col 0, -2, 0⟩
        (rowEntries Ap Aj Ax i)).length⟩
    (touchedFold [] ((rowEntries Ap Aj Ax i).map fun e => e.1)) a1 (by rw [hbr]; simp) hesB a4
  have hza : ∀ j, j < n_col →
      j ∉ touchedFold (touchedFold [] ((rowEntries Ap Aj Ax i).map fun e => e.1))
        ((rowEntries Bp Bj Bx i).map fun e => e.1) →
      (lscatter ⟨List.replicate n_col (-1), List.replicate n_col 0, -2, 0⟩
        (rowEntries Ap Aj Ax i)).sums.getD j 0 = 0 := by
    intro j hj hjm
    rw [a3 j hj]
    apply sumAt_eq_zero_of_not_mem
    intro hmm
    exact hjm ((mem_touchedAB _ _ _).2 (Or.inl hmm))
  have hzb : ∀ j, j < n_col →
      j ∉ touchedFold (touchedFold [] ((rowEntries Ap Aj Ax i).map fun e => e.1))
        ((rowEntries Bp Bj Bx i).map fun e => e.1) →
      (lscatter ⟨(lscatter ⟨List.replicate n_col (-1), List.replicate n_col 0, -2, 0⟩
          (rowEntries Ap Aj Ax i)).next, st.brow,
        (lscatter ⟨List.replicate n_col (-1), List.replicate n_col 0, -2, 0⟩
          (rowEntries Ap Aj Ax i)).head,
        (lscatter ⟨List.replicate n_col (-1), List.replicate n_col 0, -2, 0⟩
          (rowEntries Ap Aj Ax i)).length⟩ (rowEntries Bp Bj Bx i)).sums.getD j 0 = 0 := by
    intro j hj hjm
    rw [b3 j hj, hbr, getD_replicate n_col j 0 0 hj]
    have hsz : sumAt (rowEntries Bp Bj Bx i) j = 0 := by
      apply sumAt_eq_zero_of_not_mem
      intro hmm
      exact hjm ((mem_touchedAB _ _ _).2 (Or.inr hmm))
    rw [hsz]
    ring
  have hdr := binDrain_spec op
    (touchedFold (touchedFold [] ((rowEntries Ap Aj Ax i).map fun e => e.1))
      ((rowEntries Bp Bj Bx i).map fun e => e.1))
    n_col _ _ _ _ st.cj st.cx b1 a2 b2 hza hzb
  have hemit : binEmitList op
      (lscatter ⟨List.replicate n_col (-1), List.replicate n_col 0, -2, 0⟩
        (rowEntries Ap Aj Ax i)).sums
      (lscatter ⟨(lscatter ⟨List.replicate n_col (-1), List.replicate n_col 0, -2, 0⟩
          (rowEntries Ap Aj Ax i)).next, st.brow,
        (lscatter ⟨List.replicate n_col (-1), List.replicate n_col 0, -2, 0⟩
          (rowEntries Ap Aj Ax i)).head,
        (lscatter ⟨List.replicate n_col (-1), List.replicate n_col 0, -2, 0⟩
          (rowEntries Ap Aj Ax i)).length⟩ (rowEntries Bp Bj Bx i)).sums
      (touchedFold (touchedFold [] ((rowEntries Ap Aj Ax i).map fun e => e.1))
        ((rowEntries Bp Bj Bx i).map fun e => e.1)) =
      binEmitRow op (rowEntries Ap Aj Ax i) (rowEntries Bp Bj Bx i) := by
    apply List.filterMap_congr
    intro c hc
    have hcn : c < n_col := by
      rcases (mem_touchedAB _ _ c).1 hc with h | h
      · rw [List.mem_map] at h
        obtain ⟨e, he, rfl⟩ := h
        exact hesA e he
      · rw [List.mem_map] at h
        obtain ⟨e, he, rfl⟩ := h
        exact hesB e he
    rw [a3 c hcn, b3 c hcn, hbr, getD_replicate n_col c 0 0 hcn]
    rw [show (0 : Int) + sumAt (rowEntries Bp Bj Bx i) c = sumAt (rowEntries Bp Bj Bx i) c
      from by ring]
  rw [hemit] at hdr
  show BinopState.mk _ _ _ _ _ _ = _
  simp only [binopStep, hst, b4, hdr]
  congr 1
  simp [List.length_append]

theorem binopIter_spec (op : Int → Int → Int) (n_row n_col : Nat) (Ap Aj : List Nat)
    (Ax : List Int) (Bp Bj : List Nat) (Bx : List Int) (hA : CsrValid n_row n_col Ap Aj Ax)
    (hB : CsrValid n_row n_col Bp Bj Bx) (k : Nat) (hk : k ≤ n_row) :
    binopIter op n_col Ap Aj Ax Bp Bj Bx k =
      ⟨List.replicate n_col (-1), List.replicate n_col 0, List.replicate n_col 0,
        cumFrom 0 ((List.range k).map fun i =>
          (binEmitRow op (rowEntries Ap Aj Ax i) (rowEntries Bp Bj Bx i)).length),
        (List.range k).flatMap fun i =>
          (binEmitRow op (rowEntries Ap Aj Ax i) (rowEntries Bp Bj Bx i)).map (fun e => e.1),
        (List.range k).flatMap fun i =>
          (binEmitRow op (rowEntries Ap Aj Ax i) (rowEntries Bp Bj Bx i)).map
            (fun e => e.2)⟩ := by
  induction k with
  | zero =>
    rw [binopIter]
    simp [cumFrom]
  | succ k ih =>
    rw [binopIter, List.range_succ, List.foldl_append]
    rw [show (List.range k).foldl (binopStep op Ap Aj Ax Bp Bj Bx)
        ⟨List.replicate n_col (-1), List.replicate n_col 0, List.replicate n_col 0,
          [0], [], []⟩ =
        binopIter op n_col Ap Aj Ax Bp Bj Bx k from rfl]
    rw [ih (by omega)]
    rw [List.foldl_cons, List.foldl_nil]
    rw [binopStep_spec op n_col Ap Aj Ax Bp Bj Bx _ k rfl rfl rfl
      (rowEntries_col_lt n_row n_col Ap Aj Ax hA k (by omega))
      (rowEntries_col_lt n_row n_col Bp Bj Bx hB k (by omega))]
    congr 1
    · dsimp only
      rw [List.map_append]
      simp only [List.map_cons, List.map_nil]
      rw [cumFrom_concat]
      congr 1
      have hlen : ((List.range k).flatMap fun i =>
          (binEmitRow op (rowEntries Ap Aj Ax i) (rowEntries Bp Bj Bx i)).map
            (fun e => (e.2 : Int))).length =
          ((List.range k).map fun i =>
            (binEmitRow op (rowEntries Ap Aj Ax i) (rowEntries Bp Bj Bx i)).length).sum := by
        rw [List.length_flatMap]
        congr 1
        apply List.map_congr_left
        intro i _
        simp
      omega
    · dsimp only
      rw [List.flatMap_append]
      simp
    · dsimp only
      rw [List.flatMap_append]
      simp

theorem csr_binop_csr_spec (op : Int → Int → Int) (n_row n_col : Nat) (Ap Aj : List Nat)
    (Ax : List Int) (Bp Bj : List Nat) (Bx : List Int) (hA : CsrValid n_row n_col Ap Aj Ax)
    (hB : CsrValid n_row n_col Bp Bj Bx) :
    csr_binop_csr n_row n_col Ap Aj Ax Bp Bj Bx op =
      (cumFrom 0 ((List.range n_row).map fun i =>
          (binEmitRow op (rowEntries Ap Aj Ax i) (rowEntries Bp Bj Bx i)).length),
        (List.range n_row).flatMap fun i =>
          (binEmitRow op (rowEntries Ap Aj Ax i) (rowEntries Bp Bj Bx i)).map (fun e => e.1),
        (List.range n_row).flatMap fun i =>
          (binEmitRow op (rowEntries Ap Aj Ax i) (rowEntries Bp Bj Bx i)).map
            (fun e => e.2)) := by
  rw [csr_binop_csr, binopIter_spec op n_row n_col Ap Aj Ax Bp Bj Bx hA hB n_row (by omega)]

/-! ## sum_csr_duplicates characterization. -/

theorem getD_mem {α : Type} (l : List α) (q : Nat) (d : α) (h : q < l.length) :
    l.getD q d ∈ l := by
  have he : l.getD q d = l[q] := by
    simp [List.getD_eq_getElem?_getD, List.getElem?_eq_getElem h]
  rw [he]
  exact List.getElem_mem h

theorem nodup_length_le (l : List Nat) (n : Nat) (h : l.Nodup) (hb : ∀ c ∈ l, c < n) :
    l.length ≤ n := by
  classical
  have h1 : l.length = l.toFinset.card := (List.toFinset_card_of_nodup h).symm
  have h2 : l.toFinset ⊆ Finset.range n := by
    intro c hc
    simp only [List.mem_toFinset] at hc
    exact Finset.mem_range.2 (hb c hc)
  calc l.length = l.toFinset.card := h1
    _ ≤ (Finset.range n).card := Finset.card_le_card h2
    _ = n := Finset.card_range n

theorem rowEntries_length (p jl : List Nat) (xl : List Int) (i : Nat) :
    (rowEntries p jl xl i).length = p.getD (i + 1) 0 - p.getD i 0 := by
  simp [rowEntries]

/-- All rows of the coalescer output up to row k, flattened in storage order. -/
def dupFlat (Ap Aj : List Nat) (Ax : List Int) (k : Nat) : List (Nat × Int) :=
  (List.range k).flatMap fun i => emitRow (rowEntries Ap Aj Ax i)

theorem dupFlat_succ (Ap Aj : List Nat) (Ax : List Int) (k : Nat) :
    dupFlat Ap Aj Ax (k + 1) = dupFlat Ap Aj Ax k ++ emitRow (rowEntries Ap Aj Ax k) := by
  rw [dupFlat, List.range_succ, List.flatMap_append, dupFlat]
  simp

theorem dupFlat_length_le (n_row n_col : Nat) (Ap Aj : List Nat) (Ax : List Int)
    (h : CsrValid n_row n_col Ap Aj Ax) (k : Nat) (hk : k ≤ n_row) :
    (dupFlat Ap Aj Ax k).length ≤ Ap.getD k 0 := by
  induction k with
  | zero =>
    rw [show dupFlat Ap Aj Ax 0 = [] from rfl, h.ap0]
    exact Nat.le_refl 0
  | succ k ih =>
    rw [dupFlat_succ, List.length_append]
    have h1 : (emitRow (rowEntries Ap Aj Ax k)).length ≤ Ap.getD (k + 1) 0 - Ap.getD k 0 := by
      calc (emitRow (rowEntries Ap Aj Ax k)).length ≤ (rowEntries Ap Aj Ax k).length :=
            emitRow_length_le _
        _ = Ap.getD (k + 1) 0 - Ap.getD k 0 := rowEntries_length Ap Aj Ax k
    have h2 : Ap.getD k 0 ≤ Ap.getD (k + 1) 0 := h.mono k (by omega)
    have h3 := ih (by omega)
    omega

theorem dupIter_succ (n_col : Nat) (Ap Aj : List Nat) (Ax : List Int) (k : Nat) :
    dupIter n_col Ap Aj Ax (k + 1) = dupStep n_col (dupIter n_col Ap Aj Ax k) k := by
  rw [dupIter, List.range_succ, List.foldl_append, List.foldl_cons, List.foldl_nil, dupIter]

theorem dupIter_spec (n_row n_col : Nat) (Ap Aj : List Nat) (Ax : List Int)
    (h : CsrValid n_row n_col Ap Aj Ax) (k : Nat) (hk : k ≤ n_row) :
    (dupIter n_col Ap Aj Ax k).next = List.replicate n_col (-1) ∧
      (dupIter n_col Ap Aj Ax k).sums = List.replicate n_col 0 ∧
      (dupIter n_col Ap Aj Ax k).nnz = (dupFlat Ap Aj Ax k).length ∧
      (dupIter n_col Ap Aj Ax k).rowEnd = Ap.getD k 0 ∧
      (dupIter n_col Ap Aj Ax k).ap.length = Ap.length ∧
      (∀ m, (dupIter n_col Ap Aj Ax k).ap.getD m 0 =
        if 1 ≤ m ∧ m ≤ k then (dupFlat Ap Aj Ax m).length else Ap.getD m 0) ∧
      (dupIter n_col Ap Aj Ax k).aj = setSeq Aj 0 ((dupFlat Ap Aj Ax k).map fun e => e.1) ∧
      (dupIter n_col Ap Aj Ax k).ax = setSeq Ax 0 ((dupFlat Ap Aj Ax k).map fun e => e.2) := by
  induction k with
  | zero =>
    refine ⟨rfl, rfl, rfl, h.ap0.symm, rfl, ?_, rfl, rfl⟩
    intro m
    rw [if_neg (by omega)]
    rfl
  | succ k ih =>
    obtain ⟨i1, i2, i3, i4, i5, i6, i7, i8⟩ := ih (by omega)
    have hrE : (dupIter n_col Ap Aj Ax k).ap.getD (k + 1) 0 = Ap.getD (k + 1) 0 := by
      rw [i6 (k + 1), if_neg (by omega)]
    have hflatle : (dupFlat Ap Aj Ax k).length ≤ Ap.getD k 0 :=
      dupFlat_length_le n_row n_col Ap Aj Ax h k (by omega)
    have hes : (List.range ((dupIter n_col Ap Aj Ax k).ap.getD (k + 1) 0 -
        (dupIter n_col Ap Aj Ax k).rowEnd)).map (fun t =>
          ((dupIter n_col Ap Aj Ax k).aj.getD ((dupIter n_col Ap Aj Ax k).rowEnd + t) 0,
           (dupIter n_col Ap Aj Ax k).ax.getD ((dupIter n_col Ap Aj Ax k).rowEnd + t) 0)) =
        rowEntries Ap Aj Ax k := by
      rw [hrE, i4, rowEntries]
      apply List.map_congr_left
      intro t ht
      rw [List.mem_range] at ht
      rw [i7, i8, getD_setSeq_of_ge _ _ _ _ _ (by rw [List.length_map]; omega),
        getD_setSeq_of_ge _ _ _ _ _ (by rw [List.length_map]; omega)]
    have hcols : ∀ e ∈ rowEntries Ap Aj Ax k, e.1 < n_col :=
      rowEntries_col_lt n_row n_col Ap Aj Ax h k (by omega)
    obtain ⟨s1, s2, s3, s4⟩ := lscatter_cleared (rowEntries Ap Aj Ax k) n_col hcols
    have hz : ∀ j, j < n_col →
        j ∉ touchedFold [] ((rowEntries Ap Aj Ax k).map fun e => e.1) →
        (lscatter ⟨List.replicate n_col (-1), List.replicate n_col 0, -2, 0⟩
          (rowEntries Ap Aj Ax k)).sums.getD j 0 = 0 := by
      intro j hj hjm
      rw [s3 j hj]
      exact not_touched_sumAt _ j hjm
    have htllen : (touchedFold [] ((rowEntries Ap Aj Ax k).map fun e => e.1)).length ≤
        n_col + 1 := by
      have := nodup_length_le _ n_col (nodup_touchedFold _ _ (by simp))
        (touched_lt _ n_col hcols)
      omega
    have hdr := dupDrain_spec (touchedFold [] ((rowEntries Ap Aj Ax k).map fun e => e.1))
      (n_col + 1) n_col _ _ _ (dupIter n_col Ap Aj Ax k).aj (dupIter n_col Ap Aj Ax k).ax
      (dupIter n_col Ap Aj Ax k).nnz s1 s2 hz htllen
    rw [emitList_scatter_eq_emitRow _ n_col _ hcols s3] at hdr
    rw [dupIter_succ, dupStep, hes]
    rw [dupScatter_eq_lscatter (rowEntries Ap Aj Ax k) _ _ _ 0, i1, i2]
    rw [hdr]
    refine ⟨rfl, rfl, ?_, ?_, ?_, ?_, ?_, ?_⟩
    · show (dupIter n_col Ap Aj Ax k).nnz + (emitRow (rowEntries Ap Aj Ax k)).length =
        (dupFlat Ap Aj Ax (k + 1)).length
      rw [i3, dupFlat_succ, List.length_append]
    · show (dupIter n_col Ap Aj Ax k).ap.getD (k + 1) 0 = Ap.getD (k + 1) 0
      exact hrE
    · show ((dupIter n_col Ap Aj Ax k).ap.set (k + 1) _).length = Ap.length
      rw [List.length_set, i5]
    · intro m
      show ((dupIter n_col Ap Aj Ax k).ap.set (k + 1)
        ((dupIter n_col Ap Aj Ax k).nnz + (emitRow (rowEntries Ap Aj Ax k)).length)).getD m 0 = _
      by_cases hm1 : m = k + 1
      · subst hm1
        rw [getD_set_self _ _ _ _ (by rw [i5, h.apLen]; omega)]
        rw [if_pos (by omega), i3, dupFlat_succ, List.length_append]
      · rw [getD_set_ne _ _ _ _ _ (fun he => hm1 he.symm), i6 m]
        by_cases hm2 : 1 ≤ m ∧ m ≤ k
        · rw [if_pos hm2, if_pos (by omega)]
        · rw [if_neg hm2, if_neg (by omega)]
    · show setSeq (dupIter n_col Ap Aj Ax k).aj (dupIter n_col Ap Aj Ax k).nnz
        ((emitRow (rowEntries Ap Aj Ax k)).map fun e => e.1) = _
      rw [i7, i3, dupFlat_succ, List.map_append, setSeq_append]
      congr 1
      simp
    · show setSeq (dupIter n_col Ap Aj Ax k).ax (dupIter n_col Ap Aj Ax k).nnz
        ((emitRow (rowEntries Ap Aj Ax k)).map fun e => e.2) = _
      rw [i8, i3, dupFlat_succ, List.map_append, setSeq_append]
      congr 1
      simp

/-! ## Indexing into flattened per-row output. -/

theorem getD_append_lt {α : Type} (l1 l2 : List α) (p : Nat) (d : α) (hp : p < l1.length) :
    (l1 ++ l2).getD p d = l1.getD p d := by
  simp [List.getD_eq_getElem?_getD, List.getElem?_append_left hp]

theorem getD_append_add {α : Type} (l1 l2 : List α) (t : Nat) (d : α) :
    (l1 ++ l2).getD (l1.length + t) d = l2.getD t d := by
  simp [List.getD_eq_getElem?_getD,
    List.getElem?_append_right (by omega : l1.length ≤ l1.length + t)]

theorem list_eq_of_getD {α : Type} (l1 l2 : List α) (d : α) (hlen : l1.length = l2.length)
    (h : ∀ i, i < l1.length → l1.getD i d = l2.getD i d) : l1 = l2 := by
  apply List.ext_getElem hlen
  intro i h1 h2
  have := h i h1
  simpa [List.getD_eq_getElem?_getD, List.getElem?_eq_getElem, h1, h2] using this

theorem flatMap_range_length_mono {α : Type} (f : Nat → List α) (i j : Nat) (hij : i ≤ j) :
    ((List.range i).flatMap f).length ≤ ((List.range j).flatMap f).length := by
  induction j with
  | zero =>
    have : i = 0 := by omega
    subst this
    exact Nat.le_refl _
  | succ j ih =>
    rcases Nat.lt_or_ge i (j + 1) with h1 | h1
    · calc ((List.range i).flatMap f).length ≤ ((List.range j).flatMap f).length :=
            ih (by omega)
        _ ≤ ((List.range (j + 1)).flatMap f).length := by
            rw [List.range_succ, List.flatMap_append, List.length_append]
            omega
    · have : i = j + 1 := by omega
      subst this
      exact Nat.le_refl _

theorem flatMap_range_getD {α : Type} (f : Nat → List α) (n i t : Nat) (d : α) (hi : i < n)
    (ht : t < (f i).length) :
    ((List.range n).flatMap f).getD (((List.range i).flatMap f).length + t) d =
      (f i).getD t d := by
  induction n with
  | zero => omega
  | succ n ih =>
    rw [List.range_succ, List.flatMap_append]
    rcases Nat.lt_or_ge i n with h1 | h1
    · rw [getD_append_lt]
      · exact ih h1
      · have h2 : ((List.range (i + 1)).flatMap f).length ≤
            ((List.range n).flatMap f).length := flatMap_range_length_mono f (i + 1) n h1
        rw [List.range_succ, List.flatMap_append, List.length_append, List.flatMap_cons,
          List.flatMap_nil, List.append_nil] at h2
        omega
    · have hieq : i = n := by omega
      subst hieq
      rw [getD_append_add]
      simp only [List.flatMap_cons, List.flatMap_nil, List.append_nil]

theorem map_range_getD {α : Type} (l : List α) (d : α) :
    (List.range l.length).map (fun t => l.getD t d) = l := by
  apply List.ext_getElem (by simp)
  intro i h1 h2
  rw [List.getElem_map, List.getElem_range]
  exact List.getD_eq_getElem l d h2

theorem getD_map_fst (l : List (Nat × Int)) (t : Nat) (ht : t < l.length) :
    (l.map (fun e => e.1)).getD t 0 = (l.getD t (0, 0)).1 := by
  rw [List.getD_eq_getElem (l.map fun e => e.1) 0 (by simp [ht]),
    List.getD_eq_getElem l (0, 0) ht, List.getElem_map]

theorem getD_map_snd (l : List (Nat × Int)) (t : Nat) (ht : t < l.length) :
    (l.map (fun e => e.2)).getD t 0 = (l.getD t (0, 0)).2 := by
  rw [List.getD_eq_getElem (l.map fun e => e.2) 0 (by simp [ht]),
    List.getD_eq_getElem l (0, 0) ht, List.getElem_map]

/-! ## Structure of emitRow. -/

theorem emitRow_fst_mem (es : List (Nat × Int)) (e : Nat × Int) (he : e ∈ emitRow es) :
    e.1 ∈ es.map (fun x => x.1) := by
  rw [emitRow, List.mem_filterMap] at he
  obtain ⟨c, hc, hfc⟩ := he
  by_cases h0 : sumAt es c = 0
  · rw [if_pos h0] at hfc
    exact absurd hfc (by simp)
  · rw [if_neg h0] at hfc
    have he' : e = (c, sumAt es c) := (Option.some.inj hfc).symm
    subst he'
    show c ∈ _
    rcases (mem_touchedFold _ _ _).1 hc with h | h
    · simp at h
    · exact h

theorem emitRow_snd_ne_zero (es : List (Nat × Int)) (e : Nat × Int) (he : e ∈ emitRow es) :
    e.2 ≠ 0 := by
  rw [emitRow, List.mem_filterMap] at he
  obtain ⟨c, hc, hfc⟩ := he
  by_cases h0 : sumAt es c = 0
  · rw [if_pos h0] at hfc
    exact absurd hfc (by simp)
  · rw [if_neg h0] at hfc
    have he' : e = (c, sumAt es c) := (Option.some.inj hfc).symm
    subst he'
    exact h0

theorem filterMap_map_fst (g : Nat → Int) (tl : List Nat) :
    ((tl.filterMap fun c => if g c = 0 then none else some (c, g c)).map fun e => e.1) =
      tl.filter fun c => !decide (g c = 0) := by
  induction tl with
  | nil => rfl
  | cons c cs ih =>
    rw [List.filterMap_cons, List.filter_cons]
    by_cases h : g c = 0
    · rw [if_pos h]
      have : (!decide (g c = 0)) = false := by simp [h]
      rw [this]
      simpa using ih
    · rw [if_neg h]
      have : (!decide (g c = 0)) = true := by simp [h]
      rw [this, List.map_cons]
      simpa using ih

theorem emitRow_map_fst (es : List (Nat × Int)) :
    ((emitRow es).map fun e => e.1) =
      (touchedFold [] (es.map fun e => e.1)).filter fun c => !decide (sumAt es c = 0) :=
  filterMap_map_fst (sumAt es) _

theorem emitRow_nodup_fst (es : List (Nat × Int)) : ((emitRow es).map fun e => e.1).Nodup := by
  rw [emitRow_map_fst]
  exact (nodup_touchedFold _ _ (by simp)).filter _

theorem sumAt_of_nodup (es : List (Nat × Int)) (hnd : (es.map fun e => e.1).Nodup)
    (e : Nat × Int) (he : e ∈ es) : sumAt es e.1 = e.2 := by
  induction es with
  | nil => simp at he
  | cons f fs ih =>
    rw [List.map_cons, List.nodup_cons] at hnd
    rcases List.mem_cons.1 he with h | h
    · rw [h]
      rw [show f = (f.1, f.2) from rfl, sumAt_cons, if_pos rfl]
      rw [sumAt_eq_zero_of_not_mem fs f.1 hnd.1]
      ring
    · have hne : f.1 ≠ e.1 := by
        intro hcon
        exact hnd.1 (hcon ▸ List.mem_map_of_mem (fun x => x.1) h)
      rw [show f = (f.1, f.2) from rfl, sumAt_cons, if_neg hne, ih hnd.2 h]
      ring

theorem map_sumAt_eq_self (es : List (Nat × Int)) (hnd : (es.map fun e => e.1).Nodup) :
    ((es.map fun e => e.1).map fun c => (c, sumAt es c)) = es := by
  induction es with
  | nil => rfl
  | cons f fs ih =>
    rw [List.map_cons, List.map_cons]
    rw [List.map_cons, List.nodup_cons] at hnd
    congr 1
    · show (f.1, sumAt (f :: fs) f.1) = f
      rw [sumAt_of_nodup (f :: fs) (by rw [List.map_cons]; exact List.nodup_cons.2 hnd)
        f (List.mem_cons_self f fs)]
    · rw [show (fun c => (c, sumAt (f :: fs) c)) = fun c => (c, sumAt (f :: fs) c) from rfl]
      have hcongr : ∀ c ∈ fs.map fun e => e.1,
          (c, sumAt (f :: fs) c) = (c, sumAt fs c) := by
        intro c hc
        have hne : f.1 ≠ c := by
          intro hcon
          exact hnd.1 (hcon ▸ hc)
        rw [show f = (f.1, f.2) from rfl, sumAt_cons, if_neg hne]
        rw [show (0 : Int) + sumAt fs c = sumAt fs c from by ring]
      calc (fs.map fun e => e.1).map (fun c => (c, sumAt (f :: fs) c))
          = (fs.map fun e => e.1).map (fun c => (c, sumAt fs c)) :=
            List.map_congr_left hcongr
        _ = fs := ih hnd.2

theorem emitRow_eq_reverse (es : List (Nat × Int)) (hnd : (es.map fun e => e.1).Nodup)
    (hnz : ∀ e ∈ es, e.2 ≠ 0) : emitRow es = es.reverse := by
  rw [emitRow]
  rw [touchedFold_of_nodup _ _ hnd (by intro c _; simp), List.append_nil]
  have hall : ∀ c ∈ (es.map fun e => e.1).reverse, sumAt es c ≠ 0 := by
    intro c hc
    rw [List.mem_reverse] at hc
    rw [List.mem_map] at hc
    obtain ⟨e, he, rfl⟩ := hc
    rw [sumAt_of_nodup es hnd e he]
    exact hnz e he
  have hfm : ∀ (l : List Nat), (∀ c ∈ l, sumAt es c ≠ 0) →
      (l.filterMap fun c => if sumAt es c = 0 then none else some (c, sumAt es c)) =
        l.map fun c => (c, sumAt es c) := by
    intro l
    induction l with
    | nil => intro hx; rfl
    | cons c cs ih =>
      intro hl
      rw [List.filterMap_cons, if_neg (hl c (List.mem_cons_self c cs)), List.map_cons,
        ih (fun c2 hc2 => hl c2 (List.mem_cons_of_mem _ hc2))]
  rw [hfm _ hall, List.map_reverse, map_sumAt_eq_self es hnd]

/-! ## Reading the coalescer output. -/

theorem dup_out_ap (n_row n_col : Nat) (Ap Aj : List Nat) (Ax : List Int) :
    (sum_csr_duplicates n_row n_col Ap Aj Ax).1 = (dupIter n_col Ap Aj Ax n_row).ap := rfl

theorem dup_out_aj (n_row n_col : Nat) (Ap Aj : List Nat) (Ax : List Int)
    (h : CsrValid n_row n_col Ap Aj Ax) :
    (sum_csr_duplicates n_row n_col Ap Aj Ax).2.1 =
      setSeq Aj 0 ((dupFlat Ap Aj Ax n_row).map fun e => e.1) :=
  (dupIter_spec n_row n_col Ap Aj Ax h n_row (Nat.le_refl _)).2.2.2.2.2.2.1

theorem dup_out_ax (n_row n_col : Nat) (Ap Aj : List Nat) (Ax : List Int)
    (h : CsrValid n_row n_col Ap Aj Ax) :
    (sum_csr_duplicates n_row n_col Ap Aj Ax).2.2 =
      setSeq Ax 0 ((dupFlat Ap Aj Ax n_row).map fun e => e.2) :=
  (dupIter_spec n_row n_col Ap Aj Ax h n_row (Nat.le_refl _)).2.2.2.2.2.2.2

theorem dup_out_ap_length (n_row n_col : Nat) (Ap Aj : List Nat) (Ax : List Int)
    (h : CsrValid n_row n_col Ap Aj Ax) :
    (sum_csr_duplicates n_row n_col Ap Aj Ax).1.length = Ap.length :=
  (dupIter_spec n_row n_col Ap Aj Ax h n_row (Nat.le_refl _)).2.2.2.2.1

theorem dup_out_ap_getD_if (n_row n_col : Nat) (Ap Aj : List Nat) (Ax : List Int)
    (h : CsrValid n_row n_col Ap Aj Ax) (m : Nat) :
    (sum_csr_duplicates n_row n_col Ap Aj Ax).1.getD m 0 =
      if 1 ≤ m ∧ m ≤ n_row then (dupFlat Ap Aj Ax m).length else Ap.getD m 0 :=
  (dupIter_spec n_row n_col Ap Aj Ax h n_row (Nat.le_refl _)).2.2.2.2.2.1 m

theorem dup_out_ap_getD (n_row n_col : Nat) (Ap Aj : List Nat) (Ax : List Int)
    (h : CsrValid n_row n_col Ap Aj Ax) (m : Nat) (hm : m ≤ n_row) :
    (sum_csr_duplicates n_row n_col Ap Aj Ax).1.getD m 0 = (dupFlat Ap Aj Ax m).length := by
  rw [dup_out_ap_getD_if n_row n_col Ap Aj Ax h m]
  match m with
  | 0 =>
    rw [if_neg (by omega), h.ap0]
    rfl
  | m + 1 => rw [if_pos (by omega)]

theorem dupFlat_length_mono (Ap Aj : List Nat) (Ax : List Int) (i j : Nat) (hij : i ≤ j) :
    (dupFlat Ap Aj Ax i).length ≤ (dupFlat Ap Aj Ax j).length :=
  flatMap_range_length_mono _ i j hij

theorem dup_out_aj_getD (n_row n_col : Nat) (Ap Aj : List Nat) (Ax : List Int)
    (h : CsrValid n_row n_col Ap Aj Ax) (q : Nat)
    (hq : q < (dupFlat Ap Aj Ax n_row).length) :
    (sum_csr_duplicates n_row n_col Ap Aj Ax).2.1.getD q 0 =
      ((dupFlat Ap Aj Ax n_row).map fun e => e.1).getD q 0 := by
  rw [dup_out_aj n_row n_col Ap Aj Ax h]
  have hb1 : q < ((dupFlat Ap Aj Ax n_row).map fun e => e.1).length := by simp [hq]
  have hb2 : 0 + q < Aj.length := by
    have h1 : (dupFlat Ap Aj Ax n_row).length ≤ Ap.getD n_row 0 :=
      dupFlat_length_le n_row n_col Ap Aj Ax h n_row (Nat.le_refl _)
    have h2 := h.nnzLe
    omega
  have := getD_setSeq_at ((dupFlat Ap Aj Ax n_row).map fun e => e.1) Aj 0 q 0 hb1 hb2
  simpa using this

theorem dup_out_ax_getD (n_row n_col : Nat) (Ap Aj : List Nat) (Ax : List Int)
    (h : CsrValid n_row n_col Ap Aj Ax) (q : Nat)
    (hq : q < (dupFlat Ap Aj Ax n_row).length) :
    (sum_csr_duplicates n_row n_col Ap Aj Ax).2.2.getD q 0 =
      ((dupFlat Ap Aj Ax n_row).map fun e => e.2).getD q 0 := by
  rw [dup_out_ax n_row n_col Ap Aj Ax h]
  have hb1 : q < ((dupFlat Ap Aj Ax n_row).map fun e => e.2).length := by simp [hq]
  have hb2 : 0 + q < Ax.length := by
    have h1 : (dupFlat Ap Aj Ax n_row).length ≤ Ap.getD n_row 0 :=
      dupFlat_length_le n_row n_col Ap Aj Ax h n_row (Nat.le_refl _)
    have h2 := h.nnzLe
    have h3 := h.axLen
    omega
  have := getD_setSeq_at ((dupFlat Ap Aj Ax n_row).map fun e => e.2) Ax 0 q 0 hb1 hb2
  simpa using this

theorem dupFlat_block_fst (Ap Aj : List Nat) (Ax : List Int) (n_row i t : Nat)
    (hi : i < n_row) (ht : t < (emitRow (rowEntries Ap Aj Ax i)).length) :
    ((dupFlat Ap Aj Ax n_row).map fun e => e.1).getD ((dupFlat Ap Aj Ax i).length + t) 0 =
      ((emitRow (rowEntries Ap Aj Ax i)).map fun e => e.1).getD t 0 := by
  have hmf : ∀ k : Nat, (dupFlat Ap Aj Ax k).map (fun e => e.1) =
      (List.range k).flatMap fun j => (emitRow (rowEntries Ap Aj Ax j)).map fun e => e.1 := by
    intro k
    rw [dupFlat, List.map_flatMap]
  have hlen : (dupFlat Ap Aj Ax i).length =
      ((List.range i).flatMap fun j =>
        (emitRow (rowEntries Ap Aj Ax j)).map fun e => e.1).length := by
    rw [show ((List.range i).flatMap fun j =>
        (emitRow (rowEntries Ap Aj Ax j)).map fun e => e.1) =
        (dupFlat Ap Aj Ax i).map (fun e => e.1) from (hmf i).symm]
    simp
  rw [hmf n_row, hlen]
  exact flatMap_range_getD _ n_row i t 0 hi (by simp [ht])

theorem dupFlat_block_snd (Ap Aj : List Nat) (Ax : List Int) (n_row i t : Nat)
    (hi : i < n_row) (ht : t < (emitRow (rowEntries Ap Aj Ax i)).length) :
    ((dupFlat Ap Aj Ax n_row).map fun e => e.2).getD ((dupFlat Ap Aj Ax i).length + t) 0 =
      ((emitRow (rowEntries Ap Aj Ax i)).map fun e => e.2).getD t 0 := by
  have hmf : ∀ k : Nat, (dupFlat Ap Aj Ax k).map (fun e => e.2) =
      (List.range k).flatMap fun j => (emitRow (rowEntries Ap Aj Ax j)).map fun e => e.2 := by
    intro k
    rw [dupFlat, List.map_flatMap]
  have hlen : (dupFlat Ap Aj Ax i).length =
      ((List.range i).flatMap fun j =>
        (emitRow (rowEntries Ap Aj Ax j)).map fun e => e.2).length := by
    rw [show ((List.range i).flatMap fun j =>
        (emitRow (rowEntries Ap Aj Ax j)).map fun e => e.2) =
        (dupFlat Ap Aj Ax i).map (fun e => e.2) from (hmf i).symm]
    simp
  rw [hmf n_row, hlen]
  exact flatMap_range_getD _ n_row i t 0 hi (by simp [ht])

theorem dup_out_rowEntries (n_row n_col : Nat) (Ap Aj : List Nat) (Ax : List Int)
    (h : CsrValid n_row n_col Ap Aj Ax) (i : Nat) (hi : i < n_row) :
    rowEntries (sum_csr_duplicates n_row n_col Ap Aj Ax).1
      (sum_csr_duplicates n_row n_col Ap Aj Ax).2.1
      (sum_csr_duplicates n_row n_col Ap Aj Ax).2.2 i =
      emitRow (rowEntries Ap Aj Ax i) := by
  rw [rowEntries, dup_out_ap_getD n_row n_col Ap Aj Ax h i (by omega),
    dup_out_ap_getD n_row n_col Ap Aj Ax h (i + 1) (by omega)]
  have hsucc : (dupFlat Ap Aj Ax (i + 1)).length =
      (dupFlat Ap Aj Ax i).length + (emitRow (rowEntries Ap Aj Ax i)).length := by
    rw [dupFlat_succ, List.length_append]
  rw [hsucc, show (dupFlat Ap Aj Ax i).length + (emitRow (rowEntries Ap Aj Ax i)).length -
    (dupFlat Ap Aj Ax i).length = (emitRow (rowEntries Ap Aj Ax i)).length from by omega]
  apply list_eq_of_getD _ _ ((0 : Nat), (0 : Int))
  · simp
  · intro q hq
    rw [List.length_map, List.length_range] at hq
    have hmapD : ((List.range (emitRow (rowEntries Ap Aj Ax i)).length).map (fun t =>
        ((sum_csr_duplicates n_row n_col Ap Aj Ax).2.1.getD
          ((dupFlat Ap Aj Ax i).length + t) 0,
         (sum_csr_duplicates n_row n_col Ap Aj Ax).2.2.getD
          ((dupFlat Ap Aj Ax i).length + t) 0))).getD q ((0 : Nat), (0 : Int)) =
        ((sum_csr_duplicates n_row n_col Ap Aj Ax).2.1.getD
          ((dupFlat Ap Aj Ax i).length + q) 0,
         (sum_csr_duplicates n_row n_col Ap Aj Ax).2.2.getD
          ((dupFlat Ap Aj Ax i).length + q) 0) := by
      rw [List.getD_eq_getElem _ _ (by simp [hq]), List.getElem_map, List.getElem_range]
    rw [hmapD]
    have hqlt : (dupFlat Ap Aj Ax i).length + q < (dupFlat Ap Aj Ax n_row).length := by
      have h1 : (dupFlat Ap Aj Ax (i + 1)).length ≤ (dupFlat Ap Aj Ax n_row).length :=
        dupFlat_length_mono Ap Aj Ax (i + 1) n_row (by omega)
      omega
    rw [dup_out_aj_getD n_row n_col Ap Aj Ax h _ hqlt,
      dup_out_ax_getD n_row n_col Ap Aj Ax h _ hqlt,
      dupFlat_block_fst Ap Aj Ax n_row i q hi hq,
      dupFlat_block_snd Ap Aj Ax n_row i q hi hq,
      getD_map_fst _ q hq, getD_map_snd _ q hq]

theorem dup_out_valid (n_row n_col : Nat) (Ap Aj : List Nat) (Ax : List Int)
    (h : CsrValid n_row n_col Ap Aj Ax) :
    CsrValid n_row n_col (sum_csr_duplicates n_row n_col Ap Aj Ax).1
      (sum_csr_duplicates n_row n_col Ap Aj Ax).2.1
      (sum_csr_duplicates n_row n_col Ap Aj Ax).2.2 := by
  have hflatle : (dupFlat Ap Aj Ax n_row).length ≤ Ap.getD n_row 0 :=
    dupFlat_length_le n_row n_col Ap Aj Ax h n_row (Nat.le_refl _)
  refine ⟨?_, ?_, ?_, ?_, ?_, ?_⟩
  · rw [dup_out_ap_length n_row n_col Ap Aj Ax h, h.apLen]
  · rw [dup_out_ap_getD n_row n_col Ap Aj Ax h 0 (by omega)]
    rfl
  · intro i hi
    rw [dup_out_ap_getD n_row n_col Ap Aj Ax h i (by omega),
      dup_out_ap_getD n_row n_col Ap Aj Ax h (i + 1) (by omega)]
    exact dupFlat_length_mono Ap Aj Ax i (i + 1) (by omega)
  · rw [dup_out_ap_getD n_row n_col Ap Aj Ax h n_row (Nat.le_refl _),
      dup_out_aj n_row n_col Ap Aj Ax h, setSeq_length]
    exact Nat.le_trans hflatle h.nnzLe
  · rw [dup_out_aj n_row n_col Ap Aj Ax h, dup_out_ax n_row n_col Ap Aj Ax h,
      setSeq_length, setSeq_length]
    exact h.axLen
  · intro q hq
    rw [dup_out_ap_getD n_row n_col Ap Aj Ax h n_row (Nat.le_refl _)] at hq
    rw [dup_out_aj_getD n_row n_col Ap Aj Ax h q hq]
    have hmem : ((dupFlat Ap Aj Ax n_row).map fun e => e.1).getD q 0 ∈
        (dupFlat Ap Aj Ax n_row).map fun e => e.1 :=
      getD_mem _ q 0 (by simp [hq])
    rw [List.mem_map] at hmem
    obtain ⟨e, he, heq⟩ := hmem
    rw [← heq]
    rw [dupFlat, List.mem_flatMap] at he
    obtain ⟨i, hi, hei⟩ := he
    rw [List.mem_range] at hi
    have h1 := emitRow_fst_mem _ e hei
    rw [List.mem_map] at h1
    obtain ⟨x, hx, hxe⟩ := h1
    rw [← hxe]
    exact rowEntries_col_lt n_row n_col Ap Aj Ax h i hi x hx

/-! ## Reading rows back from an output built as (cumFrom, flatMap, flatMap). -/

theorem cumFrom_getD_flatLen (f : Nat → List (Nat × Int)) (n i : Nat) (hin : i ≤ n) :
    (cumFrom 0 ((List.range n).map fun j => (f j).length)).getD i 0 =
      ((List.range i).flatMap fun j => (f j).map fun e => e.1).length := by
  rw [cumFrom_getD _ _ _ (by simp [hin])]
  rw [← List.map_take, List.take_range, Nat.min_eq_left hin]
  rw [List.length_flatMap]
  have : ((List.range i).map fun j => (f j).length) =
      (List.range i).map (List.length ∘ fun j => (f j).map fun e => e.1) := by
    apply List.map_congr_left
    intro j _
    simp
  rw [this]
  omega

theorem flatLen_fst_eq_snd (f : Nat → List (Nat × Int)) (i : Nat) :
    ((List.range i).flatMap fun j => (f j).map fun e => e.1).length =
      ((List.range i).flatMap fun j => (f j).map fun e => e.2).length := by
  rw [List.length_flatMap, List.length_flatMap]
  congr 1
  apply List.map_congr_left
  intro j _
  simp

theorem rowEntries_cumFrom (f : Nat → List (Nat × Int)) (n i : Nat) (hi : i < n) :
    rowEntries (cumFrom 0 ((List.range n).map fun j => (f j).length))
      ((List.range n).flatMap fun j => (f j).map fun e => e.1)
      ((List.range n).flatMap fun j => (f j).map fun e => e.2) i = f i := by
  rw [rowEntries, cumFrom_getD_flatLen f n i (by omega),
    cumFrom_getD_flatLen f n (i + 1) (by omega)]
  have hsucc : ((List.range (i + 1)).flatMap fun j => (f j).map fun e => e.1).length =
      ((List.range i).flatMap fun j => (f j).map fun e => e.1).length + (f i).length := by
    rw [List.range_succ, List.flatMap_append, List.length_append, List.flatMap_cons,
      List.flatMap_nil, List.append_nil, List.length_map]
  rw [hsucc, show ((List.range i).flatMap fun j => (f j).map fun e => e.1).length +
    (f i).length - ((List.range i).flatMap fun j => (f j).map fun e => e.1).length =
    (f i).length from by omega]
  apply list_eq_of_getD _ _ ((0 : Nat), (0 : Int))
  · simp
  · intro q hq
    rw [List.length_map, List.length_range] at hq
    have hmapD : ((List.range (f i).length).map (fun t =>
        (((List.range n).flatMap fun j => (f j).map fun e => e.1).getD
          (((List.range i).flatMap fun j => (f j).map fun e => e.1).length + t) 0,
         ((List.range n).flatMap fun j => (f j).map fun e => e.2).getD
          (((List.range i).flatMap fun j => (f j).map fun e => e.1).length + t) 0))).getD q
          ((0 : Nat), (0 : Int)) =
        (((List.range n).flatMap fun j => (f j).map fun e => e.1).getD
          (((List.range i).flatMap fun j => (f j).map fun e => e.1).length + q) 0,
         ((List.range n).flatMap fun j => (f j).map fun e => e.2).getD
          (((List.range i).flatMap fun j => (f j).map fun e => e.1).length + q) 0) := by
      rw [List.getD_eq_getElem _ _ (by simp [hq]), List.getElem_map, List.getElem_range]
    rw [hmapD]
    rw [flatMap_range_getD (fun j => (f j).map fun e => e.1) n i q 0 hi (by simp [hq])]
    rw [flatLen_fst_eq_snd f i]
    rw [flatMap_range_getD (fun j => (f j).map fun e => e.2) n i q 0 hi (by simp [hq])]
    rw [getD_map_fst _ q hq, getD_map_snd _ q hq]

/-! ## Membership helpers for triple lists. -/

theorem mem_csrEntriesWithRow_iff (n_row : Nat) (cp cj : List Nat) (cx : List Int)
    (i : Nat) (c : Nat) (v : Int) (hi : i < n_row) :
    (i, c, v) ∈ csrEntriesWithRow n_row cp cj cx ↔ (c, v) ∈ rowEntries cp cj cx i := by
  rw [csrEntriesWithRow, List.mem_flatMap]
  constructor
  · rintro ⟨i2, hi2, hm⟩
    rw [List.mem_map] at hm
    obtain ⟨e, he, heq⟩ := hm
    have h1 : i2 = i := congrArg (fun x => x.1) heq
    have h2 : e.1 = c := congrArg (fun x => x.2.1) heq
    have h3 : e.2 = v := congrArg (fun x => x.2.2) heq
    rw [h1] at he
    rw [show e = (e.1, e.2) from rfl, h2, h3] at he
    exact he
  · intro hm
    refine ⟨i, by simp [hi], ?_⟩
    rw [List.mem_map]
    exact ⟨(c, v), hm, rfl⟩

theorem mem_binEmitRow (op : Int → Int → Int) (esA esB : List (Nat × Int)) (c : Nat) (v : Int) :
    (c, v) ∈ binEmitRow op esA esB ↔
      c ∈ touchedFold (touchedFold [] (esA.map fun e => e.1)) (esB.map fun e => e.1) ∧
      op (sumAt esA c) (sumAt esB c) ≠ 0 ∧ v = op (sumAt esA c) (sumAt esB c) := by
  rw [binEmitRow, List.mem_filterMap]
  constructor
  · rintro ⟨c2, hc2, hfc⟩
    by_cases h0 : op (sumAt esA c2) (sumAt esB c2) = 0
    · rw [if_pos h0] at hfc
      simp at hfc
    · rw [if_neg h0] at hfc
      have heq := Option.some.inj hfc
      have h1 : c2 = c := congrArg (fun x => x.1) heq
      have h2 : op (sumAt esA c2) (sumAt esB c2) = v := congrArg (fun x => x.2) heq
      subst h1
      exact ⟨hc2, h0, h2.symm⟩
  · rintro ⟨hc, h0, rfl⟩
    exact ⟨c, hc, by rw [if_neg h0]⟩

/-! ## Claim C1: the coo_tocsr sorted-output contract. -/

/-- C1.  The header of coo_tocsr promises "Output: CSR column indices *will be*
in sorted order", and the claim asserts strictly ascending column indices in
every output row slice.  The code drains the accumulator in reverse
first-touch order and never sorts, so the COO input
(n_row=1, n_col=2, nnz=2, Ai=[0,0], Aj=[0,1], Ax=[1,2]) yields Bj = [1,0]
within row 0: descending, not ascending.  This theorem evaluates the embedded
coo_tocsr at that failing input. -/
theorem claim_C1_coo_tocsr_output_not_sorted :
    coo_tocsr 1 2 2 [0, 0] [0, 1] [1, 2] = ([0, 2], [1, 0], [2, 1]) ∧
    ¬ List.Chain' (fun a b => a < b)
      (rowCols (coo_tocsr 1 2 2 [0, 0] [0, 1] [1, 2]).1
        (coo_tocsr 1 2 2 [0, 0] [0, 1] [1, 2]).2.1 0) := by
  constructor
  · decide
  · have hr : rowCols (coo_tocsr 1 2 2 [0, 0] [0, 1] [1, 2]).1
        (coo_tocsr 1 2 2 [0, 0] [0, 1] [1, 2]).2.1 0 = [1, 0] := by decide
    rw [hr]
    intro hc
    have h2 := (List.chain'_cons.1 hc).1
    omega

/-! ## Claim C2: coalescing twice versus once. -/

/-- C2 counterexample.  Applying sum_csr_duplicates twice is NOT entry-for-entry
identical to applying it once: on Ap=[0,2], Aj=[0,1], Ax=[1,2] one application
yields Aj=[1,0] and a second application reverses the row again to Aj=[0,1]. -/
theorem claim_C2_counterexample :
    sum_csr_duplicates 1 2 (sum_csr_duplicates 1 2 [0, 2] [0, 1] [1, 2]).1
        (sum_csr_duplicates 1 2 [0, 2] [0, 1] [1, 2]).2.1
        (sum_csr_duplicates 1 2 [0, 2] [0, 1] [1, 2]).2.2 ≠
      sum_csr_duplicates 1 2 [0, 2] [0, 1] [1, 2] := by
  decide

theorem dupFlat_twice_length (n_row n_col : Nat) (Ap Aj : List Nat) (Ax : List Int)
    (h : CsrValid n_row n_col Ap Aj Ax) (m : Nat) (hm : m ≤ n_row) :
    (dupFlat (sum_csr_duplicates n_row n_col Ap Aj Ax).1
      (sum_csr_duplicates n_row n_col Ap Aj Ax).2.1
      (sum_csr_duplicates n_row n_col Ap Aj Ax).2.2 m).length =
      (dupFlat Ap Aj Ax m).length := by
  induction m with
  | zero => rfl
  | succ m ih =>
    rw [dupFlat_succ, dupFlat_succ, List.length_append, List.length_append, ih (by omega)]
    congr 1
    rw [dup_out_rowEntries n_row n_col Ap Aj Ax h m (by omega)]
    rw [emitRow_eq_reverse _ (emitRow_nodup_fst _)
      (fun e he => emitRow_snd_ne_zero _ e he)]
    rw [List.length_reverse]

/-- C2 amended.  sum_csr_duplicates is idempotent up to within-row order: a
second application leaves the row pointer array unchanged and replaces each
row's entry list by its reversal (hence the same set of (column, value)
pairs per row). -/
theorem claim_C2_amended_reversal (n_row n_col : Nat) (Ap Aj : List Nat) (Ax : List Int)
    (h : CsrValid n_row n_col Ap Aj Ax) :
    (sum_csr_duplicates n_row n_col (sum_csr_duplicates n_row n_col Ap Aj Ax).1
        (sum_csr_duplicates n_row n_col Ap Aj Ax).2.1
        (sum_csr_duplicates n_row n_col Ap Aj Ax).2.2).1 =
      (sum_csr_duplicates n_row n_col Ap Aj Ax).1 ∧
    ∀ i, i < n_row →
      rowEntries (sum_csr_duplicates n_row n_col (sum_csr_duplicates n_row n_col Ap Aj Ax).1
          (sum_csr_duplicates n_row n_col Ap Aj Ax).2.1
          (sum_csr_duplicates n_row n_col Ap Aj Ax).2.2).1
        (sum_csr_duplicates n_row n_col (sum_csr_duplicates n_row n_col Ap Aj Ax).1
          (sum_csr_duplicates n_row n_col Ap Aj Ax).2.1
          (sum_csr_duplicates n_row n_col Ap Aj Ax).2.2).2.1
        (sum_csr_duplicates n_row n_col (sum_csr_duplicates n_row n_col Ap Aj Ax).1
          (sum_csr_duplicates n_row n_col Ap Aj Ax).2.1
          (sum_csr_duplicates n_row n_col Ap Aj Ax).2.2).2.2 i =
      (rowEntries (sum_csr_duplicates n_row n_col Ap Aj Ax).1
        (sum_csr_duplicates n_row n_col Ap Aj Ax).2.1
        (sum_csr_duplicates n_row n_col Ap Aj Ax).2.2 i).reverse := by
  have hv : CsrValid n_row n_col (sum_csr_duplicates n_row n_col Ap Aj Ax).1
      (sum_csr_duplicates n_row n_col Ap Aj Ax).2.1
      (sum_csr_duplicates n_row n_col Ap Aj Ax).2.2 :=
    dup_out_valid n_row n_col Ap Aj Ax h
  constructor
  · apply list_eq_of_getD _ _ 0
    · rw [dup_out_ap_length _ _ _ _ _ hv, dup_out_ap_length n_row n_col Ap Aj Ax h]
    · intro m _
      rw [dup_out_ap_getD_if _ _ _ _ _ hv m]
      by_cases hm : 1 ≤ m ∧ m ≤ n_row
      · rw [if_pos hm, dupFlat_twice_length n_row n_col Ap Aj Ax h m hm.2,
          dup_out_ap_getD n_row n_col Ap Aj Ax h m hm.2]
      · rw [if_neg hm]
  · intro i hi
    rw [dup_out_rowEntries _ _ _ _ _ hv i hi, dup_out_rowEntries n_row n_col Ap Aj Ax h i hi]
    exact emitRow_eq_reverse _ (emitRow_nodup_fst _) (fun e he => emitRow_snd_ne_zero _ e he)

/-- C2 witness: the amended statement applied at a concrete valid input. -/
theorem claim_C2_amended_reversal_witness :
    (sum_csr_duplicates 1 2 (sum_csr_duplicates 1 2 [0, 2] [0, 1] [1, 2]).1
        (sum_csr_duplicates 1 2 [0, 2] [0, 1] [1, 2]).2.1
        (sum_csr_duplicates 1 2 [0, 2] [0, 1] [1, 2]).2.2).1 =
      (sum_csr_duplicates 1 2 [0, 2] [0, 1] [1, 2]).1 ∧
    rowEntries (sum_csr_duplicates 1 2 (sum_csr_duplicates 1 2 [0, 2] [0, 1] [1, 2]).1
        (sum_csr_duplicates 1 2 [0, 2] [0, 1] [1, 2]).2.1
        (sum_csr_duplicates 1 2 [0, 2] [0, 1] [1, 2]).2.2).1
      (sum_csr_duplicates 1 2 (sum_csr_duplicates 1 2 [0, 2] [0, 1] [1, 2]).1
        (sum_csr_duplicates 1 2 [0, 2] [0, 1] [1, 2]).2.1
        (sum_csr_duplicates 1 2 [0, 2] [0, 1] [1, 2]).2.2).2.1
      (sum_csr_duplicates 1 2 (sum_csr_duplicates 1 2 [0, 2] [0, 1] [1, 2]).1
        (sum_csr_duplicates 1 2 [0, 2] [0, 1] [1, 2]).2.1
        (sum_csr_duplicates 1 2 [0, 2] [0, 1] [1, 2]).2.2).2.2 0 =
      (rowEntries (sum_csr_duplicates 1 2 [0, 2] [0, 1] [1, 2]).1
        (sum_csr_duplicates 1 2 [0, 2] [0, 1] [1, 2]).2.1
        (sum_csr_duplicates 1 2 [0, 2] [0, 1] [1, 2]).2.2 0).reverse :=
  ⟨(claim_C2_amended_reversal 1 2 [0, 2] [0, 1] [1, 2]
      (by refine ⟨?_, ?_, ?_, ?_, ?_, ?_⟩ <;> decide)).1,
   (claim_C2_amended_reversal 1 2 [0, 2] [0, 1] [1, 2]
      (by refine ⟨?_, ?_, ?_, ?_, ?_, ?_⟩ <;> decide)).2 0 (by decide)⟩

/-! ## Claim C9: in-place safety of sum_csr_duplicates. -/

/-- C9.  The compacted write cursor nnz never passes the read frontier: at the
start of every outer row iteration k the cursor is at most the original
Ap[k] (the first not-yet-read position), and every updated row pointer
Ap[i+1] is at most its original value, so in-place left-compaction never
overwrites data before it has been read. -/
theorem claim_C9_write_cursor_safe (n_row n_col : Nat) (Ap Aj : List Nat) (Ax : List Int)
    (h : CsrValid n_row n_col Ap Aj Ax) :
    (∀ k, k ≤ n_row → (dupIter n_col Ap Aj Ax k).nnz ≤ Ap.getD k 0) ∧
    (∀ i, i < n_row →
      (sum_csr_duplicates n_row n_col Ap Aj Ax).1.getD (i + 1) 0 ≤ Ap.getD (i + 1) 0) := by
  constructor
  · intro k hk
    rw [(dupIter_spec n_row n_col Ap Aj Ax h k hk).2.2.1]
    exact dupFlat_length_le n_row n_col Ap Aj Ax h k hk
  · intro i hi
    rw [dup_out_ap_getD n_row n_col Ap Aj Ax h (i + 1) (by omega)]
    exact dupFlat_length_le n_row n_col Ap Aj Ax h (i + 1) (by omega)

/-- C9 witness: the safety bounds at a concrete input with duplicates. -/
theorem claim_C9_write_cursor_safe_witness :
    (dupIter 2 [0, 3] [0, 1, 0] [1, 2, 3] 1).nnz ≤ [0, 3].getD 1 0 ∧
    (sum_csr_duplicates 1 2 [0, 3] [0, 1, 0] [1, 2, 3]).1.getD 1 0 ≤ [0, 3].getD 1 0 :=
  ⟨(claim_C9_write_cursor_safe 1 2 [0, 3] [0, 1, 0] [1, 2, 3]
      (by refine ⟨?_, ?_, ?_, ?_, ?_, ?_⟩ <;> decide)).1 1 (by decide),
   (claim_C9_write_cursor_safe 1 2 [0, 3] [0, 1, 0] [1, 2, 3]
      (by refine ⟨?_, ?_, ?_, ?_, ?_, ?_⟩ <;> decide)).2 0 (by decide)⟩

/-! ## Row reading for the product and combine outputs. -/

theorem csrmucsr_rowEntries (n_row n_colA n_col : Nat) (Ap Aj : List Nat) (Ax : List Int)
    (Bp Bj : List Nat) (Bx : List Int) (hA : CsrValid n_row n_colA Ap Aj Ax)
    (hB : CsrValid n_colA n_col Bp Bj Bx) (i : Nat) (hi : i < n_row) :
    rowEntries (csrmucsr n_row n_col Ap Aj Ax Bp Bj Bx).1
      (csrmucsr n_row n_col Ap Aj Ax Bp Bj Bx).2.1
      (csrmucsr n_row n_col Ap Aj Ax Bp Bj Bx).2.2 i =
      emitRow (mulRowEntries Ap Aj Ax Bp Bj Bx i) := by
  rw [csrmucsr_spec n_row n_colA n_col Ap Aj Ax Bp Bj Bx hA hB]
  exact rowEntries_cumFrom (fun j => emitRow (mulRowEntries Ap Aj Ax Bp Bj Bx j)) n_row i hi

theorem csr_binop_csr_rowEntries (op : Int → Int → Int) (n_row n_col : Nat)
    (Ap Aj : List Nat) (Ax : List Int) (Bp Bj : List Nat) (Bx : List Int)
    (hA : CsrValid n_row n_col Ap Aj Ax) (hB : CsrValid n_row n_col Bp Bj Bx)
    (i : Nat) (hi : i < n_row) :
    rowEntries (csr_binop_csr n_row n_col Ap Aj Ax Bp Bj Bx op).1
      (csr_binop_csr n_row n_col Ap Aj Ax Bp Bj Bx op).2.1
      (csr_binop_csr n_row n_col Ap Aj Ax Bp Bj Bx op).2.2 i =
      binEmitRow op (rowEntries Ap Aj Ax i) (rowEntries Bp Bj Bx i) := by
  rw [csr_binop_csr_spec op n_row n_col Ap Aj Ax Bp Bj Bx hA hB]
  exact rowEntries_cumFrom
    (fun j => binEmitRow op (rowEntries Ap Aj Ax j) (rowEntries Bp Bj Bx j)) n_row i hi

theorem binEmitRow_snd_ne_zero (op : Int → Int → Int) (esA esB : List (Nat × Int))
    (e : Nat × Int) (he : e ∈ binEmitRow op esA esB) : e.2 ≠ 0 := by
  have he2 : (e.1, e.2) ∈ binEmitRow op esA esB := by
    rw [show (e.1, e.2) = e from rfl]
    exact he
  rw [mem_binEmitRow] at he2
  intro h0
  apply he2.2.1
  rw [← he2.2.2]
  exact h0

/-! ## Claim C4: no explicit zeros in any numeric-kernel output. -/

/-- C4.  Every value stored by csrmucsr, csr_binop_csr (any operator) and
sum_csr_duplicates is nonzero: each drain writes an entry only under a
nonzero guard. -/
theorem claim_C4_no_explicit_zeros
    (n_row n_colA n_col n_row2 n_col2 n_row3 n_col3 : Nat)
    (Ap Aj : List Nat) (Ax : List Int) (Bp Bj : List Nat) (Bx : List Int)
    (Cp Cj : List Nat) (Cx : List Int) (Dp Dj : List Nat) (Dx : List Int)
    (Ep Ej : List Nat) (Ex : List Int) (op : Int → Int → Int)
    (hA : CsrValid n_row n_colA Ap Aj Ax) (hB : CsrValid n_colA n_col Bp Bj Bx)
    (hC : CsrValid n_row2 n_col2 Cp Cj Cx) (hD : CsrValid n_row2 n_col2 Dp Dj Dx)
    (hE : CsrValid n_row3 n_col3 Ep Ej Ex) :
    (∀ v ∈ (csrmucsr n_row n_col Ap Aj Ax Bp Bj Bx).2.2, v ≠ 0) ∧
    (∀ v ∈ (csr_binop_csr n_row2 n_col2 Cp Cj Cx Dp Dj Dx op).2.2, v ≠ 0) ∧
    (∀ q, q < (sum_csr_duplicates n_row3 n_col3 Ep Ej Ex).1.getD n_row3 0 →
      (sum_csr_duplicates n_row3 n_col3 Ep Ej Ex).2.2.getD q 0 ≠ 0) := by
  refine ⟨?_, ?_, ?_⟩
  · intro v hv
    rw [csrmucsr_spec n_row n_colA n_col Ap Aj Ax Bp Bj Bx hA hB] at hv
    rw [List.mem_flatMap] at hv
    obtain ⟨i, _, hv⟩ := hv
    rw [List.mem_map] at hv
    obtain ⟨e, he, rfl⟩ := hv
    exact emitRow_snd_ne_zero _ e he
  · intro v hv
    rw [csr_binop_csr_spec op n_row2 n_col2 Cp Cj Cx Dp Dj Dx hC hD] at hv
    rw [List.mem_flatMap] at hv
    obtain ⟨i, _, hv⟩ := hv
    rw [List.mem_map] at hv
    obtain ⟨e, he, rfl⟩ := hv
    exact binEmitRow_snd_ne_zero op _ _ e he
  · intro q hq
    rw [dup_out_ap_getD n_row3 n_col3 Ep Ej Ex hE n_row3 (Nat.le_refl _)] at hq
    rw [dup_out_ax_getD n_row3 n_col3 Ep Ej Ex hE q hq]
    have hmem : ((dupFlat Ep Ej Ex n_row3).map fun e => e.2).getD q 0 ∈
        (dupFlat Ep Ej Ex n_row3).map fun e => e.2 :=
      getD_mem _ q 0 (by simp [hq])
    rw [List.mem_map] at hmem
    obtain ⟨e, he, heq⟩ := hmem
    rw [← heq]
    rw [dupFlat, List.mem_flatMap] at he
    obtain ⟨i, _, hei⟩ := he
    exact emitRow_snd_ne_zero _ e hei

/-- C4 witness at concrete inputs: a product value, an elementwise-sum value
and a coalesced duplicate sum, each certified nonzero by the theorem. -/
theorem claim_C4_no_explicit_zeros_witness :
    (6 : Int) ≠ 0 ∧ (5 : Int) ≠ 0 ∧
    (sum_csr_duplicates 1 1 [0, 2] [0, 0] [2, 3]).2.2.getD 0 0 ≠ 0 :=
  ⟨(claim_C4_no_explicit_zeros 1 1 1 1 1 1 1 [0, 1] [0] [2] [0, 1] [0] [3]
      [0, 1] [0] [2] [0, 1] [0] [3] [0, 2] [0, 0] [2, 3] (fun a b => a + b)
      (by refine ⟨?_, ?_, ?_, ?_, ?_, ?_⟩ <;> decide)
      (by refine ⟨?_, ?_, ?_, ?_, ?_, ?_⟩ <;> decide)
      (by refine ⟨?_, ?_, ?_, ?_, ?_, ?_⟩ <;> decide)
      (by refine ⟨?_, ?_, ?_, ?_, ?_, ?_⟩ <;> decide)
      (by refine ⟨?_, ?_, ?_, ?_, ?_, ?_⟩ <;> decide)).1 6 (by decide),
   (claim_C4_no_explicit_zeros 1 1 1 1 1 1 1 [0, 1] [0] [2] [0, 1] [0] [3]
      [0, 1] [0] [2] [0, 1] [0] [3] [0, 2] [0, 0] [2, 3] (fun a b => a + b)
      (by refine ⟨?_, ?_, ?_, ?_, ?_, ?_⟩ <;> decide)
      (by refine ⟨?_, ?_, ?_, ?_, ?_, ?_⟩ <;> decide)
      (by refine ⟨?_, ?_, ?_, ?_, ?_, ?_⟩ <;> decide)
      (by refine ⟨?_, ?_, ?_, ?_, ?_, ?_⟩ <;> decide)
      (by refine ⟨?_, ?_, ?_, ?_, ?_, ?_⟩ <;> decide)).2.1 5 (by decide),
   (claim_C4_no_explicit_zeros 1 1 1 1 1 1 1 [0, 1] [0] [2] [0, 1] [0] [3]
      [0, 1] [0] [2] [0, 1] [0] [3] [0, 2] [0, 0] [2, 3] (fun a b => a + b)
      (by refine ⟨?_, ?_, ?_, ?_, ?_, ?_⟩ <;> decide)
      (by refine ⟨?_, ?_, ?_, ?_, ?_, ?_⟩ <;> decide)
      (by refine ⟨?_, ?_, ?_, ?_, ?_, ?_⟩ <;> decide)
      (by refine ⟨?_, ?_, ?_, ?_, ?_, ?_⟩ <;> decide)
      (by refine ⟨?_, ?_, ?_, ?_, ?_, ?_⟩ <;> decide)).2.2 0 (by decide)⟩

/-! ## Claim C5: the accumulator is fully cleared between rows. -/

/-- C5.  In csrmucsr and csr_binop_csr, at the start of every outer row
iteration (equivalently, after every completed row k) the accumulator state is
exactly the initial empty state: every entry of next equals the unvisited
sentinel -1 and every entry of the value array(s) equals 0. -/
theorem claim_C5_accumulator_restored
    (n_row n_colA n_col n_row2 n_col2 : Nat)
    (Ap Aj : List Nat) (Ax : List Int) (Bp Bj : List Nat) (Bx : List Int)
    (Cp Cj : List Nat) (Cx : List Int) (Dp Dj : List Nat) (Dx : List Int)
    (op : Int → Int → Int)
    (hA : CsrValid n_row n_colA Ap Aj Ax) (hB : CsrValid n_colA n_col Bp Bj Bx)
    (hC : CsrValid n_row2 n_col2 Cp Cj Cx) (hD : CsrValid n_row2 n_col2 Dp Dj Dx) :
    (∀ k, k ≤ n_row →
      (mucsrIter n_col Ap Aj Ax Bp Bj Bx k).next = List.replicate n_col (-1) ∧
      (mucsrIter n_col Ap Aj Ax Bp Bj Bx k).sums = List.replicate n_col 0) ∧
    (∀ k, k ≤ n_row2 →
      (binopIter op n_col2 Cp Cj Cx Dp Dj Dx k).next = List.replicate n_col2 (-1) ∧
      (binopIter op n_col2 Cp Cj Cx Dp Dj Dx k).arow = List.replicate n_col2 0 ∧
      (binopIter op n_col2 Cp Cj Cx Dp Dj Dx k).brow = List.replicate n_col2 0) := by
  constructor
  · intro k hk
    rw [mucsrIter_spec n_row n_colA n_col Ap Aj Ax Bp Bj Bx hA hB k hk]
    exact ⟨rfl, rfl⟩
  · intro k hk
    rw [binopIter_spec op n_row2 n_col2 Cp Cj Cx Dp Dj Dx hC hD k hk]
    exact ⟨rfl, rfl, rfl⟩

/-- C5 witness: the cleared accumulator state after one full row at a concrete
input. -/
theorem claim_C5_accumulator_restored_witness :
    (mucsrIter 1 [0, 1] [0] [2] [0, 1] [0] [3] 1).next = List.replicate 1 (-1) ∧
    (mucsrIter 1 [0, 1] [0] [2] [0, 1] [0] [3] 1).sums = List.replicate 1 0 :=
  (claim_C5_accumulator_restored 1 1 1 1 1 [0, 1] [0] [2] [0, 1] [0] [3]
    [0, 1] [0] [2] [0, 1] [0] [3] (fun a b => a + b)
    (by refine ⟨?_, ?_, ?_, ?_, ?_, ?_⟩ <;> decide)
    (by refine ⟨?_, ?_, ?_, ?_, ?_, ?_⟩ <;> decide)
    (by refine ⟨?_, ?_, ?_, ?_, ?_, ?_⟩ <;> decide)
    (by refine ⟨?_, ?_, ?_, ?_, ?_, ?_⟩ <;> decide)).1 1 (by decide)

/-! ## Claim C7: commutativity of csr_plus_csr up to storage order. -/

theorem flatMap_perm_congr {α β : Type} (l : List α) (f g : α → List β)
    (h : ∀ a ∈ l, List.Perm (f a) (g a)) : List.Perm (l.flatMap f) (l.flatMap g) := by
  induction l with
  | nil => exact List.Perm.refl _
  | cons a l ih =>
    rw [List.flatMap_cons, List.flatMap_cons]
    exact (h a (List.mem_cons_self a l)).append
      (ih (fun a2 ha2 => h a2 (List.mem_cons_of_mem _ ha2)))

/-- C7.  csr_plus_csr(A, B) and csr_plus_csr(B, A) produce the same multiset
(hence the same set) of (row, column, value) triples, though the storage order
within rows differs. -/
theorem claim_C7_plus_content_commutes (n_row n_col : Nat) (Ap Aj : List Nat) (Ax : List Int)
    (Bp Bj : List Nat) (Bx : List Int) (hA : CsrValid n_row n_col Ap Aj Ax)
    (hB : CsrValid n_row n_col Bp Bj Bx) :
    List.Perm
      (csrEntriesWithRow n_row (csr_plus_csr n_row n_col Ap Aj Ax Bp Bj Bx).1
        (csr_plus_csr n_row n_col Ap Aj Ax Bp Bj Bx).2.1
        (csr_plus_csr n_row n_col Ap Aj Ax Bp Bj Bx).2.2)
      (csrEntriesWithRow n_row (csr_plus_csr n_row n_col Bp Bj Bx Ap Aj Ax).1
        (csr_plus_csr n_row n_col Bp Bj Bx Ap Aj Ax).2.1
        (csr_plus_csr n_row n_col Bp Bj Bx Ap Aj Ax).2.2) := by
  rw [csrEntriesWithRow, csrEntriesWithRow]
  apply flatMap_perm_congr
  intro i hi
  rw [List.mem_range] at hi
  rw [csr_plus_csr, csr_plus_csr]
  rw [csr_binop_csr_rowEntries (fun a b => a + b) n_row n_col Ap Aj Ax Bp Bj Bx hA hB i hi]
  rw [csr_binop_csr_rowEntries (fun a b => a + b) n_row n_col Bp Bj Bx Ap Aj Ax hB hA i hi]
  apply List.Perm.map
  have hperm : List.Perm
      (touchedFold (touchedFold [] ((rowEntries Ap Aj Ax i).map fun e => e.1))
        ((rowEntries Bp Bj Bx i).map fun e => e.1))
      (touchedFold (touchedFold [] ((rowEntries Bp Bj Bx i).map fun e => e.1))
        ((rowEntries Ap Aj Ax i).map fun e => e.1)) := by
    rw [List.perm_ext_iff_of_nodup (nodup_touchedFold _ _ (nodup_touchedFold _ _ (by simp)))
      (nodup_touchedFold _ _ (nodup_touchedFold _ _ (by simp)))]
    intro a
    rw [mem_touchedAB, mem_touchedAB]
    tauto
  have hfun : (fun c => if (fun a b => a + b) (sumAt (rowEntries Ap Aj Ax i) c)
        (sumAt (rowEntries Bp Bj Bx i) c) = 0 then none
      else some (c, (fun a b => a + b) (sumAt (rowEntries Ap Aj Ax i) c)
        (sumAt (rowEntries Bp Bj Bx i) c))) =
      (fun c => if (fun a b => a + b) (sumAt (rowEntries Bp Bj Bx i) c)
        (sumAt (rowEntries Ap Aj Ax i) c) = 0 then none
      else some (c, (fun a b => a + b) (sumAt (rowEntries Bp Bj Bx i) c)
        (sumAt (rowEntries Ap Aj Ax i) c))) := by
    funext c
    show (if sumAt (rowEntries Ap Aj Ax i) c + sumAt (rowEntries Bp Bj Bx i) c = 0 then none
      else some (c, sumAt (rowEntries Ap Aj Ax i) c + sumAt (rowEntries Bp Bj Bx i) c)) = _
    rw [Int.add_comm (sumAt (rowEntries Ap Aj Ax i) c) (sumAt (rowEntries Bp Bj Bx i) c)]
  rw [binEmitRow, binEmitRow, hfun]
  exact hperm.filterMap _

/-- C7 witness at a concrete pair of same-shape inputs with different column
patterns. -/
theorem claim_C7_plus_content_commutes_witness :
    List.Perm
      (csrEntriesWithRow 1 (csr_plus_csr 1 2 [0, 1] [0] [2] [0, 1] [1] [3]).1
        (csr_plus_csr 1 2 [0, 1] [0] [2] [0, 1] [1] [3]).2.1
        (csr_plus_csr 1 2 [0, 1] [0] [2] [0, 1] [1] [3]).2.2)
      (csrEntriesWithRow 1 (csr_plus_csr 1 2 [0, 1] [1] [3] [0, 1] [0] [2]).1
        (csr_plus_csr 1 2 [0, 1] [1] [3] [0, 1] [0] [2]).2.1
        (csr_plus_csr 1 2 [0, 1] [1] [3] [0, 1] [0] [2]).2.2) :=
  claim_C7_plus_content_commutes 1 2 [0, 1] [0] [2] [0, 1] [1] [3]
    (by refine ⟨?_, ?_, ?_, ?_, ?_, ?_⟩ <;> decide)
    (by refine ⟨?_, ?_, ?_, ?_, ?_, ?_⟩ <;> decide)

/-! ## Claim C8: a column missing from one operand contributes literal 0. -/

/-- C8.  In csr_binop_csr, for a row i and a column c present in exactly one
operand's row (duplicates first summed), the stored triple for (i, c) exists
iff the candidate value op(a, 0) (c only in A, accumulated value a) resp.
op(0, b) (c only in B) is nonzero, and then carries exactly that value: the
literal 0 is substituted for the missing operand before applying op. -/
theorem claim_C8_missing_operand_is_zero (op : Int → Int → Int) (n_row n_col : Nat)
    (Ap Aj : List Nat) (Ax : List Int) (Bp Bj : List Nat) (Bx : List Int)
    (hA : CsrValid n_row n_col Ap Aj Ax) (hB : CsrValid n_row n_col Bp Bj Bx) :
    (∀ i, i < n_row → ∀ c, c ∈ (rowEntries Ap Aj Ax i).map (fun e => e.1) →
      c ∉ (rowEntries Bp Bj Bx i).map (fun e => e.1) → ∀ v : Int,
      ((i, c, v) ∈ csrEntriesWithRow n_row
          (csr_binop_csr n_row n_col Ap Aj Ax Bp Bj Bx op).1
          (csr_binop_csr n_row n_col Ap Aj Ax Bp Bj Bx op).2.1
          (csr_binop_csr n_row n_col Ap Aj Ax Bp Bj Bx op).2.2 ↔
        (op (sumAt (rowEntries Ap Aj Ax i) c) 0 ≠ 0 ∧
          v = op (sumAt (rowEntries Ap Aj Ax i) c) 0))) ∧
    (∀ i, i < n_row → ∀ c, c ∈ (rowEntries Bp Bj Bx i).map (fun e => e.1) →
      c ∉ (rowEntries Ap Aj Ax i).map (fun e => e.1) → ∀ v : Int,
      ((i, c, v) ∈ csrEntriesWithRow n_row
          (csr_binop_csr n_row n_col Ap Aj Ax Bp Bj Bx op).1
          (csr_binop_csr n_row n_col Ap Aj Ax Bp Bj Bx op).2.1
          (csr_binop_csr n_row n_col Ap Aj Ax Bp Bj Bx op).2.2 ↔
        (op 0 (sumAt (rowEntries Bp Bj Bx i) c) ≠ 0 ∧
          v = op 0 (sumAt (rowEntries Bp Bj Bx i) c)))) := by
  constructor
  · intro i hi c hcA hcB v
    rw [mem_csrEntriesWithRow_iff n_row _ _ _ i c v hi]
    rw [csr_binop_csr_rowEntries op n_row n_col Ap Aj Ax Bp Bj Bx hA hB i hi]
    rw [mem_binEmitRow]
    rw [sumAt_eq_zero_of_not_mem _ c hcB]
    constructor
    · rintro ⟨_, h1, h2⟩
      exact ⟨h1, h2⟩
    · rintro ⟨h1, h2⟩
      exact ⟨(mem_touchedAB _ _ _).2 (Or.inl hcA), h1, h2⟩
  · intro i hi c hcB hcA v
    rw [mem_csrEntriesWithRow_iff n_row _ _ _ i c v hi]
    rw [csr_binop_csr_rowEntries op n_row n_col Ap Aj Ax Bp Bj Bx hA hB i hi]
    rw [mem_binEmitRow]
    rw [sumAt_eq_zero_of_not_mem _ c hcA]
    constructor
    · rintro ⟨_, h1, h2⟩
      exact ⟨h1, h2⟩
    · rintro ⟨h1, h2⟩
      exact ⟨(mem_touchedAB _ _ _).2 (Or.inr hcB), h1, h2⟩

/-- C8 witness: with subtraction, a column present only in A (accumulated
value 2) yields the stored triple (0, 0, op(2, 0)) = (0, 0, 2). -/
theorem claim_C8_missing_operand_is_zero_witness :
    ((0 : Nat), (0 : Nat), (2 : Int)) ∈ csrEntriesWithRow 1
      (csr_binop_csr 1 2 [0, 1] [0] [2] [0, 0] [] [] (fun a b => a - b)).1
      (csr_binop_csr 1 2 [0, 1] [0] [2] [0, 0] [] [] (fun a b => a - b)).2.1
      (csr_binop_csr 1 2 [0, 1] [0] [2] [0, 0] [] [] (fun a b => a - b)).2.2 :=
  ((claim_C8_missing_operand_is_zero (fun a b => a - b) 1 2 [0, 1] [0] [2] [0, 0] [] []
      (by refine ⟨?_, ?_, ?_, ?_, ?_, ?_⟩ <;> decide)
      (by refine ⟨?_, ?_, ?_, ?_, ?_, ?_⟩ <;> decide)).1 0 (by decide) 0 (by decide)
    (by decide) 2).2 (by decide)

/-! ## csr_matmat_pass1 / csr_matmat_pass2 characterization (claim C3). -/

theorem rowCols_lt (n_row n_col : Nat) (p jl : List Nat) (xl : List Int)
    (h : CsrValid n_row n_col p jl xl) (i : Nat) (hi : i < n_row) :
    ∀ c ∈ rowCols p jl i, c < n_col := by
  intro c hc
  rw [← rowEntries_map_fst p jl xl i, List.mem_map] at hc
  obtain ⟨e, he, rfl⟩ := hc
  exact rowEntries_col_lt n_row n_col p jl xl h i hi e he

theorem pass1Cols_lt (n_row n_colA n_col : Nat) (Ap Aj : List Nat) (Ax : List Int)
    (Bp Bj : List Nat) (Bx : List Int) (hA : CsrValid n_row n_colA Ap Aj Ax)
    (hB : CsrValid n_colA n_col Bp Bj Bx) (i : Nat) (hi : i < n_row) :
    ∀ c ∈ pass1Cols Ap Aj Bp Bj i, c < n_col := by
  intro c hc
  rw [pass1Cols, List.mem_flatMap] at hc
  obtain ⟨j, hj, hc⟩ := hc
  exact rowCols_lt n_colA n_col Bp Bj Bx hB j
    (rowCols_lt n_row n_colA Ap Aj Ax hA i hi j hj) c hc

theorem cumFrom_range_map_getD_last (f : Nat → Nat) (k : Nat) :
    (cumFrom 0 ((List.range k).map f)).getD k 0 = ((List.range k).map f).sum := by
  rw [cumFrom_getD _ _ _ (by simp)]
  rw [List.take_of_length_le (by simp)]
  omega

theorem pass1_foldl_spec (n_row n_colA n_col : Nat) (Ap Aj : List Nat) (Ax : List Int)
    (Bp Bj : List Nat) (Bx : List Int) (hA : CsrValid n_row n_colA Ap Aj Ax)
    (hB : CsrValid n_colA n_col Bp Bj Bx) (k : Nat) (hk : k ≤ n_row) :
    (List.range k).foldl (pass1Step Ap Aj Bp Bj) (List.replicate n_col (-1), [0]) =
      (List.replicate n_col (-1),
        cumFrom 0 ((List.range k).map fun i =>
          (touchedFold [] (pass1Cols Ap Aj Bp Bj i)).length)) := by
  induction k with
  | zero => rfl
  | succ k ih =>
    rw [List.range_succ, List.foldl_append, ih (by omega), List.foldl_cons, List.foldl_nil]
    obtain ⟨s1, s2⟩ := pscatter_spec (pass1Cols Ap Aj Bp Bj k) n_col
      ⟨List.replicate n_col (-1), -2, 0⟩ [] (chainInv_init n_col)
      (pass1Cols_lt n_row n_colA n_col Ap Aj Ax Bp Bj Bx hA hB k (by omega)) rfl
    have hdr := p1Drain_spec (touchedFold [] (pass1Cols Ap Aj Bp Bj k)) n_col _ _ s1
    show pass1Step Ap Aj Bp Bj _ k = _
    simp only [pass1Step, s2, hdr]
    congr 1
    rw [List.map_append]
    simp only [List.map_cons, List.map_nil]
    rw [cumFrom_concat]
    congr 1
    rw [cumFrom_range_map_getD_last]
    omega

theorem csr_matmat_pass1_spec (n_row n_colA n_col : Nat) (Ap Aj : List Nat) (Ax : List Int)
    (Bp Bj : List Nat) (Bx : List Int) (hA : CsrValid n_row n_colA Ap Aj Ax)
    (hB : CsrValid n_colA n_col Bp Bj Bx) :
    csr_matmat_pass1 n_row n_col Ap Aj Bp Bj =
      cumFrom 0 ((List.range n_row).map fun i =>
        (touchedFold [] (pass1Cols Ap Aj Bp Bj i)).length) := by
  rw [csr_matmat_pass1,
    pass1_foldl_spec n_row n_colA n_col Ap Aj Ax Bp Bj Bx hA hB n_row (Nat.le_refl _)]

/-- The flattened rows of the numeric pass (and of csrmucsr). -/
def mulFlat (Ap Aj : List Nat) (Ax : List Int) (Bp Bj : List Nat) (Bx : List Int)
    (k : Nat) : List (Nat × Int) :=
  (List.range k).flatMap fun i => emitRow (mulRowEntries Ap Aj Ax Bp Bj Bx i)

theorem mulFlat_length (Ap Aj : List Nat) (Ax : List Int) (Bp Bj : List Nat) (Bx : List Int)
    (k : Nat) :
    (mulFlat Ap Aj Ax Bp Bj Bx k).length =
      ((List.range k).map fun i =>
        (emitRow (mulRowEntries Ap Aj Ax Bp Bj Bx i)).length).sum := by
  rw [mulFlat, List.length_flatMap]
  have hc : ((List.range k).map (List.length ∘ fun i =>
      emitRow (mulRowEntries Ap Aj Ax Bp Bj Bx i))) =
      (List.range k).map fun i => (emitRow (mulRowEntries Ap Aj Ax Bp Bj Bx i)).length := by
    apply List.map_congr_left
    intro i _
    simp
  rw [hc]

theorem pass2_foldl_spec (n_row n_colA n_col : Nat) (Ap Aj : List Nat) (Ax : List Int)
    (Bp Bj : List Nat) (Bx : List Int) (Cj0 : List Nat) (Cx0 : List Int)
    (hA : CsrValid n_row n_colA Ap Aj Ax) (hB : CsrValid n_colA n_col Bp Bj Bx)
    (k : Nat) (hk : k ≤ n_row) :
    (List.range k).foldl (pass2Step Ap Aj Ax Bp Bj Bx)
      ⟨List.replicate n_col (-1), List.replicate n_col 0, 0, [0], Cj0, Cx0⟩ =
      ⟨List.replicate n_col (-1), List.replicate n_col 0,
        (mulFlat Ap Aj Ax Bp Bj Bx k).length,
        cumFrom 0 ((List.range k).map fun i =>
          (emitRow (mulRowEntries Ap Aj Ax Bp Bj Bx i)).length),
        setSeq Cj0 0 ((mulFlat Ap Aj Ax Bp Bj Bx k).map fun e => e.1),
        setSeq Cx0 0 ((mulFlat Ap Aj Ax Bp Bj Bx k).map fun e => e.2)⟩ := by
  induction k with
  | zero =>
    show _ = P2State.mk _ _ _ _ _ _
    rw [show (mulFlat Ap Aj Ax Bp Bj Bx 0) = [] from rfl]
    rfl
  | succ k ih =>
    rw [List.range_succ, List.foldl_append, ih (by omega), List.foldl_cons, List.foldl_nil]
    obtain ⟨s1, s2, s3, s4⟩ := lscatter_cleared (mulRowEntries Ap Aj Ax Bp Bj Bx k) n_col
      (mulRowEntries_col_lt n_row n_colA n_col Ap Aj Ax Bp Bj Bx hA hB k (by omega))
    have hz : ∀ j, j < n_col → j ∉ touchedFold []
        ((mulRowEntries Ap Aj Ax Bp Bj Bx k).map fun e => e.1) →
        (lscatter ⟨List.replicate n_col (-1), List.replicate n_col 0, -2, 0⟩
          (mulRowEntries Ap Aj Ax Bp Bj Bx k)).sums.getD j 0 = 0 := by
      intro j hj hjm
      rw [s3 j hj]
      exact not_touched_sumAt _ j hjm
    have hdr := pass2Drain_spec
      (touchedFold [] ((mulRowEntries Ap Aj Ax Bp Bj Bx k).map fun e => e.1)) n_col _ _ _
      (setSeq Cj0 0 ((mulFlat Ap Aj Ax Bp Bj Bx k).map fun e => e.1))
      (setSeq Cx0 0 ((mulFlat Ap Aj Ax Bp Bj Bx k).map fun e => e.2))
      (mulFlat Ap Aj Ax Bp Bj Bx k).length s1 s2 hz
    rw [emitList_scatter_eq_emitRow _ n_col _
      (mulRowEntries_col_lt n_row n_colA n_col Ap Aj Ax Bp Bj Bx hA hB k (by omega)) s3] at hdr
    show P2State.mk _ _ _ _ _ _ = _
    simp only [pass2Step, s4, hdr]
    have hflat : mulFlat Ap Aj Ax Bp Bj Bx (k + 1) =
        mulFlat Ap Aj Ax Bp Bj Bx k ++ emitRow (mulRowEntries Ap Aj Ax Bp Bj Bx k) := by
      rw [mulFlat, List.range_succ, List.flatMap_append, mulFlat]
      simp
    congr 1
    · rw [hflat, List.length_append]
    · rw [List.map_append]
      simp only [List.map_cons, List.map_nil]
      rw [cumFrom_concat]
      congr 1
      rw [← mulFlat_length]
      omega
    · rw [hflat, List.map_append, setSeq_append]
      congr 1
      simp
    · rw [hflat, List.map_append, setSeq_append]
      congr 1
      simp

theorem csr_matmat_pass2_cp (n_row n_colA n_col : Nat) (Ap Aj : List Nat) (Ax : List Int)
    (Bp Bj : List Nat) (Bx : List Int) (Cj0 : List Nat) (Cx0 : List Int)
    (hA : CsrValid n_row n_colA Ap Aj Ax) (hB : CsrValid n_colA n_col Bp Bj Bx) :
    (csr_matmat_pass2 n_row n_col Ap Aj Ax Bp Bj Bx Cj0 Cx0).1 =
      cumFrom 0 ((List.range n_row).map fun i =>
        (emitRow (mulRowEntries Ap Aj Ax Bp Bj Bx i)).length) := by
  rw [csr_matmat_pass2,
    pass2_foldl_spec n_row n_colA n_col Ap Aj Ax Bp Bj Bx Cj0 Cx0 hA hB n_row (Nat.le_refl _)]

theorem mulRowEntries_map_fst (Ap Aj : List Nat) (Ax : List Int) (Bp Bj : List Nat)
    (Bx : List Int) (i : Nat) :
    (mulRowEntries Ap Aj Ax Bp Bj Bx i).map (fun e => e.1) = pass1Cols Ap Aj Bp Bj i := by
  rw [mulRowEntries, pass1Cols, List.map_flatMap, ← rowEntries_map_fst Ap Aj Ax i]
  rw [List.flatMap_map]
  congr 1
  funext jv
  rw [List.map_map, ← rowEntries_map_fst Bp Bj Bx jv.1]
  congr 1

theorem cumFrom_range_map_diff (f : Nat → Nat) (n i : Nat) (hi : i < n) :
    (cumFrom 0 ((List.range n).map f)).getD (i + 1) 0 =
      (cumFrom 0 ((List.range n).map f)).getD i 0 + f i := by
  rw [cumFrom_getD _ _ _ (by simp; omega), cumFrom_getD _ _ _ (by simp; omega)]
  rw [← List.map_take, ← List.map_take, List.take_range, List.take_range,
    Nat.min_eq_left (by omega : i + 1 ≤ n), Nat.min_eq_left (by omega : i ≤ n),
    List.range_succ, List.map_append, List.sum_append]
  simp

/-! ## Claim C3: the symbolic pass versus the numeric pass. -/

/-- C3 counterexample.  With A = [[1, -1]] and B = [[1], [1]] the product row
cancels to zero: csr_matmat_pass1 predicts 1 entry for row 0, but
csr_matmat_pass2 suppresses the zero sum and writes 0 entries, so the
per-row counts are not equal. -/
theorem claim_C3_counterexample :
    ¬ ((csr_matmat_pass2 1 1 [0, 2] [0, 1] [1, -1] [0, 1, 2] [0, 0] [1, 1] [0] [0]).1.getD 1 0 -
        (csr_matmat_pass2 1 1 [0, 2] [0, 1] [1, -1] [0, 1, 2] [0, 0] [1, 1] [0] [0]).1.getD 0 0 =
      (csr_matmat_pass1 1 1 [0, 2] [0, 1] [0, 1, 2] [0, 0]).getD 1 0 -
        (csr_matmat_pass1 1 1 [0, 2] [0, 1] [0, 1, 2] [0, 0]).getD 0 0) := by
  decide

/-- C3 amended.  For every pair of valid CSR operands, the per-row count
computed by the symbolic pass csr_matmat_pass1 is an upper bound on (not
always equal to) the number of entries the numeric pass csr_matmat_pass2
actually writes for that row: pass2 additionally suppresses sums that cancel
to exactly zero. -/
theorem claim_C3_amended_pass1_bounds_pass2 (n_row n_colA n_col : Nat) (Ap Aj : List Nat)
    (Ax : List Int) (Bp Bj : List Nat) (Bx : List Int) (Cj0 : List Nat) (Cx0 : List Int)
    (hA : CsrValid n_row n_colA Ap Aj Ax) (hB : CsrValid n_colA n_col Bp Bj Bx) :
    ∀ i, i < n_row →
      (csr_matmat_pass2 n_row n_col Ap Aj Ax Bp Bj Bx Cj0 Cx0).1.getD (i + 1) 0 -
        (csr_matmat_pass2 n_row n_col Ap Aj Ax Bp Bj Bx Cj0 Cx0).1.getD i 0 ≤
      (csr_matmat_pass1 n_row n_col Ap Aj Bp Bj).getD (i + 1) 0 -
        (csr_matmat_pass1 n_row n_col Ap Aj Bp Bj).getD i 0 := by
  intro i hi
  rw [csr_matmat_pass2_cp n_row n_colA n_col Ap Aj Ax Bp Bj Bx Cj0 Cx0 hA hB,
    csr_matmat_pass1_spec n_row n_colA n_col Ap Aj Ax Bp Bj Bx hA hB]
  rw [cumFrom_range_map_diff _ n_row i hi, cumFrom_range_map_diff _ n_row i hi]
  have hle : (emitRow (mulRowEntries Ap Aj Ax Bp Bj Bx i)).length ≤
      (touchedFold [] (pass1Cols Ap Aj Bp Bj i)).length := by
    rw [← mulRowEntries_map_fst Ap Aj Ax Bp Bj Bx i]
    exact List.length_filterMap_le _ _
  omega

/-- C3 witness: the bound at the cancelling concrete input (0 written ≤ 1
predicted). -/
theorem claim_C3_amended_pass1_bounds_pass2_witness :
    (csr_matmat_pass2 1 1 [0, 2] [0, 1] [1, -1] [0, 1, 2] [0, 0] [1, 1] [0] [0]).1.getD 1 0 -
      (csr_matmat_pass2 1 1 [0, 2] [0, 1] [1, -1] [0, 1, 2] [0, 0] [1, 1] [0] [0]).1.getD 0 0 ≤
    (csr_matmat_pass1 1 1 [0, 2] [0, 1] [0, 1, 2] [0, 0]).getD 1 0 -
      (csr_matmat_pass1 1 1 [0, 2] [0, 1] [0, 1, 2] [0, 0]).getD 0 0 :=
  claim_C3_amended_pass1_bounds_pass2 1 2 1 [0, 2] [0, 1] [1, -1] [0, 1, 2] [0, 0] [1, 1]
    [0] [0] (by refine ⟨?_, ?_, ?_, ?_, ?_, ?_⟩ <;> decide)
    (by refine ⟨?_, ?_, ?_, ?_, ?_, ?_⟩ <;> decide) 0 (by decide)

/-! ## The counting-sort transpose csr_tocsc: specification-side quantities. -/

/-- Number of entries of the triple list with inner index c. -/
def cnt (L : List (Nat × Nat × Int)) (c : Nat) : Nat :=
  (L.filter fun e => decide (e.2.1 = c)).length

/-- Start of output segment c: total count of inner indices below c. -/
def segStart (L : List (Nat × Nat × Int)) (c : Nat) : Nat :=
  ((List.range c).map fun c2 => cnt L c2).sum

theorem segStart_succ (L : List (Nat × Nat × Int)) (c : Nat) :
    segStart L (c + 1) = segStart L c + cnt L c := by
  rw [segStart, List.range_succ, List.map_append, List.sum_append, segStart]
  simp

theorem segStart_mono (L : List (Nat × Nat × Int)) (c c2 : Nat) (h : c ≤ c2) :
    segStart L c ≤ segStart L c2 := by
  induction c2 with
  | zero =>
    have : c = 0 := by omega
    subst this
    exact Nat.le_refl _
  | succ c2 ih =>
    rcases Nat.lt_or_ge c (c2 + 1) with h1 | h1
    · have := ih (by omega)
      rw [segStart_succ]
      omega
    · have : c = c2 + 1 := by omega
      subst this
      exact Nat.le_refl _

/-- The triple list is a permutation of its inner-index partition. -/
theorem partition_perm (L : List (Nat × Nat × Int)) (n : Nat)
    (hb : ∀ e ∈ L, e.2.1 < n) :
    List.Perm ((List.range n).flatMap fun c => L.filter fun e => decide (e.2.1 = c)) L := by
  induction n generalizing L with
  | zero =>
    match L with
    | [] => exact List.Perm.refl _
    | e :: L2 => exact absurd (hb e (List.mem_cons_self e L2)) (by omega)
  | succ n ih =>
    rw [List.range_succ, List.flatMap_append, List.flatMap_cons, List.flatMap_nil,
      List.append_nil]
    have hLf : ∀ c, c < n →
        (L.filter fun e => !decide (e.2.1 = n)).filter (fun e => decide (e.2.1 = c)) =
          L.filter (fun e => decide (e.2.1 = c)) := by
      intro c hc
      rw [List.filter_filter]
      apply List.filter_congr
      intro e _
      by_cases he : e.2.1 = c
      · have hne : e.2.1 ≠ n := by omega
        simp [he, hne]
        omega
      · simp [he]
    have hperm1 : List.Perm
        ((List.range n).flatMap fun c => L.filter fun e => decide (e.2.1 = c))
        (L.filter fun e => !decide (e.2.1 = n)) := by
      have hsub : ∀ e ∈ L.filter fun e => !decide (e.2.1 = n), e.2.1 < n := by
        intro e he
        rw [List.mem_filter] at he
        have h1 := hb e he.1
        have h2 := he.2
        simp at h2
        omega
      have := ih (L.filter fun e => !decide (e.2.1 = n)) hsub
      have hcongr : ((List.range n).flatMap fun c =>
          (L.filter fun e => !decide (e.2.1 = n)).filter fun e => decide (e.2.1 = c)) =
          (List.range n).flatMap fun c => L.filter fun e => decide (e.2.1 = c) := by
        apply List.flatMap_congr
        intro c hc
        rw [List.mem_range] at hc
        exact hLf c hc
      rw [hcongr] at this
      exact this
    have hperm2 : List.Perm
        ((L.filter fun e => !decide (e.2.1 = n)) ++ (L.filter fun e => decide (e.2.1 = n)))
        L := by
      have := List.filter_append_perm (fun e => !decide (e.2.1 = n)) L
      have hnn : (fun (e : Nat × Nat × Int) => !!decide (e.2.1 = n)) =
          fun e => decide (e.2.1 = n) := by
        funext e
        exact Bool.not_not _
      rw [hnn] at this
      exact this
    exact (hperm1.append (List.Perm.refl _)).trans hperm2

theorem segStart_total (L : List (Nat × Nat × Int)) (n : Nat)
    (hb : ∀ e ∈ L, e.2.1 < n) : segStart L n = L.length := by
  have hp := (partition_perm L n hb).length_eq
  rw [List.length_flatMap] at hp
  rw [segStart, ← hp]
  congr 1

theorem segStart_add_cnt_le (L : List (Nat × Nat × Int)) (n c : Nat)
    (hb : ∀ e ∈ L, e.2.1 < n) (hc : c < n) : segStart L c + cnt L c ≤ L.length := by
  rw [← segStart_succ, ← segStart_total L n hb]
  exact segStart_mono L (c + 1) n (by omega)

theorem segStart_cover (L : List (Nat × Nat × Int)) (n q : Nat) (hq : q < segStart L n) :
    ∃ c, c < n ∧ segStart L c ≤ q ∧ q < segStart L (c + 1) := by
  induction n with
  | zero => exact absurd hq (by simp [segStart])
  | succ n ih =>
    rcases Nat.lt_or_ge q (segStart L n) with h1 | h1
    · obtain ⟨c, hc1, hc2, hc3⟩ := ih h1
      exact ⟨c, by omega, hc2, hc3⟩
    · exact ⟨n, by omega, h1, hq⟩

/-! ## The counting passes of csr_tocsc. -/

/-- The count accumulation loop, over the stream of inner indices. -/
def countFold (t : List Nat) (ks : List Nat) : List Nat :=
  ks.foldl (fun t c => t.set c (t.getD c 0 + 1)) t

theorem countFold_length (ks t : List Nat) : (countFold t ks).length = t.length := by
  induction ks generalizing t with
  | nil => rfl
  | cons k ks ih =>
    rw [show countFold t (k :: ks) = countFold (t.set k (t.getD k 0 + 1)) ks from rfl, ih]
    simp

theorem countFold_getD (ks t : List Nat) (c : Nat) (hc : c < t.length)
    (hks : ∀ k ∈ ks, k < t.length) :
    (countFold t ks).getD c 0 = t.getD c 0 + (ks.filter fun k => decide (k = c)).length := by
  induction ks generalizing t with
  | nil => simp [countFold]
  | cons k ks ih =>
    rw [show countFold t (k :: ks) = countFold (t.set k (t.getD k 0 + 1)) ks from rfl]
    rw [List.filter_cons]
    have hkt : k < t.length := hks k (List.mem_cons_self k ks)
    by_cases hkc : k = c
    · subst hkc
      rw [ih (t.set k (t.getD k 0 + 1)) (by simpa using hc)
        (fun k2 hk2 => by simpa using hks k2 (List.mem_cons_of_mem _ hk2))]
      rw [getD_set_self t k _ 0 hkt]
      simp
      omega
    · rw [ih (t.set k (t.getD k 0 + 1)) (by simpa using hc)
        (fun k2 hk2 => by simpa using hks k2 (List.mem_cons_of_mem _ hk2))]
      rw [getD_set_ne t k c _ 0 hkc]
      have : (decide (k = c)) = false := by simp [hkc]
      rw [this]
      simp

/-- The inner-index stream read by the count loop equals the inner indices of
the row-major triple list. -/
theorem range_ptr_flatten {α : Type} (p : List Nat) (g : Nat → α) (k : Nat)
    (h0 : p.getD 0 0 = 0) (hmono : ∀ i, i < k → p.getD i 0 ≤ p.getD (i + 1) 0) :
    (List.range (p.getD k 0)).map g =
      (List.range k).flatMap fun i =>
        (List.range (p.getD (i + 1) 0 - p.getD i 0)).map fun t => g (p.getD i 0 + t) := by
  induction k with
  | zero => rw [h0]; rfl
  | succ k ih =>
    rw [List.range_succ, List.flatMap_append, List.flatMap_cons, List.flatMap_nil,
      List.append_nil]
    rw [← ih (fun i hi => hmono i (by omega))]
    have hle : p.getD k 0 ≤ p.getD (k + 1) 0 := hmono k (by omega)
    rw [show p.getD (k + 1) 0 = p.getD k 0 + (p.getD (k + 1) 0 - p.getD k 0) from by omega]
    rw [List.range_add, List.map_append, List.map_map]
    congr 1
    have harg : p.getD k 0 + (p.getD (k + 1) 0 - p.getD k 0) - p.getD k 0
        = p.getD (k + 1) 0 - p.getD k 0 := by omega
    rw [harg]
    rfl

theorem cols_stream_eq (n_row n_col : Nat) (Ap Aj : List Nat) (Ax : List Int)
    (h : CsrValid n_row n_col Ap Aj Ax) :
    (List.range (Ap.getD n_row 0)).map (fun q => Aj.getD q 0) =
      (csrEntriesWithRow n_row Ap Aj Ax).map fun e => e.2.1 := by
  rw [range_ptr_flatten Ap (fun q => Aj.getD q 0) n_row h.ap0 h.mono]
  rw [csrEntriesWithRow, List.map_flatMap]
  apply List.flatMap_congr
  intro i _
  rw [List.map_map, rowEntries]
  rw [List.map_map]
  rfl

theorem csrEntriesWithRow_length (n_row n_col : Nat) (Ap Aj : List Nat) (Ax : List Int)
    (h : CsrValid n_row n_col Ap Aj Ax) :
    (csrEntriesWithRow n_row Ap Aj Ax).length = Ap.getD n_row 0 := by
  have := congrArg List.length (cols_stream_eq n_row n_col Ap Aj Ax h)
  simpa using this.symm

theorem csrEntriesWithRow_col_lt (n_row n_col : Nat) (Ap Aj : List Nat) (Ax : List Int)
    (h : CsrValid n_row n_col Ap Aj Ax) :
    ∀ e ∈ csrEntriesWithRow n_row Ap Aj Ax, e.2.1 < n_col := by
  intro e he
  rw [csrEntriesWithRow, List.mem_flatMap] at he
  obtain ⟨i, hi, he⟩ := he
  rw [List.mem_range] at hi
  rw [List.mem_map] at he
  obtain ⟨x, hx, rfl⟩ := he
  exact rowEntries_col_lt n_row n_col Ap Aj Ax h i hi x hx

theorem csrEntriesWithRow_fst_lt (n_row : Nat) (p jl : List Nat) (xl : List Int) :
    ∀ e ∈ csrEntriesWithRow n_row p jl xl, e.1 < n_row := by
  intro e he
  rw [csrEntriesWithRow, List.mem_flatMap] at he
  obtain ⟨i, hi, he⟩ := he
  rw [List.mem_range] at hi
  rw [List.mem_map] at he
  obtain ⟨x, _, rfl⟩ := he
  exact hi

theorem cumFrom_eq_dropLast_concat (ss : List Nat) (a : Nat) :
    cumFrom a ss = (cumFrom a ss).dropLast.concat (a + ss.sum) := by
  induction ss generalizing a with
  | nil => simp [cumFrom]
  | cons s ss ih =>
    rw [cumFrom, List.sum_cons]
    have hne : cumFrom (a + s) ss ≠ [] := by
      match hss : cumFrom (a + s) ss with
      | [] =>
        have := cumFrom_length ss (a + s)
        rw [hss] at this
        simp at this
      | x :: xs => simp
    rw [show (a :: cumFrom (a + s) ss).dropLast = a :: (cumFrom (a + s) ss).dropLast from by
      rw [List.dropLast_cons_of_ne_nil hne]]
    rw [List.concat_eq_append, List.cons_append, ← List.concat_eq_append]
    rw [show a + (s + ss.sum) = a + s + ss.sum from by omega, ← ih (a + s)]

theorem cumFrom_range_map_getD (f : Nat → Nat) (n c : Nat) (hc : c ≤ n) :
    (cumFrom 0 ((List.range n).map f)).getD c 0 = ((List.range c).map f).sum := by
  rw [cumFrom_getD _ _ _ (by simp [hc])]
  rw [← List.map_take, List.take_range, Nat.min_eq_left hc]
  omega

theorem cnt_append (P R : List (Nat × Nat × Int)) (c : Nat) :
    cnt (P ++ R) c = cnt P c + cnt R c := by
  simp [cnt, List.filter_append]

theorem cnt_singleton (e : Nat × Nat × Int) (c : Nat) :
    cnt [e] c = if e.2.1 = c then 1 else 0 := by
  by_cases h : e.2.1 = c <;> simp [cnt, h]

theorem cumFrom_ne_nil (ss : List Nat) (a : Nat) : cumFrom a ss ≠ [] := by
  match hss : cumFrom a ss with
  | [] =>
    have := cumFrom_length ss a
    rw [hss] at this
    simp at this
  | x :: xs => simp

/-- The exclusive-prefix-sum loop of csr_tocsc as a cumulative-sum list. -/
theorem cumFoldl (t : List Nat) (ks : List Nat) (acc : List Nat) (a : Nat) :
    ks.foldl (fun p i => (p.1.concat p.2, p.2 + t.getD i 0)) (acc, a) =
      (acc ++ (cumFrom a (ks.map fun i => t.getD i 0)).dropLast,
       a + (ks.map fun i => t.getD i 0).sum) := by
  induction ks generalizing acc a with
  | nil => simp [cumFrom]
  | cons k ks ih =>
    rw [List.foldl_cons, ih]
    rw [List.map_cons, List.sum_cons, cumFrom]
    rw [List.dropLast_cons_of_ne_nil (cumFrom_ne_nil _ _)]
    rw [show acc ++ a :: (cumFrom (a + t.getD k 0) (List.map (fun i => t.getD i 0) ks)).dropLast
      = acc.concat a ++ (cumFrom (a + t.getD k 0)
        (List.map (fun i => t.getD i 0) ks)).dropLast from by simp]
    rw [show a + (t.getD k 0 + (List.map (fun i => t.getD i 0) ks).sum)
      = a + t.getD k 0 + (List.map (fun i => t.getD i 0) ks).sum from by omega]

/-- The output pointer array of csr_tocsc is the cumulative sum of the
per-inner-index counts of the triple list. -/
theorem csr_tocsc_bp (n_row n_col : Nat) (Ap Aj : List Nat) (Ax : List Int)
    (h : CsrValid n_row n_col Ap Aj Ax) :
    (csr_tocsc n_row n_col Ap Aj Ax).1 =
      cumFrom 0 ((List.range n_col).map fun c =>
        cnt (csrEntriesWithRow n_row Ap Aj Ax) c) := by
  have hLlen := csrEntriesWithRow_length n_row n_col Ap Aj Ax h
  have hcols := cols_stream_eq n_row n_col Ap Aj Ax h
  have hcolslt := csrEntriesWithRow_col_lt n_row n_col Ap Aj Ax h
  have htemp : ∀ c, c < n_col →
      ((List.range (Ap.getD n_row 0)).foldl
        (fun t i => t.set (Aj.getD i 0) (t.getD (Aj.getD i 0) 0 + 1))
        (List.replicate n_col 0)).getD c 0 =
      cnt (csrEntriesWithRow n_row Ap Aj Ax) c := by
    intro c hc
    have hcf : (List.range (Ap.getD n_row 0)).foldl
        (fun t i => t.set (Aj.getD i 0) (t.getD (Aj.getD i 0) 0 + 1))
        (List.replicate n_col 0) =
        countFold (List.replicate n_col 0)
          ((List.range (Ap.getD n_row 0)).map fun q => Aj.getD q 0) := by
      rw [countFold, List.foldl_map]
    rw [hcf, hcols]
    rw [countFold_getD _ _ c (by simpa using hc) ?hb]
    case hb =>
      intro k hk
      rw [List.mem_map] at hk
      obtain ⟨e, he, rfl⟩ := hk
      simpa using hcolslt e he
    rw [getD_replicate n_col c 0 0 hc]
    rw [List.filter_map, List.length_map]
    simp only [cnt, Nat.zero_add]
    rfl
  have hM : (List.range n_col).map
      (fun i => ((List.range (Ap.getD n_row 0)).foldl
        (fun t i => t.set (Aj.getD i 0) (t.getD (Aj.getD i 0) 0 + 1))
        (List.replicate n_col 0)).getD i 0) =
      (List.range n_col).map fun c => cnt (csrEntriesWithRow n_row Ap Aj Ax) c :=
    List.map_congr_left fun c hc => htemp c (List.mem_range.1 hc)
  have hsum := segStart_total (csrEntriesWithRow n_row Ap Aj Ax) n_col hcolslt
  simp only [segStart] at hsum
  simp only [csr_tocsc]
  rw [cumFoldl]
  dsimp only
  rw [List.nil_append, hM]
  conv_rhs => rw [cumFrom_eq_dropLast_concat]
  congr 1
  rw [Nat.zero_add, hsum, hLlen]

/-- Positions inside distinct inner-index segments never coincide. -/
theorem seg_pos_ne (L : List (Nat × Nat × Int)) (c c2 q q2 : Nat)
    (hq : q < cnt L c) (hq2 : q2 < cnt L c2) (hne : c ≠ c2) :
    segStart L c + q ≠ segStart L c2 + q2 := by
  rcases Nat.lt_or_ge c c2 with h1 | h1
  · have ha : segStart L c + q < segStart L (c + 1) := by
      rw [segStart_succ]
      omega
    have hb2 : segStart L (c + 1) ≤ segStart L c2 := segStart_mono L (c + 1) c2 (by omega)
    omega
  · have hcc : c2 < c := by omega
    have ha : segStart L c2 + q2 < segStart L (c2 + 1) := by
      rw [segStart_succ]
      omega
    have hb2 : segStart L (c2 + 1) ≤ segStart L c := segStart_mono L (c2 + 1) c (by omega)
    omega

/-- Invariant of the scatter loop of csr_tocsc: having processed the prefix P
of the triple list, each inner-index segment of the outputs holds the
already-seen entries with that inner index, in order, and each write cursor
points just past them. -/
theorem scatterFold_spec (n_col : Nat) (L : List (Nat × Nat × Int))
    (hcols : ∀ e ∈ L, e.2.1 < n_col) (R P : List (Nat × Nat × Int))
    (hL : L = P ++ R)
    (Bi : List Nat) (Bx : List Int) (temp : List Nat)
    (hBi : Bi.length = L.length) (hBx : Bx.length = L.length)
    (htlen : temp.length = n_col)
    (htemp : ∀ c, c < n_col → temp.getD c 0 = segStart L c + cnt P c)
    (hseg : ∀ c, c < n_col →
      (List.range (cnt P c)).map
          (fun q => (Bi.getD (segStart L c + q) 0, Bx.getD (segStart L c + q) 0)) =
        (P.filter fun e => decide (e.2.1 = c)).map fun e => (e.1, e.2.2)) :
    (R.foldl (fun st e =>
        let k := st.2.2.getD e.2.1 0
        (st.1.set k e.1, st.2.1.set k e.2.2, st.2.2.set e.2.1 (k + 1)))
      (Bi, Bx, temp)).1.length = L.length ∧
    (R.foldl (fun st e =>
        let k := st.2.2.getD e.2.1 0
        (st.1.set k e.1, st.2.1.set k e.2.2, st.2.2.set e.2.1 (k + 1)))
      (Bi, Bx, temp)).2.1.length = L.length ∧
    ∀ c, c < n_col →
      (List.range (cnt L c)).map
          (fun q => ((R.foldl (fun st e =>
              let k := st.2.2.getD e.2.1 0
              (st.1.set k e.1, st.2.1.set k e.2.2, st.2.2.set e.2.1 (k + 1)))
            (Bi, Bx, temp)).1.getD (segStart L c + q) 0,
            (R.foldl (fun st e =>
              let k := st.2.2.getD e.2.1 0
              (st.1.set k e.1, st.2.1.set k e.2.2, st.2.2.set e.2.1 (k + 1)))
            (Bi, Bx, temp)).2.1.getD (segStart L c + q) 0)) =
        (L.filter fun e => decide (e.2.1 = c)).map fun e => (e.1, e.2.2) := by
  induction R generalizing P Bi Bx temp with
  | nil =>
    have hPL : P = L := by rw [hL, List.append_nil]
    subst hPL
    exact ⟨hBi, hBx, hseg⟩
  | cons e R ih =>
    have heL : e ∈ L := by
      rw [hL]
      exact List.mem_append.2 (Or.inr (List.mem_cons_self e R))
    have hc0 : e.2.1 < n_col := hcols e heL
    have hcntPe : cnt P e.2.1 < cnt L e.2.1 := by
      rw [hL, cnt_append]
      have : 0 < cnt (e :: R) e.2.1 := by
        simp only [cnt]
        rw [List.filter_cons]
        rw [if_pos (by simp)]
        simp
      omega
    have hcntle : ∀ c, cnt P c ≤ cnt L c := by
      intro c
      rw [hL, cnt_append]
      omega
    have hkL : segStart L e.2.1 + cnt P e.2.1 < L.length := by
      have h1 := segStart_add_cnt_le L n_col e.2.1 hcols hc0
      omega
    rw [List.foldl_cons]
    have hkval : temp.getD e.2.1 0 = segStart L e.2.1 + cnt P e.2.1 := htemp e.2.1 hc0
    dsimp only
    rw [hkval]
    apply ih (P ++ [e])
    · rw [hL, List.append_assoc, List.singleton_append]
    · simpa using hBi
    · simpa using hBx
    · simpa using htlen
    · intro c hc
      rw [cnt_append, cnt_singleton]
      by_cases hce : c = e.2.1
      · subst hce
        rw [getD_set_self temp e.2.1 _ 0 (by omega), if_pos rfl]
        omega
      · rw [getD_set_ne temp e.2.1 c _ 0 (fun hh => hce hh.symm), htemp c hc]
        rw [if_neg (fun hh => hce hh.symm)]
        omega
    · intro c hc
      rw [List.filter_append, List.map_append, cnt_append, cnt_singleton]
      by_cases hce : c = e.2.1
      · subst hce
        rw [if_pos rfl, List.range_succ, List.map_append]
        congr 1
        · rw [← hseg e.2.1 hc]
          apply List.map_congr_left
          intro q hq
          rw [List.mem_range] at hq
          have hne : segStart L e.2.1 + cnt P e.2.1 ≠ segStart L e.2.1 + q := by omega
          rw [getD_set_ne Bi _ _ _ 0 hne, getD_set_ne Bx _ _ _ 0 hne]
        · rw [List.filter_cons, if_pos (by simp), List.filter_nil]
          rw [List.map_cons, List.map_nil, List.map_cons, List.map_nil]
          rw [getD_set_self Bi _ _ 0 (by omega), getD_set_self Bx _ _ 0 (by omega)]
      · have hfe : (List.filter (fun e2 => decide (e2.2.1 = c)) [e]) = [] := by
          rw [List.filter_cons, if_neg (by simpa using fun hh => hce hh.symm), List.filter_nil]
        rw [hfe, List.map_nil, List.append_nil, if_neg (fun hh => hce hh.symm), Nat.add_zero]
        rw [← hseg c hc]
        apply List.map_congr_left
        intro q hq
        rw [List.mem_range] at hq
        have hne : segStart L e.2.1 + cnt P e.2.1 ≠ segStart L c + q :=
          seg_pos_ne L e.2.1 c (cnt P e.2.1) q hcntPe (by have := hcntle c; omega)
            (fun hh => hce hh.symm)
        rw [getD_set_ne Bi _ _ _ 0 hne, getD_set_ne Bx _ _ _ 0 hne]

/-- Full characterization of csr_tocsc: the pointer array is the cumulative
count, the index/value arrays have exactly nnz entries, and column c of the
output holds precisely the input entries with column index c, as (row, value)
pairs, in row-major input order. -/
theorem csr_tocsc_spec (n_row n_col : Nat) (Ap Aj : List Nat) (Ax : List Int)
    (h : CsrValid n_row n_col Ap Aj Ax) :
    (csr_tocsc n_row n_col Ap Aj Ax).1 =
      cumFrom 0 ((List.range n_col).map fun c =>
        cnt (csrEntriesWithRow n_row Ap Aj Ax) c) ∧
    (csr_tocsc n_row n_col Ap Aj Ax).2.1.length = Ap.getD n_row 0 ∧
    (csr_tocsc n_row n_col Ap Aj Ax).2.2.length = Ap.getD n_row 0 ∧
    ∀ c, c < n_col →
      rowEntries (csr_tocsc n_row n_col Ap Aj Ax).1 (csr_tocsc n_row n_col Ap Aj Ax).2.1
          (csr_tocsc n_row n_col Ap Aj Ax).2.2 c =
        ((csrEntriesWithRow n_row Ap Aj Ax).filter fun e => decide (e.2.1 = c)).map
          fun e => (e.1, e.2.2) := by
  have hBp := csr_tocsc_bp n_row n_col Ap Aj Ax h
  have hLlen := csrEntriesWithRow_length n_row n_col Ap Aj Ax h
  have hcolslt := csrEntriesWithRow_col_lt n_row n_col Ap Aj Ax h
  have hsc := scatterFold_spec n_col (csrEntriesWithRow n_row Ap Aj Ax) hcolslt
      (csrEntriesWithRow n_row Ap Aj Ax) [] rfl
      (List.replicate (Ap.getD n_row 0) 0) (List.replicate (Ap.getD n_row 0) 0)
      ((csr_tocsc n_row n_col Ap Aj Ax).1.take n_col)
      (by rw [List.length_replicate, hLlen])
      (by rw [List.length_replicate, hLlen])
      (by rw [hBp, List.length_take, cumFrom_length, List.length_map, List.length_range]; omega)
      (by
        intro c hc
        rw [hBp]
        rw [show ((cumFrom 0 ((List.range n_col).map fun c =>
            cnt (csrEntriesWithRow n_row Ap Aj Ax) c)).take n_col).getD c 0 =
            (cumFrom 0 ((List.range n_col).map fun c =>
            cnt (csrEntriesWithRow n_row Ap Aj Ax) c)).getD c 0 from by
          simp [List.getD_eq_getElem?_getD, List.getElem?_take, hc]]
        rw [cumFrom_range_map_getD _ _ c (by omega)]
        simp [cnt, segStart])
      (by
        intro c hc
        simp [cnt])
  refine ⟨hBp, ?_, ?_, ?_⟩
  · have h1 := hsc.1
    rw [hLlen] at h1
    exact h1
  · have h1 := hsc.2.1
    rw [hLlen] at h1
    exact h1
  · intro c hc
    have e1 : (csr_tocsc n_row n_col Ap Aj Ax).1.getD c 0 =
        segStart (csrEntriesWithRow n_row Ap Aj Ax) c := by
      rw [hBp, cumFrom_range_map_getD _ _ c (by omega)]
      rfl
    have e2 : (csr_tocsc n_row n_col Ap Aj Ax).1.getD (c + 1) 0 =
        segStart (csrEntriesWithRow n_row Ap Aj Ax) c +
          cnt (csrEntriesWithRow n_row Ap Aj Ax) c := by
      rw [hBp, cumFrom_range_map_getD _ _ (c + 1) (by omega)]
      rw [show ((List.range (c + 1)).map fun c2 =>
          cnt (csrEntriesWithRow n_row Ap Aj Ax) c2).sum =
          segStart (csrEntriesWithRow n_row Ap Aj Ax) (c + 1) from rfl]
      rw [segStart_succ]
    simp only [rowEntries]
    rw [e1, e2, Nat.add_sub_cancel_left]
    exact hsc.2.2 c hc

theorem getD_range_map {α : Type} (f : Nat → α) (n k : Nat) (d : α) (hk : k < n) :
    ((List.range n).map f).getD k d = f k := by
  rw [List.getD_eq_getElem _ d (by simp [hk])]
  simp

theorem getD_map {α β : Type} (l : List α) (f : α → β) (k : Nat) (d : β) (d2 : α)
    (hk : k < l.length) : (l.map f).getD k d = f (l.getD k d2) := by
  rw [List.getD_eq_getElem _ d (by simp [hk]), List.getD_eq_getElem l d2 hk, List.getElem_map]

theorem csr_tocsc_bp_getD (n_row n_col : Nat) (Ap Aj : List Nat) (Ax : List Int)
    (h : CsrValid n_row n_col Ap Aj Ax) (c : Nat) (hc : c ≤ n_col) :
    (csr_tocsc n_row n_col Ap Aj Ax).1.getD c 0 =
      segStart (csrEntriesWithRow n_row Ap Aj Ax) c := by
  rw [csr_tocsc_bp n_row n_col Ap Aj Ax h, cumFrom_range_map_getD _ _ c hc]
  rfl

/-- Segment c of the csr_tocsc output arrays holds the input entries with
inner index c as (row, value) pairs, in order. -/
theorem csr_tocsc_seg (n_row n_col : Nat) (Ap Aj : List Nat) (Ax : List Int)
    (h : CsrValid n_row n_col Ap Aj Ax) (c : Nat) (hc : c < n_col) :
    (List.range (cnt (csrEntriesWithRow n_row Ap Aj Ax) c)).map
        (fun t => ((csr_tocsc n_row n_col Ap Aj Ax).2.1.getD
            (segStart (csrEntriesWithRow n_row Ap Aj Ax) c + t) 0,
          (csr_tocsc n_row n_col Ap Aj Ax).2.2.getD
            (segStart (csrEntriesWithRow n_row Ap Aj Ax) c + t) 0)) =
      ((csrEntriesWithRow n_row Ap Aj Ax).filter fun e => decide (e.2.1 = c)).map
        fun e => (e.1, e.2.2) := by
  have hrow := (csr_tocsc_spec n_row n_col Ap Aj Ax h).2.2.2 c hc
  simp only [rowEntries] at hrow
  rw [csr_tocsc_bp_getD n_row n_col Ap Aj Ax h c (by omega),
    csr_tocsc_bp_getD n_row n_col Ap Aj Ax h (c + 1) (by omega), segStart_succ,
    Nat.add_sub_cancel_left] at hrow
  exact hrow

theorem csrEntriesWithRow_succ (k : Nat) (p jl : List Nat) (xl : List Int) :
    csrEntriesWithRow (k + 1) p jl xl =
      csrEntriesWithRow k p jl xl ++ (rowEntries p jl xl k).map fun e => (k, e.1, e.2) := by
  simp only [csrEntriesWithRow]
  rw [List.range_succ, List.flatMap_append, List.flatMap_cons, List.flatMap_nil,
    List.append_nil]

/-- The row tags of the triple list are non-decreasing (row-major order). -/
theorem csrEntriesWithRow_fst_pairwise (n_row : Nat) (p jl : List Nat) (xl : List Int) :
    List.Pairwise (fun a b => a.1 ≤ b.1) (csrEntriesWithRow n_row p jl xl) := by
  induction n_row with
  | zero => exact List.Pairwise.nil
  | succ k ih =>
    rw [csrEntriesWithRow_succ, List.pairwise_append]
    refine ⟨ih, ?_, ?_⟩
    · rw [List.pairwise_map]
      have hconst : ∀ (l : List (Nat × Int)),
          List.Pairwise (fun a b : Nat × Int => (k, a.1, a.2).1 ≤ (k, b.1, b.2).1) l := by
        intro l
        induction l with
        | nil => exact List.Pairwise.nil
        | cons x xs ih2 => exact List.Pairwise.cons (fun y hy => Nat.le_refl k) ih2
      exact hconst _
    · intro a ha b hb
      have h1 := csrEntriesWithRow_fst_lt k p jl xl a ha
      rw [List.mem_map] at hb
      obtain ⟨x, hx, rfl⟩ := hb
      exact Nat.le_of_lt h1

/-- Filtering the triple list on a row tag extracts exactly that row's block. -/
theorem csrEntriesWithRow_filter_fst (n_row : Nat) (p jl : List Nat) (xl : List Int)
    (i : Nat) (hi : i < n_row) :
    (csrEntriesWithRow n_row p jl xl).filter (fun e => decide (e.1 = i)) =
      (rowEntries p jl xl i).map fun e => (i, e.1, e.2) := by
  induction n_row with
  | zero => omega
  | succ k ih =>
    rw [csrEntriesWithRow_succ, List.filter_append]
    rcases Nat.lt_or_ge i k with h1 | h1
    · rw [ih h1]
      have hnil : ((rowEntries p jl xl k).map fun e => (k, e.1, e.2)).filter
          (fun e => decide (e.1 = i)) = [] := by
        rw [List.filter_eq_nil_iff]
        intro e he
        rw [List.mem_map] at he
        obtain ⟨x, hx, rfl⟩ := he
        simp
        omega
      rw [hnil, List.append_nil]
    · have hik : i = k := by omega
      subst hik
      have hA : (csrEntriesWithRow i p jl xl).filter (fun e => decide (e.1 = i)) = [] := by
        rw [List.filter_eq_nil_iff]
        intro e he
        have := csrEntriesWithRow_fst_lt i p jl xl e he
        simp
        omega
      have hB : ((rowEntries p jl xl i).map fun e => (i, e.1, e.2)).filter
          (fun e => decide (e.1 = i)) = (rowEntries p jl xl i).map fun e => (i, e.1, e.2) := by
        rw [List.filter_eq_self]
        intro e he
        rw [List.mem_map] at he
        obtain ⟨x, hx, rfl⟩ := he
        simp
      rw [hA, hB, List.nil_append]

/-- Reading the csr_tocsc output column-major and swapping each triple back to
(row, column, value) permutes the input triple list. -/
theorem csr_tocsc_perm (n_row n_col : Nat) (Ap Aj : List Nat) (Ax : List Int)
    (h : CsrValid n_row n_col Ap Aj Ax) :
    List.Perm
      ((csrEntriesWithRow n_col (csr_tocsc n_row n_col Ap Aj Ax).1
          (csr_tocsc n_row n_col Ap Aj Ax).2.1 (csr_tocsc n_row n_col Ap Aj Ax).2.2).map
        fun e => (e.2.1, e.1, e.2.2))
      (csrEntriesWithRow n_row Ap Aj Ax) := by
  have hrows := (csr_tocsc_spec n_row n_col Ap Aj Ax h).2.2.2
  have hcolslt := csrEntriesWithRow_col_lt n_row n_col Ap Aj Ax h
  have hout : csrEntriesWithRow n_col (csr_tocsc n_row n_col Ap Aj Ax).1
      (csr_tocsc n_row n_col Ap Aj Ax).2.1 (csr_tocsc n_row n_col Ap Aj Ax).2.2 =
      (List.range n_col).flatMap fun c =>
        ((((csrEntriesWithRow n_row Ap Aj Ax).filter fun e => decide (e.2.1 = c)).map
          fun e => (e.1, e.2.2)).map fun e2 => (c, e2.1, e2.2)) := by
    rw [show csrEntriesWithRow n_col (csr_tocsc n_row n_col Ap Aj Ax).1
        (csr_tocsc n_row n_col Ap Aj Ax).2.1 (csr_tocsc n_row n_col Ap Aj Ax).2.2 =
        (List.range n_col).flatMap fun i =>
          (rowEntries (csr_tocsc n_row n_col Ap Aj Ax).1 (csr_tocsc n_row n_col Ap Aj Ax).2.1
            (csr_tocsc n_row n_col Ap Aj Ax).2.2 i).map fun e => (i, e.1, e.2) from rfl]
    apply List.flatMap_congr
    intro c hc
    rw [hrows c (List.mem_range.1 hc)]
  rw [hout, List.map_flatMap]
  have hcongr : ((List.range n_col).flatMap fun c =>
      (((((csrEntriesWithRow n_row Ap Aj Ax).filter fun e => decide (e.2.1 = c)).map
        fun e => (e.1, e.2.2)).map fun e2 => (c, e2.1, e2.2)).map
          fun e => (e.2.1, e.1, e.2.2))) =
      (List.range n_col).flatMap fun c =>
        (csrEntriesWithRow n_row Ap Aj Ax).filter fun e => decide (e.2.1 = c) := by
    apply List.flatMap_congr
    intro c hc
    rw [List.map_map, List.map_map]
    conv_rhs => rw [← List.map_id ((csrEntriesWithRow n_row Ap Aj Ax).filter
      fun e => decide (e.2.1 = c))]
    apply List.map_congr_left
    intro e he
    have hec : e.2.1 = c := by
      have := (List.mem_filter.1 he).2
      simpa using this
    simp only [Function.comp_apply, id_eq]
    rw [← hec]
  rw [hcongr]
  exact partition_perm (csrEntriesWithRow n_row Ap Aj Ax) n_col hcolslt

/-- Within each output column of csr_tocsc the row indices are non-decreasing. -/
theorem csr_tocsc_pairwise (n_row n_col : Nat) (Ap Aj : List Nat) (Ax : List Int)
    (h : CsrValid n_row n_col Ap Aj Ax) (c : Nat) (hc : c < n_col) :
    List.Pairwise (fun r1 r2 => r1 ≤ r2)
      (rowCols (csr_tocsc n_row n_col Ap Aj Ax).1 (csr_tocsc n_row n_col Ap Aj Ax).2.1 c) := by
  have hrow := (csr_tocsc_spec n_row n_col Ap Aj Ax h).2.2.2 c hc
  rw [← rowEntries_map_fst, hrow, List.map_map, List.pairwise_map]
  exact List.Pairwise.sublist (List.filter_sublist _)
    (csrEntriesWithRow_fst_pairwise n_row Ap Aj Ax)

/-- The csr_tocsc output is itself a valid compressed structure on the
transposed shape. -/
theorem csr_tocsc_valid (n_row n_col : Nat) (Ap Aj : List Nat) (Ax : List Int)
    (h : CsrValid n_row n_col Ap Aj Ax) :
    CsrValid n_col n_row (csr_tocsc n_row n_col Ap Aj Ax).1
      (csr_tocsc n_row n_col Ap Aj Ax).2.1 (csr_tocsc n_row n_col Ap Aj Ax).2.2 := by
  obtain ⟨hbp, hlen1, hlen2, hrows⟩ := csr_tocsc_spec n_row n_col Ap Aj Ax h
  have hLlen := csrEntriesWithRow_length n_row n_col Ap Aj Ax h
  have hcolslt := csrEntriesWithRow_col_lt n_row n_col Ap Aj Ax h
  refine ⟨?_, ?_, ?_, ?_, ?_, ?_⟩
  · rw [hbp, cumFrom_length, List.length_map, List.length_range]
  · rw [csr_tocsc_bp_getD n_row n_col Ap Aj Ax h 0 (by omega)]
    rfl
  · intro c hc
    rw [csr_tocsc_bp_getD n_row n_col Ap Aj Ax h c (by omega),
      csr_tocsc_bp_getD n_row n_col Ap Aj Ax h (c + 1) (by omega)]
    exact segStart_mono _ c (c + 1) (by omega)
  · rw [csr_tocsc_bp_getD n_row n_col Ap Aj Ax h n_col (Nat.le_refl _),
      segStart_total _ n_col hcolslt, hLlen, hlen1]
  · rw [hlen2, hlen1]
  · intro q hq
    rw [csr_tocsc_bp_getD n_row n_col Ap Aj Ax h n_col (Nat.le_refl _)] at hq
    obtain ⟨c, hc, hq1, hq2⟩ :=
      segStart_cover (csrEntriesWithRow n_row Ap Aj Ax) n_col q hq
    rw [segStart_succ] at hq2
    have hk : q - segStart (csrEntriesWithRow n_row Ap Aj Ax) c <
        cnt (csrEntriesWithRow n_row Ap Aj Ax) c := by omega
    have heq := congrArg
      (fun l => l.getD (q - segStart (csrEntriesWithRow n_row Ap Aj Ax) c) (0, (0 : Int)))
      (csr_tocsc_seg n_row n_col Ap Aj Ax h c hc)
    dsimp only at heq
    rw [getD_range_map _ _ _ _ hk] at heq
    rw [show segStart (csrEntriesWithRow n_row Ap Aj Ax) c +
        (q - segStart (csrEntriesWithRow n_row Ap Aj Ax) c) = q from by omega] at heq
    have hlenf : q - segStart (csrEntriesWithRow n_row Ap Aj Ax) c <
        ((csrEntriesWithRow n_row Ap Aj Ax).filter fun e => decide (e.2.1 = c)).length := hk
    rw [getD_map _ _ _ _ (0, 0, (0 : Int)) hlenf] at heq
    have hmem : ((csrEntriesWithRow n_row Ap Aj Ax).filter
        fun e => decide (e.2.1 = c)).getD
          (q - segStart (csrEntriesWithRow n_row Ap Aj Ax) c) (0, 0, (0 : Int)) ∈
        csrEntriesWithRow n_row Ap Aj Ax := by
      have hm := getD_mem _ (q - segStart (csrEntriesWithRow n_row Ap Aj Ax) c)
        (0, 0, (0 : Int)) hlenf
      exact (List.mem_filter.1 hm).1
    have hlt := csrEntriesWithRow_fst_lt n_row Ap Aj Ax _ hmem
    have hfst := congrArg Prod.fst heq
    dsimp only at hfst
    rw [hfst]
    exact hlt

/-- C10: for every valid CSR input, csr_tocsc writes exactly nnz = Ap[n_row]
entries into its index and value arrays; the multiset of (row, column, value)
triples of the CSC output (read column-major and swapped back to row-major
orientation) equals the multiset of input triples — duplicates are not summed
and zero values are not dropped; and within each output column the row
indices appear in non-decreasing order. -/
theorem claim_C10_tocsc_counting_sort (n_row n_col : Nat) (Ap Aj : List Nat) (Ax : List Int)
    (h : CsrValid n_row n_col Ap Aj Ax) :
    (csr_tocsc n_row n_col Ap Aj Ax).2.1.length = Ap.getD n_row 0 ∧
    (csr_tocsc n_row n_col Ap Aj Ax).2.2.length = Ap.getD n_row 0 ∧
    List.Perm
      ((csrEntriesWithRow n_col (csr_tocsc n_row n_col Ap Aj Ax).1
          (csr_tocsc n_row n_col Ap Aj Ax).2.1 (csr_tocsc n_row n_col Ap Aj Ax).2.2).map
        fun e => (e.2.1, e.1, e.2.2))
      (csrEntriesWithRow n_row Ap Aj Ax) ∧
    ∀ c, c < n_col →
      List.Pairwise (fun r1 r2 => r1 ≤ r2)
        (rowCols (csr_tocsc n_row n_col Ap Aj Ax).1 (csr_tocsc n_row n_col Ap Aj Ax).2.1 c) :=
  ⟨(csr_tocsc_spec n_row n_col Ap Aj Ax h).2.1,
   (csr_tocsc_spec n_row n_col Ap Aj Ax h).2.2.1,
   csr_tocsc_perm n_row n_col Ap Aj Ax h,
   fun c hc => csr_tocsc_pairwise n_row n_col Ap Aj Ax h c hc⟩

/-- Witness for C10 at a concrete 2x3 matrix with a zero value and a repeated
column index. -/
theorem claim_C10_tocsc_counting_sort_witness :
    (csr_tocsc 2 3 [0, 2, 3] [2, 0, 2] [5, 0, 7]).2.1.length = [0, 2, 3].getD 2 0 ∧
    (csr_tocsc 2 3 [0, 2, 3] [2, 0, 2] [5, 0, 7]).2.2.length = [0, 2, 3].getD 2 0 ∧
    List.Perm
      ((csrEntriesWithRow 3 (csr_tocsc 2 3 [0, 2, 3] [2, 0, 2] [5, 0, 7]).1
          (csr_tocsc 2 3 [0, 2, 3] [2, 0, 2] [5, 0, 7]).2.1
          (csr_tocsc 2 3 [0, 2, 3] [2, 0, 2] [5, 0, 7]).2.2).map
        fun e => (e.2.1, e.1, e.2.2))
      (csrEntriesWithRow 2 [0, 2, 3] [2, 0, 2] [5, 0, 7]) ∧
    ∀ c, c < 3 →
      List.Pairwise (fun r1 r2 => r1 ≤ r2)
        (rowCols (csr_tocsc 2 3 [0, 2, 3] [2, 0, 2] [5, 0, 7]).1
          (csr_tocsc 2 3 [0, 2, 3] [2, 0, 2] [5, 0, 7]).2.1 c) :=
  claim_C10_tocsc_counting_sort 2 3 [0, 2, 3] [2, 0, 2] [5, 0, 7]
    (by refine ⟨?_, ?_, ?_, ?_, ?_, ?_⟩ <;> decide)

/-- C6: for every valid CSR matrix, transposing twice — csr_tocsc followed by
csc_tocsr, which reuses the same counting-sort routine with the roles of rows
and columns swapped — yields a matrix whose triples are a permutation of the
input's, and each row of the result holds exactly the (column, value) pairs of
the corresponding input row, possibly reordered within the row. -/
theorem claim_C6_double_transpose (n_row n_col : Nat) (Ap Aj : List Nat) (Ax : List Int)
    (h : CsrValid n_row n_col Ap Aj Ax) :
    List.Perm
      (csrEntriesWithRow n_row
        (csc_tocsr n_row n_col (csr_tocsc n_row n_col Ap Aj Ax).1
          (csr_tocsc n_row n_col Ap Aj Ax).2.1 (csr_tocsc n_row n_col Ap Aj Ax).2.2).1
        (csc_tocsr n_row n_col (csr_tocsc n_row n_col Ap Aj Ax).1
          (csr_tocsc n_row n_col Ap Aj Ax).2.1 (csr_tocsc n_row n_col Ap Aj Ax).2.2).2.1
        (csc_tocsr n_row n_col (csr_tocsc n_row n_col Ap Aj Ax).1
          (csr_tocsc n_row n_col Ap Aj Ax).2.1 (csr_tocsc n_row n_col Ap Aj Ax).2.2).2.2)
      (csrEntriesWithRow n_row Ap Aj Ax) ∧
    ∀ i, i < n_row →
      List.Perm
        (rowEntries
          (csc_tocsr n_row n_col (csr_tocsc n_row n_col Ap Aj Ax).1
            (csr_tocsc n_row n_col Ap Aj Ax).2.1 (csr_tocsc n_row n_col Ap Aj Ax).2.2).1
          (csc_tocsr n_row n_col (csr_tocsc n_row n_col Ap Aj Ax).1
            (csr_tocsc n_row n_col Ap Aj Ax).2.1 (csr_tocsc n_row n_col Ap Aj Ax).2.2).2.1
          (csc_tocsr n_row n_col (csr_tocsc n_row n_col Ap Aj Ax).1
            (csr_tocsc n_row n_col Ap Aj Ax).2.1 (csr_tocsc n_row n_col Ap Aj Ax).2.2).2.2 i)
        (rowEntries Ap Aj Ax i) := by
  simp only [csc_tocsr]
  have hv1 := csr_tocsc_valid n_row n_col Ap Aj Ax h
  have hperm1 := csr_tocsc_perm n_row n_col Ap Aj Ax h
  have hrows2 := (csr_tocsc_spec n_col n_row (csr_tocsc n_row n_col Ap Aj Ax).1
    (csr_tocsc n_row n_col Ap Aj Ax).2.1 (csr_tocsc n_row n_col Ap Aj Ax).2.2 hv1).2.2.2
  have hrowperm : ∀ i, i < n_row →
      List.Perm
        (rowEntries
          (csr_tocsc n_col n_row (csr_tocsc n_row n_col Ap Aj Ax).1
            (csr_tocsc n_row n_col Ap Aj Ax).2.1 (csr_tocsc n_row n_col Ap Aj Ax).2.2).1
          (csr_tocsc n_col n_row (csr_tocsc n_row n_col Ap Aj Ax).1
            (csr_tocsc n_row n_col Ap Aj Ax).2.1 (csr_tocsc n_row n_col Ap Aj Ax).2.2).2.1
          (csr_tocsc n_col n_row (csr_tocsc n_row n_col Ap Aj Ax).1
            (csr_tocsc n_row n_col Ap Aj Ax).2.1 (csr_tocsc n_row n_col Ap Aj Ax).2.2).2.2 i)
        (rowEntries Ap Aj Ax i) := by
    intro i hi
    rw [hrows2 i hi]
    have hfperm := hperm1.filter (fun e => decide (e.1 = i))
    rw [List.filter_map] at hfperm
    rw [csrEntriesWithRow_filter_fst n_row Ap Aj Ax i hi] at hfperm
    have hmapped := hfperm.map (fun e : Nat × Nat × Int => (e.2.1, e.2.2))
    rw [List.map_map, List.map_map] at hmapped
    have hR : (rowEntries Ap Aj Ax i).map
        ((fun e : Nat × Nat × Int => (e.2.1, e.2.2)) ∘ fun e : Nat × Int => (i, e.1, e.2)) =
        rowEntries Ap Aj Ax i := by
      conv_rhs => rw [← List.map_id (rowEntries Ap Aj Ax i)]
      apply List.map_congr_left
      intro e he
      rfl
    rw [← hR]
    exact hmapped
  refine ⟨?_, hrowperm⟩
  simp only [csrEntriesWithRow]
  apply flatMap_perm_congr
  intro i hi
  exact (hrowperm i (List.mem_range.1 hi)).map _

/-- Witness for C6 at a concrete 2x2 matrix with a repeated column across
rows. -/
theorem claim_C6_double_transpose_witness :
    List.Perm
      (csrEntriesWithRow 2
        (csc_tocsr 2 2 (csr_tocsc 2 2 [0, 2, 3] [0, 1, 0] [1, 2, 3]).1
          (csr_tocsc 2 2 [0, 2, 3] [0, 1, 0] [1, 2, 3]).2.1
          (csr_tocsc 2 2 [0, 2, 3] [0, 1, 0] [1, 2, 3]).2.2).1
        (csc_tocsr 2 2 (csr_tocsc 2 2 [0, 2, 3] [0, 1, 0] [1, 2, 3]).1
          (csr_tocsc 2 2 [0, 2, 3] [0, 1, 0] [1, 2, 3]).2.1
          (csr_tocsc 2 2 [0, 2, 3] [0, 1, 0] [1, 2, 3]).2.2).2.1
        (csc_tocsr 2 2 (csr_tocsc 2 2 [0, 2, 3] [0, 1, 0] [1, 2, 3]).1
          (csr_tocsc 2 2 [0, 2, 3] [0, 1, 0] [1, 2, 3]).2.1
          (csr_tocsc 2 2 [0, 2, 3] [0, 1, 0] [1, 2, 3]).2.2).2.2)
      (csrEntriesWithRow 2 [0, 2, 3] [0, 1, 0] [1, 2, 3]) ∧
    ∀ i, i < 2 →
      List.Perm
        (rowEntries
          (csc_tocsr 2 2 (csr_tocsc 2 2 [0, 2, 3] [0, 1, 0] [1, 2, 3]).1
            (csr_tocsc 2 2 [0, 2, 3] [0, 1, 0] [1, 2, 3]).2.1
            (csr_tocsc 2 2 [0, 2, 3] [0, 1, 0] [1, 2, 3]).2.2).1
          (csc_tocsr 2 2 (csr_tocsc 2 2 [0, 2, 3] [0, 1, 0] [1, 2, 3]).1
            (csr_tocsc 2 2 [0, 2, 3] [0, 1, 0] [1, 2, 3]).2.1
            (csr_tocsc 2 2 [0, 2, 3] [0, 1, 0] [1, 2, 3]).2.2).2.1
          (csc_tocsr 2 2 (csr_tocsc 2 2 [0, 2, 3] [0, 1, 0] [1, 2, 3]).1
            (csr_tocsc 2 2 [0, 2, 3] [0, 1, 0] [1, 2, 3]).2.1
            (csr_tocsc 2 2 [0, 2, 3] [0, 1, 0] [1, 2, 3]).2.2).2.2 i)
        (rowEntries [0, 2, 3] [0, 1, 0] [1, 2, 3] i) :=
  claim_C6_double_transpose 2 2 [0, 2, 3] [0, 1, 0] [1, 2, 3]
    (by refine ⟨?_, ?_, ?_, ?_, ?_, ?_⟩ <;> decide)

end Sparsetools
